import Mathlib

/-!
# Verification of `router.go`

A shallow embedding of the request router (`Register` / `Match`, the trie
`insert` and the backtracking `match`) followed by theorems about it.

Modelling conventions.
* A Go `string` is a sequence of bytes; it is embedded as `List Char`, one list
  element per byte. The code only ever compares bytes with `'/'`, `'{'`, `'}'`,
  `'*'`, `'?'` and with each other.
* A Go `map[K]V` is embedded by its content, a function `K → Option V`
  (`none` = key absent). A `nil` map has the content of the empty map.
* `HandlerFunc` values are opaque: a handler is `Option H` for an arbitrary
  type `H`, where `none` is Go's `nil` handler.
* Pointers into the trie are embedded functionally: `insert` returns the
  updated node, `findChild` returns the position of the child it points to.
* `match` mutates the caller's `params` map; `matchNode` returns the handler
  together with the content of that map after the call.
-/

namespace router

/-- Go strings, byte by byte. -/
abbrev Str := List Char

/-- Content of a Go `map[K]V`. -/
abbrev GoMap (K V : Type) := K → Option V

/-- The map with no key (also the content of a `nil` map). -/
def emptyMap {K V : Type} : GoMap K V := fun _ => none

/-- Assignment `m[k] = v`. -/
def mapSet {K V : Type} [DecidableEq K] (m : GoMap K V) (k : K) (v : V) : GoMap K V :=
  fun k' => if k' = k then some v else m k'

/-- Content of `map[string]string` parameter mappings. -/
abbrev Params := GoMap Str Str

/-- `type node struct` (router.go:5). The field `prefix` is called `pfx`. -/
inductive node (H : Type) where
  | mk (pfx : Str) (children : List (node H)) (paramName : Str)
       (isParam isWildcard isMultiWild : Bool) (handler : Option H) : node H

namespace node
variable {H : Type}

def pfx : node H → Str
  | mk p _ _ _ _ _ _ => p

def children : node H → List (node H)
  | mk _ c _ _ _ _ _ => c

def paramName : node H → Str
  | mk _ _ n _ _ _ _ => n

def isParam : node H → Bool
  | mk _ _ _ b _ _ _ => b

def isWildcard : node H → Bool
  | mk _ _ _ _ b _ _ => b

def isMultiWild : node H → Bool
  | mk _ _ _ _ _ b _ => b

def handler : node H → Option H
  | mk _ _ _ _ _ _ h => h

/-- The zero value `&node{}`. -/
def zero : node H := mk [] [] [] false false false none

/-- Assignment `n.handler = handler`. -/
def setHandler : node H → Option H → node H
  | mk p c n b1 b2 b3 _, h => mk p c n b1 b2 b3 h

/-- Assignment `n.paramName = name`. -/
def setParamName : node H → Str → node H
  | mk p c _ b1 b2 b3 h, name => mk p c name b1 b2 b3 h

/-- Assignment `n.children = cs`. -/
def setChildren : node H → List (node H) → node H
  | mk p _ n b1 b2 b3 h, cs => mk p cs n b1 b2 b3 h

end node

/-- `type Tree struct` (router.go:15). -/
structure Tree (H : Type) where
  staticRoutes : GoMap Str (Option H)
  root : node H

/-- `type Router struct` (router.go:20). -/
structure Router (H : Type) where
  trees : GoMap Str (Tree H)

variable {H : Type}

/-- The slice expression `s[a:b]`. -/
def slice (s : Str) (a b : Nat) : Str := (s.drop a).take (b - a)

/-- The loop `for e < len(path) && path[e] != '/' { e++ }` run on the bytes of
`path` from position `e` on; `rest` is `path[e:]`. -/
def scanFrom : Str → Nat → Nat
  | [], e => e
  | c :: rest, e => if c ≠ '/' then scanFrom rest (e + 1) else e

/-- Position reached by `for e < len(path) && path[e] != '/' { e++ }` from `e = i`. -/
def scan (path : Str) (i : Nat) : Nat := scanFrom (path.drop i) i

/-- `func isStaticPath` (router.go:63). -/
def isStaticPath : Str → Bool
  | [] => true
  | c :: rest => if c = '{' ∨ c = '*' ∨ c = '?' then false else isStaticPath rest

/-- `func isParam` (router.go:127). -/
def isParam (seg : Str) : Bool :=
  decide (seg.length > 1) && seg.get? 0 == some '{' && seg.get? (seg.length - 1) == some '}'

/-- The slice `seg[1 : len(seg)-1]`, the text between the first and the last byte
(empty when `len(seg) < 2`, where the Go expression is out of range). -/
def inner (seg : Str) : Str := slice seg 1 (seg.length - 1)

/-- The condition under which the loop of `findChild` returns `ch` (router.go:111-122). -/
def childMatches (ch : node H) (seg : Str) : Bool :=
  ch.pfx == seg
    || (ch.isParam && isParam seg && ch.paramName == inner seg)
    || (ch.isWildcard && seg == ['*'])
    || (ch.isMultiWild && seg == ['*', '*'])

/-- `func findChild` (router.go:109) over `n.children`: the position of the
first child the loop returns, `none` for `nil`. -/
def findChild : List (node H) → Str → Option Nat
  | [], _ => none
  | ch :: rest, seg =>
    if childMatches ch seg then some 0 else (findChild rest seg).map (· + 1)

/-- The node `&node{prefix: seg}` after the `switch` of router.go:91-99. -/
def newChild (seg : Str) : node H :=
  if seg = ['*'] then node.mk seg [] [] false true false none
  else if seg = ['*', '*'] then node.mk seg [] [] false false true none
  else if isParam seg then node.mk seg [] (inner seg) true false false none
  else node.mk seg [] [] false false false none

/-- Lines 102-104: `if child.isParam { child.paramName = seg[1:len(seg)-1] }`. -/
def fixParamName (child : node H) (seg : Str) : node H :=
  if child.isParam then child.setParamName (inner seg) else child

/-- Replace the element at position `k` by its image under `f`. -/
def updateAt {α : Type} (f : α → α) : List α → Nat → List α
  | [], _ => []
  | a :: rest, 0 => f a :: rest
  | a :: rest, k + 1 => a :: updateAt f rest k

/-- One iteration of the loop body of `insert` from line 88 on, for segment
`seg`: find or create the child, fix its parameter name, and continue in it
(`n = child`) with `cont`. -/
def step (n : node H) (seg : Str) (cont : node H → node H) : node H :=
  match findChild n.children seg with
  | some k => n.setChildren (updateAt (fun child => cont (fixParamName child seg)) n.children k)
  | none => n.setChildren (n.children ++ [cont (fixParamName (newChild seg) seg)])

/-- The `for` loop of `insert` (router.go:75-106) with cursor `i`; `fuel`
bounds the number of iterations. -/
def insertLoop (path : Str) (handler : Option H) : Nat → node H → Nat → node H
  | 0, n, _ => n
  | fuel + 1, n, i =>
    if i ≥ path.length then n.setHandler handler
    else
      let start := i
      let i1 := scan path i
      let seg := slice path start i1
      let i2 := if i1 < path.length ∧ path.get? i1 = some '/' then i1 + 1 else i1
      step n seg (fun child => insertLoop path handler fuel child i2)

/-- `func insert` (router.go:73). Every iteration but the last advances the
cursor, so `len(path) + 1` iterations are enough. -/
def insert (n : node H) (path : Str) (handler : Option H) : node H :=
  insertLoop path handler (path.length + 1) n 0

/-- `func copyParams` (router.go:192): a fresh map with the same content. -/
def copyParams (m : Params) : Params := fun k => m k

/-- `func copyMap` (router.go:200): the content of `dst` after the call. -/
def copyMap (_dst src : Params) : Params := fun k => src k

/-- The `**` loop `for j := len(path); j >= pi; j--` of router.go:145-153. The
first argument counts the values of `j` still to visit, the next one being
`j = pi + c`; it starts at `len(path) + 1 - pi` (no iteration when
`pi > len(path)`). `recur j np` is `match(ch, path, j, newParams)`; the result
is the handler found (if any) and the content of `newParams` afterwards. -/
def multiLoop (recur : Nat → Params → Option H × Params) (path : Str) (pi : Nat) :
    Nat → Params → Option H × Params
  | 0, np => (none, np)
  | c + 1, np =>
    if pi + c < path.length ∧ path.get? (pi + c) ≠ some '/' then
      multiLoop recur path pi c np
    else
      match recur (pi + c) np with
      | (some h, np1) => (some h, np1)
      | (none, np1) => multiLoop recur path pi c np1

/-- The lines `if h := match(ch, ...); h != nil { copyMap(params, newParams); return h }`
applied to the result `res` of the recursive call: on a handler, `params`
takes the content of `newParams`; otherwise the body is left without a
result and `params` was never written to. -/
def commit (params : Params) (res : Option H × Params) : Option H × Params :=
  match res with
  | (some h, np) => (some h, copyMap params np)
  | (none, _) => (none, params)

/-- The body of the loop over `n.children` in `match` (router.go:140-187) for
one child `ch`, where `recur j np` is `match(ch, path, j, np)`. The result is
the handler returned from inside the body (`none` when the loop goes on to the
next child) and the content of `params` afterwards. -/
def tryChild (ch : node H) (recur : Nat → Params → Option H × Params)
    (path : Str) (i : Nat) (params : Params) : Option H × Params :=
  let pi := i
  let newParams := copyParams params
  if ch.isMultiWild then
    commit params (multiLoop recur path pi (path.length + 1 - pi) newParams)
  else if ch.isWildcard then
    let e := scan path pi
    commit params (recur (e + 1) newParams)
  else if ch.isParam then
    let e := scan path pi
    let newParams := mapSet newParams ch.paramName (slice path pi e)
    commit params (recur (e + 1) newParams)
  else
    if path.length ≥ pi + ch.pfx.length ∧ slice path pi (pi + ch.pfx.length) = ch.pfx then
      let next := pi + ch.pfx.length
      let next := if next < path.length ∧ path.get? next = some '/' then next + 1 else next
      commit params (recur next newParams)
    else (none, params)

mutual
/-- `func match` (router.go:131): the handler returned and the content of the
caller's `params` map after the call. -/
def matchNode : node H → Str → Nat → Params → Option H × Params
  | node.mk _ children _ _ _ _ handler, path, i, params =>
    if i ≥ path.length then (handler, params)
    else matchChildren children path i params
/-- The loop `for _, ch := range n.children` of `match`. -/
def matchChildren : List (node H) → Str → Nat → Params → Option H × Params
  | [], _, _, params => (none, params)
  | ch :: rest, path, i, params =>
    match tryChild ch (fun j np => matchNode ch path j np) path i params with
    | (some h, p) => (some h, p)
    | (none, p) => matchChildren rest path i p
end

/-- `func New` (router.go:24). -/
def New : Router H := ⟨emptyMap⟩

/-- Lines 31-37 of `Register`: the method's tree, created empty when the
method has none yet. -/
def getTree (r : Router H) (method : Str) : Tree H :=
  match r.trees method with
  | some t => t
  | none => ⟨emptyMap, node.zero⟩

/-- `func (r *Router) Register` (router.go:30). -/
def Register (r : Router H) (method path : Str) (handler : Option H) : Router H :=
  let tree := getTree r method
  if isStaticPath path then
    ⟨mapSet r.trees method ⟨mapSet tree.staticRoutes path handler, tree.root⟩⟩
  else
    ⟨mapSet r.trees method ⟨tree.staticRoutes, insert tree.root path handler⟩⟩

/-- The three results of `Match`; `params` is the content of the returned map
(`nil` has the content of the empty map). -/
structure MatchResult (H : Type) where
  handler : Option H
  params : Params
  found : Bool

/-- Lines 55-58 of `Match`, applied to the result of `match(tree.root, path, 0, params)`. -/
def trieResult (res : Option H × Params) : MatchResult H :=
  match res with
  | (some h, params) => ⟨some h, params, true⟩
  | (none, _) => ⟨none, emptyMap, false⟩

/-- `func (r *Router) Match` (router.go:46). -/
def Match (r : Router H) (method path : Str) : MatchResult H :=
  match r.trees method with
  | none => ⟨none, emptyMap, false⟩
  | some tree =>
    match tree.staticRoutes path with
    | some h => ⟨h, emptyMap, true⟩
    | none => trieResult (matchNode tree.root path 0 emptyMap)

/-- A sequence of `Register` calls, applied from left to right. -/
def registerAll (r : Router H) : List (Str × Str × Option H) → Router H
  | [] => r
  | (m, p, h) :: rest => registerAll (Register r m p h) rest

/-! ## Auxiliary definitions

Notions used to state and to prove the theorems; none of them is part of the
program. -/

/-! ### Segments of a path and the trie of one route -/

/-- The segment starting at a suffix: the bytes before the first `'/'`. -/
def segOf (l : Str) : Str := l.takeWhile (fun c => decide (c ≠ '/'))

/-- What follows the segment at the start of a suffix: empty, or a `'/'` and the rest. -/
def afterSeg (l : Str) : Str := l.dropWhile (fun c => decide (c ≠ '/'))

/-- The segments `insert` walks through: the texts between `'/'` separators,
without the empty segment after a trailing `'/'`. -/
def segments : Str → List Str
  | [] => []
  | c :: rest =>
    if c = '/' then [] :: segments rest
    else
      match segments rest with
      | [] => [[c]]
      | s :: ss => (c :: s) :: ss

/-- The loop of `insert` run over a list of segments. -/
def insertSegs (handler : Option H) : List Str → node H → node H
  | [], n => n.setHandler handler
  | seg :: rest, n => step n seg (insertSegs handler rest)

/-- The children of a node after one loop iteration of `insert` for `seg`:
the first child `findChild` accepts is continued in, and when there is none a
new child is appended. -/
def stepList (seg : Str) (cont : node H → node H) : List (node H) → List (node H)
  | [] => [cont (fixParamName (newChild seg) seg)]
  | ch :: rest =>
    if childMatches ch seg then cont (fixParamName ch seg) :: rest
    else ch :: stepList seg cont rest

/-- The trie below a node without children after inserting one route: one
child per segment, the handler on the last. -/
def chain (handler : Option H) : List Str → node H → node H
  | [], n => n.setHandler handler
  | seg :: rest, n => n.setChildren [chain handler rest (newChild seg)]

/-! ### Router states -/

/-- Method `m` has the static-map entry `p ↦ h`. -/
def HasStatic (r : Router H) (m p : Str) (h : Option H) : Prop :=
  ∃ t, r.trees m = some t ∧ t.staticRoutes p = some h

/-- Two nodes agree on everything `findChild` and `match` look at in a child
before descending into it. -/
def SameKind (a b : node H) : Prop :=
  a.pfx = b.pfx ∧ a.paramName = b.paramName ∧ a.isParam = b.isParam
    ∧ a.isWildcard = b.isWildcard ∧ a.isMultiWild = b.isMultiWild

/-- The route with segments `segs` and handler `h` runs through the first
child at every node on its way down from `n`. -/
def FirstChain (h : H) : List Str → node H → Prop
  | [], n => n.handler = some h
  | seg :: rest, n =>
    ∃ c cs, n.children = c :: cs ∧ SameKind c (newChild seg) ∧ FirstChain h rest c

/-- Method `m` of the router has no static entry for `q`, and the route with
segments `segs` and handler `h` runs through first children of its trie. -/
def FirstRoute (r : Router H) (m q : Str) (segs : List Str) (h : H) : Prop :=
  ∃ t, r.trees m = some t ∧ t.staticRoutes q = none ∧ FirstChain h segs t.root

/-! ### Patterns and their instances -/

/-- A segment of a route pattern together with the text it is instantiated
with: a static text, or a parameter `{name}` and the value put in its place. -/
inductive PatSeg where
  | lit (text : Str) : PatSeg
  | par (name value : Str) : PatSeg

/-- The segment as written in the pattern. -/
def PatSeg.pat : PatSeg → Str
  | PatSeg.lit t => t
  | PatSeg.par n _ => '{' :: n ++ ['}']

/-- The segment as written in the concrete path. -/
def PatSeg.val : PatSeg → Str
  | PatSeg.lit t => t
  | PatSeg.par _ v => v

/-- Static texts are non-empty and contain none of `'/'`, `'{'`, `'}'`, `'*'`;
a parameter is one segment (no `'/'` in its name) and its value is non-empty
and contains no `'/'`. -/
def PatSeg.Valid : PatSeg → Prop
  | PatSeg.lit t => t ≠ [] ∧ '/' ∉ t ∧ '{' ∉ t ∧ '}' ∉ t ∧ '*' ∉ t
  | PatSeg.par n v => '/' ∉ n ∧ v ≠ [] ∧ '/' ∉ v

/-- The names of the parameters of a pattern, in order. -/
def paramNames : List PatSeg → List Str
  | [] => []
  | PatSeg.lit _ :: rest => paramNames rest
  | PatSeg.par n _ :: rest => n :: paramNames rest

/-- Segments joined by `"/"`. -/
def joinSlash : List Str → Str
  | [] => []
  | [s] => s
  | s :: rest => s ++ '/' :: joinSlash rest

/-- The pattern: `"/"` followed by the segments joined by `"/"`. -/
def patternOf (segs : List PatSeg) : Str := '/' :: joinSlash (segs.map PatSeg.pat)

/-- The path obtained from the pattern by replacing each `{name}` with its value. -/
def pathOf (segs : List PatSeg) : Str := '/' :: joinSlash (segs.map PatSeg.val)

/-- The bindings made while walking the segments, in order. -/
def bindAll : List PatSeg → Params → Params
  | [], p => p
  | PatSeg.lit _ :: rest, p => bindAll rest p
  | PatSeg.par n v :: rest, p => bindAll rest (mapSet p n v)

/-! ### Parameter values as pieces of the path -/

/-- The value `v` is the complete text of one segment of `q`: a substring
`q[a:b]` without `'/'` that starts at the start of `q` or right after a `'/'`
and ends at the end of `q` or right before a `'/'`. -/
def IsWholeSegment (q v : Str) : Prop :=
  ∃ a b, a ≤ b ∧ b ≤ q.length ∧ slice q a b = v ∧ '/' ∉ v
    ∧ (a = 0 ∨ q.get? (a - 1) = some '/') ∧ (b = q.length ∨ q.get? b = some '/')

/-- The value `v` is a substring `q[a:b]` without `'/'` that ends at the end of
`q` or right before a `'/'`. -/
def EndsSegment (q v : Str) : Prop :=
  ∃ a b, a ≤ b ∧ b ≤ q.length ∧ slice q a b = v ∧ '/' ∉ v
    ∧ (b = q.length ∨ q.get? b = some '/')

/-- Every value bound in the mapping ends a segment of `q`. -/
def ParamsOk (q : Str) (params : Params) : Prop :=
  ∀ k v, params k = some v → EndsSegment q v

/-! ### Routers of the examples -/

/-- The method name `"GET"`. -/
def GET : Str := "GET".toList

/-- The method name `"POST"`. -/
def POST : Str := "POST".toList

/-- The router after `Register("GET", "/u/{x}", 1)`. -/
def routerU : Router Nat := Register New GET "/u/{x}".toList (some 1)

/-- The router after `Register("GET", "/a/{x}/c", 1)` and `Register("GET", "/a/{y}/d", 2)`. -/
def routerXY : Router Nat :=
  Register (Register New GET "/a/{x}/c".toList (some 1)) GET "/a/{y}/d".toList (some 2)

/-- The router after `Register("GET", "/a/{x}/c", 1)` and `Register("GET", "/a/{x}/d", 2)`. -/
def routerXX : Router Nat :=
  Register (Register New GET "/a/{x}/c".toList (some 1)) GET "/a/{x}/d".toList (some 2)

/-- The router after `Register("GET", "/{x}/foo", 1)`, `Register("GET", "/*/bar", 2)`
and `Register("GET", "/{x}/bar", 3)`. -/
def routerOrder : Router Nat :=
  Register (Register (Register New GET "/{x}/foo".toList (some 1)) GET "/*/bar".toList (some 2))
    GET "/{x}/bar".toList (some 3)

/-- The router after `Register("GET", "/a?b", 1)`. -/
def routerQ : Router Nat := Register New GET "/a?b".toList (some 1)

/-! ### Well-formed tries -/

mutual
/-- Every node below `n` has the flags and the parameter name that `insert`
gives a new node with the same prefix, and siblings have different prefixes. -/
def WF : node H → Prop
  | node.mk _ cs _ _ _ _ _ => WFList cs
/-- The children `cs` of one node are well formed. -/
def WFList : List (node H) → Prop
  | [] => True
  | c :: rest =>
    SameKind c (newChild c.pfx) ∧ (∀ d ∈ rest, d.pfx ≠ c.pfx) ∧ WF c ∧ WFList rest
end

/-- The tries of all methods of the router are well formed. -/
def RouterWF (r : Router H) : Prop := ∀ m t, r.trees m = some t → WF t.root

/-- The nodes of the trie below (and including) `root`. -/
inductive Descendant (root : node H) : node H → Prop where
  | self : Descendant root root
  | child (a c : node H) : Descendant root a → c ∈ a.children → Descendant root c

/-- The classification of a node as the claim about tries words it: the flags
follow from the prefix, at most one of them is set, and a parameter node's
name is its prefix without the braces. -/
def KindOk (c : node H) : Prop :=
  (c.isWildcard = true ↔ c.pfx = ['*'])
    ∧ (c.isMultiWild = true ↔ c.pfx = ['*', '*'])
    ∧ (c.isParam = true ↔ isParam c.pfx = true)
    ∧ (c.isParam = true → c.paramName = inner c.pfx)
    ∧ ¬ (c.isParam = true ∧ c.isWildcard = true)
    ∧ ¬ (c.isParam = true ∧ c.isMultiWild = true)
    ∧ ¬ (c.isWildcard = true ∧ c.isMultiWild = true)

/-- A static node: none of the three flags is set. -/
def node.isStatic (c : node H) : Bool := !c.isParam && !c.isWildcard && !c.isMultiWild

/-- What the claim about tries says of the children `cs` of one node. -/
def ChildrenOk (cs : List (node H)) : Prop :=
  (∀ c ∈ cs, KindOk c)
    ∧ (cs.map node.pfx).Nodup
    ∧ ((cs.filter node.isStatic).map node.pfx).Nodup
    ∧ ((cs.filter node.isParam).map node.paramName).Nodup
    ∧ (cs.filter node.isWildcard).length ≤ 1
    ∧ (cs.filter node.isMultiWild).length ≤ 1

/-- The trie after inserting `/a/{x}/c` with `h1` and then `/a/{y}/d` with `h2`
into an empty root: the node of `a` has two parameter children. -/
def trieXY (h1 h2 : Option H) : node H :=
  node.mk [] [node.mk [] [node.mk "a".toList
    [node.mk "{x}".toList [node.mk "c".toList [] [] false false false h1]
      "x".toList true false false none,
     node.mk "{y}".toList [node.mk "d".toList [] [] false false false h2]
      "y".toList true false false none]
    [] false false false none] [] false false false none] [] false false false none

/-- The node of `a` in `trieXY (some 1) (some 2)`: its children are the
parameter nodes `{x}` and `{y}`. -/
def nodeXYa : node Nat :=
  node.mk "a".toList
    [node.mk "{x}".toList [node.mk "c".toList [] [] false false false (some 1)]
      "x".toList true false false none,
     node.mk "{y}".toList [node.mk "d".toList [] [] false false false (some 2)]
      "y".toList true false false none]
    [] false false false none

/-- The node of the empty first segment in the trie of `routerOrder`: its
children are the parameter node `{x}` (with the static children `foo` and
`bar`) and the wildcard node `*`. -/
def nodeOrder : node Nat :=
  node.mk []
    [node.mk "{x}".toList
      [node.mk "foo".toList [] [] false false false (some 1),
       node.mk "bar".toList [] [] false false false (some 3)]
      "x".toList true false false none,
     node.mk ['*'] [node.mk "bar".toList [] [] false false false (some 2)]
      [] false true false none]
    [] false false false none

/-! ### Trailing slash -/

/-- The cursor on `q + "/"` that corresponds to the cursor `j` on `q`: the same
position inside `q`, and past the added slash once `q` is exhausted. -/
def slashCursor (q : Str) (j : Nat) : Nat := if j < q.length then j else q.length + 1

/-- No trie root of the router carries a handler. -/
def RootBare (r : Router H) : Prop := ∀ m t, r.trees m = some t → t.root.handler = none

/-! ### A path read as its own pattern -/

/-- No segment follows a `**` segment. -/
def MultiLast : List Str → Prop
  | [] => True
  | seg :: rest => (seg = ['*', '*'] → rest = []) ∧ MultiLast rest

/-- From cursor `i` on, `path` consists of the segments `segs` separated by
`'/'`, possibly with one `'/'` after the last. -/
def Spells (path : Str) : Nat → List Str → Prop
  | i, [] => i ≥ path.length
  | i, seg :: rest =>
    ∃ pre d, path = pre ++ seg ++ d ∧ pre.length = i ∧ '/' ∉ seg ∧ seg ++ d ≠ []
      ∧ (d = [] ∨ d.head? = some '/')
      ∧ (d = [] → rest = [])
      ∧ Spells path (i + seg.length + 1) rest

/-! ### Where handlers come from -/

/-- The call `Register(m, p, h)` is in the sequence `regs`, and no later call
of the sequence registers `p` under `m`. -/
def LastReg (regs : List (Str × Str × Option H)) (m p : Str) (h : Option H) : Prop :=
  ∃ pre post, regs = pre ++ (m, p, h) :: post ∧ ∀ e ∈ post, ¬ (e.1 = m ∧ e.2.1 = p)

mutual
/-- The property `Q addr handler` holds at every node below `n`, where `addr`
is the sequence of prefixes on the way from the root to the node and `n`
itself has address `addr`. -/
def Prov (Q : List Str → Option H → Prop) : List Str → node H → Prop
  | addr, node.mk _ cs _ _ _ _ hd => Q addr hd ∧ ProvList Q addr cs
/-- The property holds below each of the children `cs` of the node at `addr`. -/
def ProvList (Q : List Str → Option H → Prop) : List Str → List (node H) → Prop
  | _, [] => True
  | addr, c :: rest => Prov Q (addr ++ [c.pfx]) c ∧ ProvList Q addr rest
end

/-- A handler at address `addr` in the trie of `m` was passed by the most
recent registration of a patterned path with the segments `addr`. -/
def RegQ (regs : List (Str × Str × Option H)) (m : Str) : List Str → Option H → Prop :=
  fun addr hd => ∀ h, hd = some h →
    ∃ p, isStaticPath p = false ∧ segments p = addr ∧ LastReg regs m p (some h)

/-- Every handler of the router, in a static map or in a trie, was passed by
the most recent registration of its path in `regs`. -/
def RouterProv (regs : List (Str × Str × Option H)) (r : Router H) : Prop :=
  ∀ m t, r.trees m = some t →
    Prov (RegQ regs m) [] t.root
      ∧ ∀ p h, t.staticRoutes p = some h → isStaticPath p = true ∧ LastReg regs m p h

/-! ### The program with checked indexing

The functions `isParam`, `findChild`, `insert` and `match` once more, with
every index expression `s[i]` and every slice expression `s[a:b]` of the source
checked against the length of the string. The result `none` stands for the
run-time panic of an access out of range; everything else is as above. -/

/-- The index expression `s[i]` on a Go integer `i`: in range when
`0 ≤ i < len(s)`. -/
def indexC (s : Str) (i : Int) : Option Char :=
  if 0 ≤ i then s.get? i.toNat else none

/-- The slice expression `s[a:b]` on Go integers: in range when
`0 ≤ a ≤ b ≤ len(s)`. -/
def sliceC (s : Str) (a b : Int) : Option Str :=
  if 0 ≤ a ∧ a ≤ b ∧ b ≤ s.length then some (slice s a.toNat b.toNat) else none

/-- The loop `for e < len(path) && path[e] != '/' { e++ }` from position `e`,
with `path[e]` checked; `fuel` bounds the number of evaluations of the loop
condition (`none` also when it runs out). -/
def scanLoopC (path : Str) : Nat → Nat → Option Nat
  | 0, _ => none
  | fuel + 1, e =>
    if e < path.length then do
      let c ← indexC path e
      if c ≠ '/' then scanLoopC path fuel (e + 1) else pure e
    else pure e

/-- The scan loop from `e = i`; the condition is evaluated at most
`len(path) + 1` times. -/
def scanC (path : Str) (i : Nat) : Option Nat := scanLoopC path (path.length + 1) i

/-- `func isParam` (router.go:127) with `seg[0]` and `seg[len(seg)-1]` checked;
`&&` evaluates its right operand only when the left one is true. -/
def isParamC (seg : Str) : Option Bool :=
  if seg.length > 1 then do
    let c0 ← indexC seg 0
    if c0 = '{' then do
      let c1 ← indexC seg ((seg.length : Int) - 1)
      pure (decide (c1 = '}'))
    else pure false
  else pure false

/-- The slice `seg[1 : len(seg)-1]`, checked. -/
def innerC (seg : Str) : Option Str := sliceC seg 1 ((seg.length : Int) - 1)

/-- The body of the loop of `findChild` (router.go:111-122) for the child `ch`:
whether the loop returns `ch`. -/
def childMatchesC (ch : node H) (seg : Str) : Option Bool :=
  if ch.pfx = seg then pure true
  else do
    let second ←
      if ch.isParam = true then do
        let b ← isParamC seg
        if b = true then do
          let s ← innerC seg
          pure (decide (ch.paramName = s))
        else pure false
      else pure false
    if second = true then pure true
    else if ch.isWildcard = true ∧ seg = ['*'] then pure true
    else if ch.isMultiWild = true ∧ seg = ['*', '*'] then pure true
    else pure false

/-- `func findChild` (router.go:109), checked: the position of the child
returned, `some none` for `nil`. -/
def findChildC : List (node H) → Str → Option (Option Nat)
  | [], _ => pure none
  | ch :: rest, seg => do
    let b ← childMatchesC ch seg
    if b = true then pure (some 0)
    else do
      let r ← findChildC rest seg
      pure (r.map (· + 1))

/-- The node `&node{prefix: seg}` after the `switch` of router.go:91-99, checked. -/
def newChildC (seg : Str) : Option (node H) :=
  if seg = ['*'] then pure (node.mk seg [] [] false true false none)
  else if seg = ['*', '*'] then pure (node.mk seg [] [] false false true none)
  else do
    let b ← isParamC seg
    if b = true then do
      let s ← innerC seg
      pure (node.mk seg [] s true false false none)
    else pure (node.mk seg [] [] false false false none)

/-- Lines 102-104, `if child.isParam { child.paramName = seg[1:len(seg)-1] }`,
checked. -/
def fixParamNameC (child : node H) (seg : Str) : Option (node H) :=
  if child.isParam = true then do
    let s ← innerC seg
    pure (child.setParamName s)
  else pure child

/-- Replace the element at position `k` by its image under `f`, which may fail. -/
def updateAtC {α : Type} (f : α → Option α) : List α → Nat → Option (List α)
  | [], _ => pure []
  | a :: rest, 0 => do
    let b ← f a
    pure (b :: rest)
  | a :: rest, k + 1 => do
    let r ← updateAtC f rest k
    pure (a :: r)

/-- One iteration of the loop body of `insert` from line 88 on, checked. -/
def stepC (n : node H) (seg : Str) (cont : node H → Option (node H)) : Option (node H) := do
  let found ← findChildC n.children seg
  match found with
  | some k =>
    let cs ← updateAtC (fun child => do
      let c ← fixParamNameC child seg
      cont c) n.children k
    pure (n.setChildren cs)
  | none =>
    let c0 ← newChildC seg
    let c1 ← fixParamNameC c0 seg
    let c2 ← cont c1
    pure (n.setChildren (n.children ++ [c2]))

/-- The `for` loop of `insert` (router.go:75-106), checked; `none` also when
`fuel` iterations do not reach the `return`. -/
def insertLoopC (path : Str) (handler : Option H) : Nat → node H → Nat → Option (node H)
  | 0, _, _ => none
  | fuel + 1, n, i =>
    if i ≥ path.length then pure (n.setHandler handler)
    else do
      let start := i
      let i1 ← scanC path i
      let seg ← sliceC path start i1
      let i2 ←
        if i1 < path.length then do
          let c ← indexC path i1
          pure (if c = '/' then i1 + 1 else i1)
        else pure i1
      stepC n seg (fun child => insertLoopC path handler fuel child i2)

/-- `func insert` (router.go:73), checked. -/
def insertC (n : node H) (path : Str) (handler : Option H) : Option (node H) :=
  insertLoopC path handler (path.length + 1) n 0

/-- The `**` loop of router.go:145-153 with `path[j]` checked; the arguments
are those of `multiLoop`. -/
def multiLoopC (recur : Nat → Params → Option (Option H × Params)) (path : Str) (pi : Nat) :
    Nat → Params → Option (Option H × Params)
  | 0, np => pure (none, np)
  | c + 1, np => do
    let skip ←
      if pi + c < path.length then do
        let b ← indexC path ((pi + c : Nat) : Int)
        pure (decide (b ≠ '/'))
      else pure false
    if skip = true then multiLoopC recur path pi c np
    else do
      let r ← recur (pi + c) np
      match r with
      | (some h, np1) => pure (some h, np1)
      | (none, np1) => multiLoopC recur path pi c np1

/-- The body of the loop over `n.children` in `match` (router.go:140-187) for
one child, checked. -/
def tryChildC (ch : node H) (recur : Nat → Params → Option (Option H × Params))
    (path : Str) (i : Nat) (params : Params) : Option (Option H × Params) :=
  let pi := i
  let newParams := copyParams params
  if ch.isMultiWild = true then do
    let r ← multiLoopC recur path pi (path.length + 1 - pi) newParams
    pure (commit params r)
  else if ch.isWildcard = true then do
    let e ← scanC path pi
    let r ← recur (e + 1) newParams
    pure (commit params r)
  else if ch.isParam = true then do
    let e ← scanC path pi
    let v ← sliceC path pi e
    let r ← recur (e + 1) (mapSet newParams ch.paramName v)
    pure (commit params r)
  else
    if path.length ≥ pi + ch.pfx.length then do
      let s ← sliceC path pi ((pi + ch.pfx.length : Nat) : Int)
      if s = ch.pfx then do
        let next := pi + ch.pfx.length
        let next1 ←
          if next < path.length then do
            let c ← indexC path next
            pure (if c = '/' then next + 1 else next)
          else pure next
        let r ← recur next1 newParams
        pure (commit params r)
      else pure (none, params)
    else pure (none, params)

mutual
/-- `func match` (router.go:131), checked. -/
def matchNodeC : node H → Str → Nat → Params → Option (Option H × Params)
  | node.mk _ children _ _ _ _ handler, path, i, params =>
    if i ≥ path.length then pure (handler, params)
    else matchChildrenC children path i params
/-- The loop `for _, ch := range n.children` of `match`, checked. -/
def matchChildrenC : List (node H) → Str → Nat → Params → Option (Option H × Params)
  | [], _, _, params => pure (none, params)
  | ch :: rest, path, i, params => do
    let r ← tryChildC ch (fun j np => matchNodeC ch path j np) path i params
    match r with
    | (some h, p) => pure (some h, p)
    | (none, p) => matchChildrenC rest path i p
end

/-! ### Relabelling handlers

`insert` never reads a handler and `match` only tests a handler against `nil`,
so both commute with a relabelling of the handlers that keeps `nil` and only
`nil` as `nil`. Registering a route with a marker that no other route carries
tells which calls of `Match` resolve to that route. -/

mutual
/-- The trie `n` with `f` applied to the handler of every node. -/
def node.mapH {H' : Type} (f : Option H → Option H') : node H → node H'
  | node.mk p cs nm b1 b2 b3 hd => node.mk p (node.mapHList f cs) nm b1 b2 b3 (f hd)
/-- The children `cs` with `f` applied to the handler of every node below. -/
def node.mapHList {H' : Type} (f : Option H → Option H') : List (node H) → List (node H')
  | [] => []
  | c :: rest => node.mapH f c :: node.mapHList f rest
end

/-- The tree with `f` applied to every handler, in the static map and in the trie. -/
def Tree.mapH {H' : Type} (f : Option H → Option H') (t : Tree H) : Tree H' :=
  ⟨fun p => (t.staticRoutes p).map f, t.root.mapH f⟩

/-- The router with `f` applied to every handler. -/
def Router.mapH {H' : Type} (f : Option H → Option H') (r : Router H) : Router H' :=
  ⟨fun m => (r.trees m).map (Tree.mapH f)⟩

/-- The result of `match` with `f` applied to the handler. -/
def relabel {H' : Type} (f : Option H → Option H') (res : Option H × Params) :
    Option H' × Params :=
  (f res.1, res.2)

/-- The router `r` after `Register(m, p, ·)` with a marker for the handler:
handlers are of type `Option H`, a handler `h` of `r` has become `some h` and
the marker is `none` (the `nil` handler stays `nil`). -/
def markRoute (r : Router H) (m p : Str) : Router (Option H) :=
  Register (Router.mapH (Option.map some) r) m p (some none)

/-- Relabelling that puts `h` in the place of the marker and gives the
handlers of `r` back. -/
def unmark (h : Option H) : Option (Option H) → Option H
  | none => none
  | some none => h
  | some (some x) => some x

/-- Once `p` is registered under `m` in `r`, `Match(m, q)` resolves to the
route `p`: with the marker registered for `p`, it returns the marker. -/
def ResolvesTo (r : Router H) (m p q : Str) : Prop :=
  (Match (markRoute r m p) m q).handler = some none

/-- The router after `Register("GET", "/u/{x}/z", 9)` and `Register("GET", "/u/*", 3)`. -/
def routerFallback : Router Nat :=
  Register (Register New GET "/u/{x}/z".toList (some 9)) GET "/u/*".toList (some 3)

/-! ## Basic facts about maps and `Register` -/

theorem mapSet_same {K V : Type} [DecidableEq K] (m : GoMap K V) (k : K) (v : V) :
    mapSet m k v k = some v := by
  simp [mapSet]

theorem mapSet_other {K V : Type} [DecidableEq K] (m : GoMap K V) (k k' : K) (v : V)
    (hne : k' ≠ k) : mapSet m k v k' = m k' := by
  simp [mapSet, hne]

theorem isStaticPath_iff (p : Str) :
    isStaticPath p = true ↔ ∀ c ∈ p, c ≠ '{' ∧ c ≠ '*' ∧ c ≠ '?' := by
  induction p with
  | nil => simp [isStaticPath]
  | cons c rest ih =>
    by_cases hc : c = '{' ∨ c = '*' ∨ c = '?'
    · simp only [isStaticPath, if_pos hc, List.mem_cons, forall_eq_or_imp]
      constructor
      · intro hf
        cases hf
      · rintro ⟨⟨h1, h2, h3⟩, -⟩
        rcases hc with hc | hc | hc
        · exact absurd hc h1
        · exact absurd hc h2
        · exact absurd hc h3
    · simp only [isStaticPath, if_neg hc, List.mem_cons, forall_eq_or_imp, ih]
      constructor
      · intro hr
        refine ⟨⟨?_, ?_, ?_⟩, hr⟩
        · exact fun e => hc (Or.inl e)
        · exact fun e => hc (Or.inr (Or.inl e))
        · exact fun e => hc (Or.inr (Or.inr e))
      · exact fun hr => hr.2

theorem Register_static (r : Router H) (m p : Str) (h : Option H)
    (hp : isStaticPath p = true) :
    Register r m p h =
      ⟨mapSet r.trees m ⟨mapSet (getTree r m).staticRoutes p h, (getTree r m).root⟩⟩ := by
  simp [Register, hp]

theorem Register_pattern (r : Router H) (m p : Str) (h : Option H)
    (hp : isStaticPath p = false) :
    Register r m p h =
      ⟨mapSet r.trees m ⟨(getTree r m).staticRoutes, insert (getTree r m).root p h⟩⟩ := by
  simp [Register, hp]

theorem Register_trees_other (r : Router H) (m m' p : Str) (h : Option H) (hne : m' ≠ m) :
    (Register r m p h).trees m' = r.trees m' := by
  cases hp : isStaticPath p
  · rw [Register_pattern r m p h hp]
    exact mapSet_other _ _ _ _ hne
  · rw [Register_static r m p h hp]
    exact mapSet_other _ _ _ _ hne

theorem getTree_of_some (r : Router H) (m : Str) (t : Tree H) (ht : r.trees m = some t) :
    getTree r m = t := by
  simp [getTree, ht]

theorem hasStatic_register_self (r : Router H) (m p : Str) (h : Option H)
    (hp : isStaticPath p = true) : HasStatic (Register r m p h) m p h := by
  rw [Register_static r m p h hp]
  exact ⟨_, mapSet_same _ _ _, mapSet_same _ _ _⟩

theorem hasStatic_register_other (r : Router H) (m p m' p' : Str) (h h' : Option H)
    (hne : ¬ (m' = m ∧ p' = p)) (hs : HasStatic r m p h) :
    HasStatic (Register r m' p' h') m p h := by
  obtain ⟨t, ht, hp⟩ := hs
  by_cases hm : m = m'
  · subst hm
    have hpp : p ≠ p' := fun e => hne ⟨rfl, e.symm⟩
    cases hst : isStaticPath p'
    · rw [Register_pattern r m p' h' hst, getTree_of_some r m t ht]
      exact ⟨_, mapSet_same _ _ _, hp⟩
    · rw [Register_static r m p' h' hst, getTree_of_some r m t ht]
      exact ⟨_, mapSet_same _ _ _, (mapSet_other _ _ _ _ hpp).trans hp⟩
  · exact ⟨t, (Register_trees_other r m' m p' h' hm).trans ht, hp⟩

theorem hasStatic_registerAll (post : List (Str × Str × Option H)) (r : Router H)
    (m p : Str) (h : Option H)
    (hpost : ∀ e ∈ post, ¬ (e.1 = m ∧ e.2.1 = p)) (hs : HasStatic r m p h) :
    HasStatic (registerAll r post) m p h := by
  induction post generalizing r with
  | nil => exact hs
  | cons e rest ih =>
    obtain ⟨m', p', h'⟩ := e
    simp only [registerAll]
    apply ih
    · exact fun e he => hpost e (List.mem_cons_of_mem _ he)
    · exact hasStatic_register_other r m p m' p' h h' (hpost (m', p', h') (List.mem_cons_self _ _)) hs

theorem registerAll_append (l1 l2 : List (Str × Str × Option H)) (r : Router H) :
    registerAll r (l1 ++ l2) = registerAll (registerAll r l1) l2 := by
  induction l1 generalizing r with
  | nil => rfl
  | cons e rest ih =>
    obtain ⟨m', p', h'⟩ := e
    exact ih (Register r m' p' h')

theorem match_of_hasStatic (r : Router H) (m p : Str) (h : Option H)
    (hs : HasStatic r m p h) : Match r m p = ⟨h, emptyMap, true⟩ := by
  obtain ⟨t, ht, hp⟩ := hs
  simp only [Match, ht, hp]

/-! ## C1: static precedence -/

/-- C1. Static precedence: after any sequence of `Register` calls from `New`,
if the most recent registration of the static path `p` (no `'{'`, `'*'`, `'?'`)
under method `m` passed handler `h`, then `Match m p` returns handler `h`, the
empty parameter mapping and `found = true`, whatever was registered before or
after under other paths. -/
theorem static_precedence (pre post : List (Str × Str × Option H)) (m p : Str)
    (h : Option H)
    (hstatic : ∀ c ∈ p, c ≠ '{' ∧ c ≠ '*' ∧ c ≠ '?')
    (hlast : ∀ e ∈ post, ¬ (e.1 = m ∧ e.2.1 = p)) :
    Match (registerAll New (pre ++ (m, p, h) :: post)) m p = ⟨h, emptyMap, true⟩ := by
  apply match_of_hasStatic
  rw [registerAll_append]
  simp only [registerAll]
  apply hasStatic_registerAll _ _ _ _ _ hlast
  exact hasStatic_register_self _ _ _ _ ((isStaticPath_iff p).2 hstatic)

/-- Witness for C1: `/users/list` registered between two registrations of
`/users/{id}`. -/
theorem static_precedence_witness :
    Match (registerAll (New : Router Nat)
      ([("GET".toList, "/users/{id}".toList, some 1)] ++
        ("GET".toList, "/users/list".toList, some 2) ::
        [("GET".toList, "/users/{id}".toList, some 3)]))
      "GET".toList "/users/list".toList = ⟨some 2, emptyMap, true⟩ :=
  static_precedence [("GET".toList, "/users/{id}".toList, some 1)]
    [("GET".toList, "/users/{id}".toList, some 3)] "GET".toList "/users/list".toList (some 2)
    (by decide) (by decide)

/-! ## Induction over tries and unfolding of `match` -/

mutual
theorem node.induct {P : node H → Prop}
    (step : ∀ p cs nm b1 b2 b3 hd, (∀ c ∈ cs, P c) → P (node.mk p cs nm b1 b2 b3 hd)) :
    ∀ n, P n
  | node.mk p cs nm b1 b2 b3 hd => step p cs nm b1 b2 b3 hd (node.inductList step cs)
theorem node.inductList {P : node H → Prop}
    (step : ∀ p cs nm b1 b2 b3 hd, (∀ c ∈ cs, P c) → P (node.mk p cs nm b1 b2 b3 hd)) :
    ∀ cs : List (node H), ∀ c ∈ cs, P c
  | [] => fun _ hc => absurd hc (List.not_mem_nil _)
  | c :: rest => fun c' hc' => by
    rcases List.mem_cons.1 hc' with e | e
    · rw [e]; exact node.induct step c
    · exact node.inductList step rest c' e
end

theorem matchNode_eq (n : node H) (path : Str) (i : Nat) (params : Params) :
    matchNode n path i params =
      if i ≥ path.length then (n.handler, params)
      else matchChildren n.children path i params := by
  cases n
  simp only [matchNode, node.handler, node.children]

theorem matchChildren_cons (ch : node H) (rest : List (node H)) (path : Str) (i : Nat)
    (params : Params) :
    matchChildren (ch :: rest) path i params =
      match tryChild ch (fun j np => matchNode ch path j np) path i params with
      | (some h, p) => (some h, p)
      | (none, p) => matchChildren rest path i p := by
  simp only [matchChildren]

/-! ## Slices and the segment scan -/

theorem drop_append_length (pre l : Str) : (pre ++ l).drop pre.length = l := by
  simp

theorem slice_append (pre t d : Str) :
    slice (pre ++ t ++ d) pre.length (pre.length + t.length) = t := by
  simp [slice, List.append_assoc]

theorem get?_append_right (pre t d : Str) :
    (pre ++ t ++ d).get? (pre.length + t.length) = d.head? := by
  have h : (pre ++ t ++ d).get? (pre ++ t).length = d.get? 0 := by
    rw [List.get?_eq_getElem?, List.get?_eq_getElem?, List.getElem?_append_right (le_refl _)]
    simp
  rw [List.length_append] at h
  rw [h]
  cases d <;> rfl

theorem scanFrom_append (t d : Str) (e : Nat) (ht : '/' ∉ t)
    (hd : d = [] ∨ d.head? = some '/') : scanFrom (t ++ d) e = e + t.length := by
  induction t generalizing e with
  | nil =>
    rcases hd with hd | hd
    · subst hd; rfl
    · cases d with
      | nil => rfl
      | cons c rest =>
        have hc : c = '/' := by simpa using hd
        simp [scanFrom, hc]
  | cons c rest ih =>
    have hc : c ≠ '/' := fun e => ht (by simp [e])
    have hr : '/' ∉ rest := fun hm => ht (List.mem_cons_of_mem _ hm)
    have hstep : scanFrom (c :: rest ++ d) e = scanFrom (rest ++ d) (e + 1) := by
      simp [scanFrom, hc]
    rw [hstep, ih _ hr, List.length_cons]
    omega

theorem scan_append (pre t d : Str) (ht : '/' ∉ t) (hd : d = [] ∨ d.head? = some '/') :
    scan (pre ++ t ++ d) pre.length = pre.length + t.length := by
  unfold scan
  rw [List.append_assoc, drop_append_length]
  exact scanFrom_append t d _ ht hd

theorem segOf_append_afterSeg (l : Str) : segOf l ++ afterSeg l = l :=
  List.takeWhile_append_dropWhile _ l

theorem slash_not_mem_segOf (l : Str) : '/' ∉ segOf l := by
  induction l with
  | nil => simp [segOf]
  | cons c rest ih =>
    by_cases hc : c = '/'
    · simp [segOf, List.takeWhile, hc]
    · have : segOf (c :: rest) = c :: segOf rest := by simp [segOf, List.takeWhile, hc]
      rw [this]
      intro hm
      rcases List.mem_cons.1 hm with e | e
      · exact hc e.symm
      · exact ih e

theorem afterSeg_head (l : Str) : afterSeg l = [] ∨ (afterSeg l).head? = some '/' := by
  induction l with
  | nil => left; rfl
  | cons c rest ih =>
    by_cases hc : c = '/'
    · right; simp [afterSeg, List.dropWhile, hc]
    · have : afterSeg (c :: rest) = afterSeg rest := by simp [afterSeg, List.dropWhile, hc]
      rw [this]; exact ih

theorem afterSeg_cases (l : Str) : afterSeg l = [] ∨ ∃ r, afterSeg l = '/' :: r := by
  rcases afterSeg_head l with h | h
  · exact Or.inl h
  · right
    cases hl : afterSeg l with
    | nil => rw [hl] at h; cases h
    | cons c r =>
      rw [hl] at h
      have hc : c = '/' := by simpa using h
      exact ⟨r, by rw [hc]⟩

/-- Decomposition of a path at cursor `i ≤ len(path)`. -/
theorem path_decomp (path : Str) (i : Nat) :
    path = path.take i ++ segOf (path.drop i) ++ afterSeg (path.drop i) := by
  rw [List.append_assoc, segOf_append_afterSeg, List.take_append_drop]

theorem decomp_exists (path : Str) (i : Nat) (hi : i ≤ path.length) :
    ∃ pre t d, path = pre ++ t ++ d ∧ pre.length = i ∧ '/' ∉ t
      ∧ (d = [] ∨ ∃ r, d = '/' :: r) ∧ t = segOf (path.drop i) ∧ d = afterSeg (path.drop i) :=
  ⟨path.take i, segOf (path.drop i), afterSeg (path.drop i), path_decomp path i,
    List.length_take_of_le hi, slash_not_mem_segOf _, afterSeg_cases _, rfl, rfl⟩


theorem head?_of_cases (d : Str) (hd : d = [] ∨ ∃ r, d = '/' :: r) :
    d = [] ∨ d.head? = some '/' := by
  rcases hd with h | ⟨r, h⟩
  · exact Or.inl h
  · right; rw [h]; rfl


/-! ## `insert` walks the segments of the path -/

theorem segments_eq (l : Str) (hl : l ≠ []) :
    segments l = segOf l :: segments ((afterSeg l).drop 1) := by
  induction l with
  | nil => exact absurd rfl hl
  | cons c rest ih =>
    by_cases hc : c = '/'
    · simp [segments, segOf, afterSeg, List.takeWhile, List.dropWhile, hc]
    · have h1 : segOf (c :: rest) = c :: segOf rest := by simp [segOf, List.takeWhile, hc]
      have h2 : afterSeg (c :: rest) = afterSeg rest := by simp [afterSeg, List.dropWhile, hc]
      rw [h1, h2]
      cases rest with
      | nil => simp [segments, hc, segOf, afterSeg]
      | cons c2 rest2 =>
        have := ih (by simp)
        simp only [segments, hc, if_false] at this ⊢
        rw [this]

theorem scan_of_decomp (path pre t d : Str) (i : Nat) (hpath : path = pre ++ t ++ d)
    (hpre : pre.length = i) (ht : '/' ∉ t) (hd : d = [] ∨ ∃ r, d = '/' :: r) :
    scan path i = i + t.length := by
  subst hpath; subst hpre
  exact scan_append pre t d ht (head?_of_cases d hd)

theorem slice_of_decomp (path pre t d : Str) (i : Nat) (hpath : path = pre ++ t ++ d)
    (hpre : pre.length = i) : slice path i (i + t.length) = t := by
  subst hpath; subst hpre
  exact slice_append pre t d

theorem get?_of_decomp (path pre t d : Str) (i : Nat) (hpath : path = pre ++ t ++ d)
    (hpre : pre.length = i) : path.get? (i + t.length) = d.head? := by
  subst hpath; subst hpre
  exact get?_append_right pre t d

theorem length_of_decomp (path pre t d : Str) (i : Nat) (hpath : path = pre ++ t ++ d)
    (hpre : pre.length = i) : path.length = i + t.length + d.length := by
  subst hpath; subst hpre
  simp only [List.length_append]

theorem drop_of_decomp (path pre t d : Str) (i : Nat) (hpath : path = pre ++ t ++ d)
    (hpre : pre.length = i) (k : Nat) : path.drop (i + t.length + k) = d.drop k := by
  subst hpath; subst hpre
  have h : (pre ++ t ++ d).drop ((pre ++ t).length + k) = d.drop k := by
    rw [List.drop_append]
  rw [List.length_append] at h
  exact h

theorem insertLoop_eq_segs (path : Str) (h : Option H) :
    ∀ (fuel : Nat) (n : node H) (i : Nat), i ≤ path.length → path.length - i < fuel →
      insertLoop path h fuel n i = insertSegs h (segments (path.drop i)) n := by
  intro fuel
  induction fuel with
  | zero => intro n i _ hf; omega
  | succ fuel ih =>
    intro n i hi hf
    by_cases hlen : i ≥ path.length
    · have hd : path.drop i = [] := List.drop_eq_nil_of_le hlen
      simp [insertLoop, hlen, hd, segments, insertSegs]
    · obtain ⟨pre, t, d, hpath, hpre, ht, hd, ht', hd'⟩ := decomp_exists path i hi
      have hne : path.drop i ≠ [] := by
        intro e
        have := congrArg List.length e
        simp at this
        omega
      have hsegs : segments (path.drop i) = t :: segments (d.drop 1) := by
        rw [segments_eq _ hne, ← ht', ← hd']
      have hscan := scan_of_decomp path pre t d i hpath hpre ht hd
      have hslice := slice_of_decomp path pre t d i hpath hpre
      have hget := get?_of_decomp path pre t d i hpath hpre
      have hlength := length_of_decomp path pre t d i hpath hpre
      have htd : t ++ d ≠ [] := by
        rw [ht', hd', segOf_append_afterSeg]; exact hne
      rw [hsegs]
      unfold insertLoop
      rw [if_neg hlen]
      dsimp only
      rw [hscan, hslice, hget]
      simp only [insertSegs]
      congr 1
      funext child
      rcases hd with hd | ⟨r, hd⟩
      · subst hd
        have htl : 0 < t.length := by
          cases t with
          | nil => exact absurd rfl htd
          | cons _ _ => simp
        have hcond : ¬ (i + t.length < path.length ∧ ([] : Str).head? = some '/') := by
          simp
        rw [if_neg hcond, ih child (i + t.length) (by simp at hlength; omega)
          (by simp at hlength; omega)]
        have := drop_of_decomp path pre t [] i hpath hpre 0
        simp only [Nat.add_zero] at this
        rw [this]
        rfl
      · subst hd
        have hcond : i + t.length < path.length ∧ ('/' :: r).head? = some '/' := by
          refine ⟨?_, rfl⟩
          simp at hlength; omega
        rw [if_pos hcond, ih child (i + t.length + 1) (by simp at hlength; omega)
          (by simp at hlength; omega)]
        rw [drop_of_decomp path pre t ('/' :: r) i hpath hpre 1]

/-- `insert` performs one loop iteration per segment of the path and then
sets the handler. -/
theorem insert_eq_segs (n : node H) (path : Str) (h : Option H) :
    insert n path h = insertSegs h (segments path) n := by
  unfold insert
  rw [insertLoop_eq_segs path h (path.length + 1) n 0 (Nat.zero_le _) (by omega)]
  rfl

/-! ## C8: failed branches leave the parameter mapping alone -/

theorem commit_fail (params : Params) (res : Option H × Params)
    (hfail : (commit params res).1 = none) : (commit params res).2 = params := by
  obtain ⟨ho, np⟩ := res
  cases ho with
  | some h => simp [commit] at hfail
  | none => rfl

theorem tryChild_fail (ch : node H) (recur : Nat → Params → Option H × Params)
    (path : Str) (i : Nat) (params : Params)
    (hfail : (tryChild ch recur path i params).1 = none) :
    (tryChild ch recur path i params).2 = params := by
  unfold tryChild at hfail ⊢
  dsimp only at hfail ⊢
  split_ifs at hfail ⊢ <;> first
    | rfl
    | exact commit_fail _ _ hfail

theorem matchChildren_fail (cs : List (node H)) (path : Str) (i : Nat) (params : Params)
    (hfail : (matchChildren cs path i params).1 = none) :
    (matchChildren cs path i params).2 = params := by
  induction cs with
  | nil => simp [matchChildren]
  | cons ch rest ih =>
    rw [matchChildren_cons] at hfail ⊢
    have htc := tryChild_fail ch (fun j np => matchNode ch path j np) path i params
    generalize tryChild ch (fun j np => matchNode ch path j np) path i params = res at hfail htc ⊢
    obtain ⟨ho, p⟩ := res
    cases ho with
    | some h => simp at hfail
    | none =>
      have hp : p = params := htc rfl
      subst hp
      exact ih hfail

theorem matchNode_fail (n : node H) (path : Str) (i : Nat) (params : Params)
    (hfail : (matchNode n path i params).1 = none) :
    (matchNode n path i params).2 = params := by
  rw [matchNode_eq] at hfail ⊢
  split_ifs at hfail ⊢
  · rfl
  · exact matchChildren_fail _ _ _ _ hfail


/-- C8. Parameter isolation across backtracking: when `match(n, path, i, params)`
returns no handler, `params` has the content it had before the call; and the
two examples: after registering `/a/{x}/c` and `/a/{y}/d`, `Match` on `/a/1/d`
yields exactly `{y: "1"}`, and after `/a/{x}/c` and `/a/{x}/d` exactly `{x: "1"}`. -/
theorem param_isolation :
    (∀ (n : node H) (path : Str) (i : Nat) (params : Params),
      (matchNode n path i params).1 = none → (matchNode n path i params).2 = params)
    ∧ Match routerXY GET "/a/1/d".toList
        = ⟨some 2, mapSet emptyMap "y".toList "1".toList, true⟩
    ∧ Match routerXX GET "/a/1/d".toList
        = ⟨some 2, mapSet emptyMap "x".toList "1".toList, true⟩ :=
  ⟨matchNode_fail, rfl, rfl⟩

/-- Witness for C8: the trie of `routerXY` fails on `/a/1/e` from a mapping that
already binds `k`, and the mapping comes back unchanged. -/
theorem param_isolation_witness :
    (matchNode (getTree routerXY GET).root "/a/1/e".toList 0
        (mapSet emptyMap "k".toList "v".toList)).1 = none
    ∧ (matchNode (getTree routerXY GET).root "/a/1/e".toList 0
        (mapSet emptyMap "k".toList "v".toList)).2 = mapSet emptyMap "k".toList "v".toList :=
  ⟨by decide, (param_isolation (H := Nat)).1 _ _ _ _ (by decide)⟩

/-! ## One loop iteration of `insert`, and the trie of a single route -/

theorem stepList_eq (seg : Str) (cont : node H → node H) (l : List (node H)) :
    stepList seg cont l =
      match findChild l seg with
      | some k => updateAt (fun child => cont (fixParamName child seg)) l k
      | none => l ++ [cont (fixParamName (newChild seg) seg)] := by
  induction l with
  | nil => rfl
  | cons ch rest ih =>
    by_cases hm : childMatches ch seg = true
    · simp [stepList, findChild, hm, updateAt]
    · simp only [stepList, findChild, hm, if_false, ih, Bool.false_eq_true]
      cases findChild rest seg with
      | none => rfl
      | some k => rfl

theorem step_eq (n : node H) (seg : Str) (cont : node H → node H) :
    step n seg cont = n.setChildren (stepList seg cont n.children) := by
  unfold step
  rw [stepList_eq]
  cases findChild n.children seg <;> rfl

theorem newChild_children (seg : Str) : (newChild seg : node H).children = [] := by
  unfold newChild
  split_ifs <;> rfl

theorem fixParamName_newChild (seg : Str) :
    fixParamName (newChild seg : node H) seg = newChild seg := by
  unfold newChild
  split_ifs <;> simp [fixParamName, node.isParam, node.setParamName]

theorem insertSegs_leaf (h : Option H) (segs : List Str) :
    ∀ n : node H, n.children = [] → insertSegs h segs n = chain h segs n := by
  induction segs with
  | nil => intro n _; rfl
  | cons seg rest ih =>
    intro n hn
    simp only [insertSegs, chain, step_eq, hn, stepList, fixParamName_newChild]
    rw [ih _ (newChild_children seg)]

theorem chain_fields (h : Option H) (segs : List Str) (n : node H) :
    (chain h segs n).pfx = n.pfx ∧ (chain h segs n).paramName = n.paramName
      ∧ (chain h segs n).isParam = n.isParam ∧ (chain h segs n).isWildcard = n.isWildcard
      ∧ (chain h segs n).isMultiWild = n.isMultiWild := by
  cases segs <;> cases n <;> exact ⟨rfl, rfl, rfl, rfl, rfl⟩

theorem tryChild_congr (a b : node H) (recur : Nat → Params → Option H × Params)
    (path : Str) (i : Nat) (params : Params)
    (hab : a.pfx = b.pfx ∧ a.paramName = b.paramName ∧ a.isParam = b.isParam
      ∧ a.isWildcard = b.isWildcard ∧ a.isMultiWild = b.isMultiWild) :
    tryChild a recur path i params = tryChild b recur path i params := by
  obtain ⟨h1, h2, h3, h4, h5⟩ := hab
  unfold tryChild
  rw [h1, h2, h3, h4, h5]

theorem matchChildren_single (c : node H) (path : Str) (i : Nat) (params : Params) :
    matchChildren [c] path i params =
      tryChild c (fun j np => matchNode c path j np) path i params := by
  rw [matchChildren_cons]
  have hf := tryChild_fail c (fun j np => matchNode c path j np) path i params
  generalize tryChild c (fun j np => matchNode c path j np) path i params = res at hf ⊢
  obtain ⟨ho, p⟩ := res
  cases ho with
  | some h => rfl
  | none =>
    have : p = params := hf rfl
    subst this
    simp [matchChildren]

theorem matchNode_chain_nil_end (h : Option H) (n : node H) (path : Str) (i : Nat)
    (params : Params) (hi : i ≥ path.length) :
    matchNode (chain h [] n) path i params = (h, params) := by
  rw [matchNode_eq, if_pos hi]
  cases n; rfl

theorem matchNode_chain_nil_more (h : Option H) (n : node H) (path : Str) (i : Nat)
    (params : Params) (hn : n.children = []) (hi : i < path.length) :
    matchNode (chain h [] n) path i params = (none, params) := by
  rw [matchNode_eq, if_neg (by omega)]
  have : (chain h [] n).children = [] := by cases n; exact hn
  rw [this]
  simp [matchChildren]

theorem matchNode_chain_cons_end (h : Option H) (seg : Str) (rest : List Str) (n : node H)
    (path : Str) (i : Nat) (params : Params) (hi : i ≥ path.length) :
    matchNode (chain h (seg :: rest) n) path i params = (n.handler, params) := by
  rw [matchNode_eq, if_pos hi]
  cases n; rfl

theorem matchNode_chain_cons (h : Option H) (seg : Str) (rest : List Str) (n : node H)
    (path : Str) (i : Nat) (params : Params) (hi : i < path.length) :
    matchNode (chain h (seg :: rest) n) path i params =
      tryChild (newChild seg)
        (fun j np => matchNode (chain h rest (newChild seg)) path j np) path i params := by
  rw [matchNode_eq, if_neg (by omega)]
  have : (chain h (seg :: rest) n).children = [chain h rest (newChild seg)] := by
    cases n; rfl
  rw [this, matchChildren_single]
  exact tryChild_congr _ _ _ _ _ _ (chain_fields h rest (newChild seg))

/-- A static child whose text is found at the cursor. -/
theorem tryChild_static (ch : node H) (recur : Nat → Params → Option H × Params)
    (pre t d : Str) (params : Params)
    (h1 : ch.isMultiWild = false) (h2 : ch.isWildcard = false) (h3 : ch.isParam = false)
    (h4 : ch.pfx = t) :
    tryChild ch recur (pre ++ t ++ d) pre.length params =
      commit params (recur (if d.head? = some '/' then pre.length + t.length + 1
        else pre.length + t.length) params) := by
  unfold tryChild
  simp only [h1, h2, h3, h4, Bool.false_eq_true, if_false, slice_append, get?_append_right]
  have hlen : (pre ++ t ++ d).length ≥ pre.length + t.length := by simp
  rw [if_pos ⟨hlen, trivial⟩]
  by_cases hd : d.head? = some '/'
  · have hlt : pre.length + t.length < (pre ++ t ++ d).length := by
      cases d with
      | nil => cases hd
      | cons c r => simp
    rw [if_pos ⟨hlt, hd⟩, if_pos hd]
    rfl
  · rw [if_neg (fun hc => hd hc.2), if_neg hd]
    rfl

/-- A static child whose text is not at the cursor. -/
theorem tryChild_static_miss (ch : node H) (recur : Nat → Params → Option H × Params)
    (path : Str) (i : Nat) (params : Params)
    (h1 : ch.isMultiWild = false) (h2 : ch.isWildcard = false) (h3 : ch.isParam = false)
    (hmiss : slice path i (i + ch.pfx.length) ≠ ch.pfx) :
    tryChild ch recur path i params = (none, params) := by
  unfold tryChild
  simp only [h1, h2, h3, Bool.false_eq_true, if_false]
  rw [if_neg (fun hc => hmiss hc.2)]

/-- A parameter child: the segment at the cursor is bound to its name. -/
theorem tryChild_param (ch : node H) (recur : Nat → Params → Option H × Params)
    (pre v d : Str) (params : Params)
    (h1 : ch.isMultiWild = false) (h2 : ch.isWildcard = false) (h3 : ch.isParam = true)
    (hv : '/' ∉ v) (hd : d = [] ∨ d.head? = some '/') :
    tryChild ch recur (pre ++ v ++ d) pre.length params =
      commit params (recur (pre.length + v.length + 1) (mapSet params ch.paramName v)) := by
  unfold tryChild
  simp only [h1, h2, h3, Bool.false_eq_true, if_false, if_true, scan_append pre v d hv hd,
    slice_append]
  rfl

/-- A single-wildcard child: the segment at the cursor is skipped. -/
theorem tryChild_wildcard (ch : node H) (recur : Nat → Params → Option H × Params)
    (pre v d : Str) (params : Params)
    (h1 : ch.isMultiWild = false) (h2 : ch.isWildcard = true)
    (hv : '/' ∉ v) (hd : d = [] ∨ d.head? = some '/') :
    tryChild ch recur (pre ++ v ++ d) pre.length params =
      commit params (recur (pre.length + v.length + 1) params) := by
  unfold tryChild
  simp only [h1, h2, Bool.false_eq_true, if_false, if_true, scan_append pre v d hv hd]
  rfl

/-- The `**` loop starts at the end of the path and stops at the first success. -/
theorem multiLoop_first (recur : Nat → Params → Option H × Params) (path : Str) (i : Nat)
    (np : Params) (h : H) (hi : i < path.length)
    (hrec : (recur path.length np).1 = some h) :
    multiLoop recur path i (path.length + 1 - i) np = recur path.length np := by
  obtain ⟨c, hc⟩ : ∃ c, path.length + 1 - i = c + 1 := ⟨path.length - i, by omega⟩
  have hj : i + c = path.length := by omega
  rw [hc]
  unfold multiLoop
  rw [hj, if_neg (fun hc => Nat.lt_irrefl _ hc.1)]
  generalize recur path.length np = res at hrec ⊢
  obtain ⟨ho, p⟩ := res
  cases ho with
  | none => cases hrec
  | some h' => rfl

theorem tryChild_multi (ch : node H) (recur : Nat → Params → Option H × Params)
    (path : Str) (i : Nat) (params : Params) (h : H) (h1 : ch.isMultiWild = true)
    (hi : i < path.length) (hrec : (recur path.length params).1 = some h) :
    tryChild ch recur path i params = commit params (recur path.length params) := by
  unfold tryChild
  simp only [h1, if_true]
  have := multiLoop_first recur path i (copyParams params) h hi hrec
  rw [this]
  rfl

/-! ## C3: what a parameter value is -/

theorem endsSegment_nil (q : Str) : EndsSegment q [] :=
  ⟨q.length, q.length, le_refl _, le_refl _, by simp [slice], by simp, Or.inl rfl⟩

theorem scan_endsSegment (path : Str) (i : Nat) :
    EndsSegment path (slice path i (scan path i)) := by
  by_cases hi : i ≤ path.length
  · obtain ⟨pre, t, d, hpath, hpre, ht, hd, -, -⟩ := decomp_exists path i hi
    subst hpath
    subst hpre
    rw [scan_append pre t d ht (head?_of_cases d hd), slice_append]
    refine ⟨pre.length, pre.length + t.length, by omega, by simp, slice_append pre t d, ht, ?_⟩
    rw [get?_append_right]
    rcases hd with h | ⟨r, h⟩
    · left; subst h; simp
    · right; rw [h]; rfl
  · have hdrop : path.drop i = [] := List.drop_eq_nil_of_le (by omega)
    have hs : slice path i (scan path i) = [] := by
      simp [slice, scan, hdrop]
    rw [hs]
    exact endsSegment_nil path

theorem paramsOk_mapSet (q : Str) (params : Params) (k v : Str)
    (hp : ParamsOk q params) (hv : EndsSegment q v) : ParamsOk q (mapSet params k v) := by
  intro k' v' h
  unfold mapSet at h
  split_ifs at h
  · cases h; exact hv
  · exact hp k' v' h

theorem multiLoop_inv (q : Str) (recur : Nat → Params → Option H × Params)
    (hrec : ∀ j np, ParamsOk q np → ParamsOk q (recur j np).2) (pi : Nat) :
    ∀ c np, ParamsOk q np → ParamsOk q (multiLoop recur q pi c np).2 := by
  intro c
  induction c with
  | zero =>
    intro np hnp
    exact hnp
  | succ c ih =>
    intro np hnp
    unfold multiLoop
    split_ifs
    · exact ih np hnp
    · have hr := hrec (pi + c) np hnp
      split
      · rename_i h np1 heq
        rw [heq] at hr
        exact hr
      · rename_i np1 heq
        rw [heq] at hr
        exact ih np1 hr

theorem commit_inv (q : Str) (params : Params) (res : Option H × Params)
    (hp : ParamsOk q params) (hr : ParamsOk q res.2) : ParamsOk q (commit params res).2 := by
  obtain ⟨ho, np⟩ := res
  cases ho with
  | some h => exact hr
  | none => exact hp

theorem tryChild_inv (q : Str) (ch : node H) (recur : Nat → Params → Option H × Params)
    (hrec : ∀ j np, ParamsOk q np → ParamsOk q (recur j np).2) (i : Nat) (params : Params)
    (hp : ParamsOk q params) : ParamsOk q (tryChild ch recur q i params).2 := by
  unfold tryChild
  dsimp only
  split_ifs
  · exact commit_inv q params _ hp (multiLoop_inv q recur hrec i _ _ hp)
  · exact commit_inv q params _ hp (hrec _ _ hp)
  · exact commit_inv q params _ hp
      (hrec _ _ (paramsOk_mapSet q _ _ _ hp (scan_endsSegment q i)))
  · exact commit_inv q params _ hp (hrec _ _ hp)
  · exact commit_inv q params _ hp (hrec _ _ hp)
  · exact hp

theorem matchChildren_inv (q : Str) (cs : List (node H))
    (hcs : ∀ c ∈ cs, ∀ i params, ParamsOk q params → ParamsOk q (matchNode c q i params).2)
    (i : Nat) (params : Params) (hp : ParamsOk q params) :
    ParamsOk q (matchChildren cs q i params).2 := by
  induction cs generalizing params with
  | nil => simpa [matchChildren] using hp
  | cons ch rest ih =>
    rw [matchChildren_cons]
    have htc := tryChild_inv q ch (fun j np => matchNode ch q j np)
      (fun j np hnp => hcs ch (List.mem_cons_self _ _) j np hnp) i params hp
    split
    · rename_i h p heq
      rw [heq] at htc
      exact htc
    · rename_i p heq
      rw [heq] at htc
      exact ih (fun c hc => hcs c (List.mem_cons_of_mem _ hc)) p htc

theorem matchNode_inv (q : Str) (n : node H) :
    ∀ i params, ParamsOk q params → ParamsOk q (matchNode n q i params).2 := by
  induction n using node.induct with
  | step p cs nm b1 b2 b3 hd ih =>
    intro i params hp
    rw [matchNode_eq]
    split_ifs
    · exact hp
    · exact matchChildren_inv q cs ih i params hp

theorem paramsOk_empty (q : Str) : ParamsOk q emptyMap := by
  intro k v h
  cases h

theorem Match_paramsOk (r : Router H) (m q : Str) : ParamsOk q (Match r m q).params := by
  unfold Match
  split
  · exact paramsOk_empty q
  · split
    · exact paramsOk_empty q
    · have hr := matchNode_inv q (by assumption : Tree H).root 0 emptyMap (paramsOk_empty q)
      unfold trieResult
      split
      · rename_i h params heq
        rw [heq] at hr
        exact hr
      · exact paramsOk_empty q

/-- C3, counterexample. With only `/u/{x}` registered, `Match` finds `/uvw` and
binds `x` to `"vw"`, which is not the complete text of a segment of `/uvw`: the
static child `u` matches as a prefix and leaves the cursor inside the segment. -/
theorem param_whole_segment_counterexample :
    (Match routerU GET "/uvw".toList).found = true
    ∧ (Match routerU GET "/uvw".toList).params "x".toList = some "vw".toList
    ∧ ¬ IsWholeSegment "/uvw".toList "vw".toList := by
  refine ⟨by decide, by decide, ?_⟩
  rintro ⟨a, b, hab, hb, hs, -, ha, -⟩
  have hb4 : b ≤ 4 := hb
  interval_cases b <;> interval_cases a <;> simp [slice] at hs ha

/-- C3 (amended). For every router state, method `m` and path `q`, if `Match(m, q)`
returns `found = true`, then every value bound in the returned mapping is a
substring `q[a:b]` containing no `'/'` that ends at the end of `q` or right
before a `'/'`. -/
theorem param_ends_segment (r : Router H) (m q : Str)
    (_hfound : (Match r m q).found = true) (k v : Str)
    (hbound : (Match r m q).params k = some v) : EndsSegment q v :=
  Match_paramsOk r m q k v hbound

/-- Witness for C3 (amended): the value `"42"` bound for `/users/42`. -/
theorem param_ends_segment_witness :
    (Match (Register (New : Router Nat) GET "/users/{id}".toList (some 1)) GET
        "/users/42".toList).found = true
    ∧ (Match (Register (New : Router Nat) GET "/users/{id}".toList (some 1)) GET
        "/users/42".toList).params "id".toList = some "42".toList
    ∧ EndsSegment "/users/42".toList "42".toList :=
  ⟨by decide, by decide,
    param_ends_segment (Register (New : Router Nat) GET "/users/{id}".toList (some 1)) GET
      "/users/42".toList (by decide) "id".toList "42".toList (by decide)⟩

/-! ## C2: parameter capture -/

theorem newChild_lit (t : Str) (h1 : '{' ∉ t) (h2 : '*' ∉ t) :
    (newChild t : node H) = node.mk t [] [] false false false none := by
  have e1 : t ≠ ['*'] := fun e => h2 (by simp [e])
  have e2 : t ≠ ['*', '*'] := fun e => h2 (by simp [e])
  have e3 : isParam t = false := by
    cases t with
    | nil => rfl
    | cons c r =>
      have hc : c ≠ '{' := fun e => h1 (by simp [e])
      simp [isParam, hc]
  simp [newChild, e1, e2, e3]

theorem isParam_braces (n : Str) : isParam ('{' :: n ++ ['}']) = true := by
  have hlast : ('{' :: n ++ ['}']).get? (('{' :: n ++ ['}']).length - 1) = some '}' := by
    have : ('{' :: n ++ ['}']).length - 1 = ('{' :: n).length := by simp
    rw [this, List.get?_eq_getElem?]
    rw [show '{' :: n ++ ['}'] = ('{' :: n) ++ ['}'] from rfl,
      List.getElem?_append_right (le_refl _)]
    simp
  unfold isParam
  rw [hlast]
  simp

theorem inner_braces (n : Str) : inner ('{' :: n ++ ['}']) = n := by
  simp [inner, slice]

theorem newChild_par (n : Str) :
    (newChild ('{' :: n ++ ['}']) : node H)
      = node.mk ('{' :: n ++ ['}']) [] n true false false none := by
  have e1 : '{' :: n ++ ['}'] ≠ ['*'] := by simp
  have e2 : '{' :: n ++ ['}'] ≠ ['*', '*'] := by simp
  simp only [newChild, e1, e2, if_false, isParam_braces, inner_braces, if_true]

theorem commit_some (params np : Params) (h : H) :
    commit params (some h, np) = (some h, np) := rfl

theorem joinSlash_cons_cons (s s2 : Str) (rest : List Str) :
    joinSlash (s :: s2 :: rest) = s ++ '/' :: joinSlash (s2 :: rest) := rfl

/-- Matching the instantiated path along the trie of the pattern, from the
start of a segment on. -/
theorem matchNode_walk (h : H) :
    ∀ (segs : List PatSeg) (n0 : node H) (pre : Str) (params : Params),
      segs ≠ [] → (∀ s ∈ segs, s.Valid) →
      matchNode (chain (some h) (segs.map PatSeg.pat) n0)
        (pre ++ joinSlash (segs.map PatSeg.val)) pre.length params
        = (some h, bindAll segs params) := by
  intro segs
  induction segs with
  | nil => intro _ _ _ hne; exact absurd rfl hne
  | cons s rest ih =>
    intro n0 pre params _ hvalid
    have hs : s.Valid := hvalid s (List.mem_cons_self _ _)
    have hrest : ∀ x ∈ rest, x.Valid := fun x hx => hvalid x (List.mem_cons_of_mem _ hx)
    cases rest with
    | nil =>
      cases s with
      | lit t =>
        obtain ⟨hne, -, hb, -, hstar⟩ := hs
        have hpath : pre ++ joinSlash (List.map PatSeg.val [PatSeg.lit t]) = pre ++ t ++ [] := by
          simp [joinSlash, PatSeg.val]
        have hlt : pre.length < (pre ++ t ++ []).length := by
          cases t with
          | nil => exact absurd rfl hne
          | cons _ _ => simp
        rw [hpath]
        show matchNode (chain (some h) [t] n0) (pre ++ t ++ []) pre.length params = _
        rw [matchNode_chain_cons _ _ _ _ _ _ _ hlt, newChild_lit t hb hstar,
          tryChild_static (node.mk t [] [] false false false none) _ pre t [] params rfl rfl rfl rfl]
        simp only [List.head?_nil, if_false]
        rw [matchNode_chain_nil_end _ _ _ _ _ (by simp)]
        rfl
      | par n v =>
        obtain ⟨-, hne, hv⟩ := hs
        have hpath : pre ++ joinSlash (List.map PatSeg.val [PatSeg.par n v]) = pre ++ v ++ [] := by
          simp [joinSlash, PatSeg.val]
        have hlt : pre.length < (pre ++ v ++ []).length := by
          cases v with
          | nil => exact absurd rfl hne
          | cons _ _ => simp
        rw [hpath]
        show matchNode (chain (some h) ['{' :: n ++ ['}']] n0) (pre ++ v ++ []) pre.length params
          = _
        rw [matchNode_chain_cons _ _ _ _ _ _ _ hlt, newChild_par n,
          tryChild_param (node.mk ('{' :: n ++ ['}']) [] n true false false none) _ pre v [] params rfl rfl rfl hv (Or.inl rfl)]
        rw [matchNode_chain_nil_end _ _ _ _ _ (by simp)]
        rfl
    | cons s2 rest2 =>
      have ih2 := fun n0 pre params => ih n0 pre params (by simp) hrest
      cases s with
      | lit t =>
        obtain ⟨-, -, hb, -, hstar⟩ := hs
        have hpath : pre ++ joinSlash (List.map PatSeg.val (PatSeg.lit t :: s2 :: rest2))
            = pre ++ t ++ ('/' :: joinSlash (List.map PatSeg.val (s2 :: rest2))) := by
          simp [joinSlash_cons_cons, PatSeg.val]
        have hpath2 : pre ++ t ++ ('/' :: joinSlash (List.map PatSeg.val (s2 :: rest2)))
            = (pre ++ t ++ ['/']) ++ joinSlash (List.map PatSeg.val (s2 :: rest2)) := by
          simp
        have hlt : pre.length
            < (pre ++ t ++ ('/' :: joinSlash (List.map PatSeg.val (s2 :: rest2)))).length := by
          simp
        have hidx : pre.length + t.length + 1 = (pre ++ t ++ ['/']).length := by
          simp only [List.length_append, List.length_singleton]
        rw [hpath]
        show matchNode (chain (some h) (t :: List.map PatSeg.pat (s2 :: rest2)) n0)
          (pre ++ t ++ ('/' :: joinSlash (List.map PatSeg.val (s2 :: rest2)))) pre.length params
          = _
        rw [matchNode_chain_cons _ _ _ _ _ _ _ hlt, newChild_lit t hb hstar,
          tryChild_static (node.mk t [] [] false false false none) _ pre t _ params rfl rfl rfl rfl]
        rw [show (('/' :: joinSlash (List.map PatSeg.val (s2 :: rest2))).head? = some '/')
          from rfl, if_pos rfl, hidx, hpath2, ih2]
        rfl
      | par n v =>
        obtain ⟨-, -, hv⟩ := hs
        have hpath : pre ++ joinSlash (List.map PatSeg.val (PatSeg.par n v :: s2 :: rest2))
            = pre ++ v ++ ('/' :: joinSlash (List.map PatSeg.val (s2 :: rest2))) := by
          simp [joinSlash_cons_cons, PatSeg.val]
        have hpath2 : pre ++ v ++ ('/' :: joinSlash (List.map PatSeg.val (s2 :: rest2)))
            = (pre ++ v ++ ['/']) ++ joinSlash (List.map PatSeg.val (s2 :: rest2)) := by
          simp
        have hlt : pre.length
            < (pre ++ v ++ ('/' :: joinSlash (List.map PatSeg.val (s2 :: rest2)))).length := by
          simp
        have hidx : pre.length + v.length + 1 = (pre ++ v ++ ['/']).length := by
          simp only [List.length_append, List.length_singleton]
        rw [hpath]
        show matchNode (chain (some h) (('{' :: n ++ ['}']) :: List.map PatSeg.pat (s2 :: rest2)) n0)
          (pre ++ v ++ ('/' :: joinSlash (List.map PatSeg.val (s2 :: rest2)))) pre.length params
          = _
        rw [matchNode_chain_cons _ _ _ _ _ _ _ hlt, newChild_par n,
          tryChild_param (node.mk ('{' :: n ++ ['}']) [] n true false false none) _ pre v
            ('/' :: joinSlash (List.map PatSeg.val (s2 :: rest2))) params rfl rfl rfl hv (Or.inr rfl)]
        rw [hidx, hpath2, ih2]
        rfl

theorem segments_append_slash (t x : Str) (ht : '/' ∉ t) :
    segments (t ++ '/' :: x) = t :: segments x := by
  induction t with
  | nil => simp [segments]
  | cons c r ih =>
    have hc : c ≠ '/' := fun e => ht (by simp [e])
    have hr : '/' ∉ r := fun hm => ht (List.mem_cons_of_mem _ hm)
    show segments (c :: (r ++ '/' :: x)) = _
    simp only [segments, hc, if_false, ih hr]

theorem segments_noslash (t : Str) (hne : t ≠ []) (ht : '/' ∉ t) : segments t = [t] := by
  induction t with
  | nil => exact absurd rfl hne
  | cons c r ih =>
    have hc : c ≠ '/' := fun e => ht (by simp [e])
    have hr : '/' ∉ r := fun hm => ht (List.mem_cons_of_mem _ hm)
    cases r with
    | nil => simp [segments, hc]
    | cons c2 r2 =>
      simp only [segments, hc, if_false] at ih ⊢
      rw [ih (by simp) hr]

theorem segments_joinSlash (l : List Str) (hl : ∀ s ∈ l, s ≠ [] ∧ '/' ∉ s) :
    segments (joinSlash l) = l := by
  induction l with
  | nil => rfl
  | cons s rest ih =>
    have hs := hl s (List.mem_cons_self _ _)
    cases rest with
    | nil => exact segments_noslash s hs.1 hs.2
    | cons s2 rest2 =>
      rw [joinSlash_cons_cons, segments_append_slash _ _ hs.2,
        ih (fun x hx => hl x (List.mem_cons_of_mem _ hx))]

theorem mem_joinSlash (l : List Str) (s : Str) (c : Char) (hs : s ∈ l) (hc : c ∈ s) :
    c ∈ joinSlash l := by
  induction l with
  | nil => cases hs
  | cons s1 rest ih =>
    cases rest with
    | nil =>
      have : s = s1 := by simpa using hs
      subst this
      exact hc
    | cons s2 rest2 =>
      rw [joinSlash_cons_cons]
      rcases List.mem_cons.1 hs with e | e
      · subst e
        exact List.mem_append_left _ hc
      · exact List.mem_append_right _ (List.mem_cons_of_mem _ (ih e))

theorem isStaticPath_false_of_mem (p : Str) (c : Char) (hc : c ∈ p)
    (hsp : c = '{' ∨ c = '*' ∨ c = '?') : isStaticPath p = false := by
  cases hst : isStaticPath p with
  | false => rfl
  | true =>
    have := (isStaticPath_iff p).1 hst c hc
    rcases hsp with e | e | e
    · exact absurd e this.1
    · exact absurd e this.2.1
    · exact absurd e this.2.2

/-- `Match` in a router whose only registration is the patterned route `p`. -/
theorem Match_single (m p q : Str) (h : Option H) (hp : isStaticPath p = false) :
    Match (Register New m p h) m q
      = trieResult (matchNode (chain h (segments p) node.zero) q 0 emptyMap) := by
  rw [Register_pattern _ _ _ _ hp]
  have ht : getTree (New : Router H) m = ⟨emptyMap, node.zero⟩ := rfl
  rw [ht, insert_eq_segs, insertSegs_leaf h (segments p) node.zero rfl]
  simp only [Match, mapSet_same]
  rfl

theorem bindAll_not_mem (segs : List PatSeg) (p : Params) (k : Str)
    (hk : k ∉ paramNames segs) : bindAll segs p k = p k := by
  induction segs generalizing p with
  | nil => rfl
  | cons s rest ih =>
    cases s with
    | lit t => exact ih p hk
    | par n v =>
      have hkn : k ≠ n := fun e => hk (by simp [paramNames, e])
      have hkr : k ∉ paramNames rest := fun hm => hk (by simp [paramNames, hm])
      show bindAll rest (mapSet p n v) k = p k
      rw [ih _ hkr, mapSet_other _ _ _ _ hkn]

theorem bindAll_mem (segs : List PatSeg) (p : Params) (n v : Str)
    (hnd : (paramNames segs).Nodup) (hmem : PatSeg.par n v ∈ segs) :
    bindAll segs p n = some v := by
  induction segs generalizing p with
  | nil => cases hmem
  | cons s rest ih =>
    cases s with
    | lit t =>
      have hm : PatSeg.par n v ∈ rest := by simpa using hmem
      exact ih p hnd hm
    | par n1 v1 =>
      have hnd2 : n1 ∉ paramNames rest ∧ (paramNames rest).Nodup := by
        simpa [paramNames] using hnd
      show bindAll rest (mapSet p n1 v1) n = some v
      rcases List.mem_cons.1 hmem with e | e
      · cases e
        rw [bindAll_not_mem _ _ _ hnd2.1, mapSet_same]
      · exact ih _ hnd2.2 e

theorem pat_ne_nil_noslash (s : PatSeg) (hs : s.Valid) : s.pat ≠ [] ∧ '/' ∉ s.pat := by
  cases s with
  | lit t => exact ⟨hs.1, hs.2.1⟩
  | par n v =>
    refine ⟨by simp [PatSeg.pat], ?_⟩
    have hn : '/' ∉ n := hs.1
    simp [PatSeg.pat, hn]

theorem segments_patternOf (segs : List PatSeg) (hvalid : ∀ s ∈ segs, s.Valid) :
    segments (patternOf segs) = [] :: segs.map PatSeg.pat := by
  have h1 : segments (patternOf segs) = [] :: segments (joinSlash (segs.map PatSeg.pat)) := by
    simp [patternOf, segments]
  rw [h1, segments_joinSlash]
  intro x hx
  obtain ⟨s, hs, rfl⟩ := List.mem_map.1 hx
  exact pat_ne_nil_noslash s (hvalid s hs)

/-- The outcome of `Match` on the instantiated path, for a present handler. -/
theorem Match_pattern_instance (m : Str) (segs : List PatSeg) (h : H) (hne : segs ≠ [])
    (hvalid : ∀ s ∈ segs, s.Valid) (hpar : ∃ n v, PatSeg.par n v ∈ segs) :
    Match (Register New m (patternOf segs) (some h)) m (pathOf segs)
      = ⟨some h, bindAll segs emptyMap, true⟩ := by
  obtain ⟨n, v, hnv⟩ := hpar
  have hst : isStaticPath (patternOf segs) = false := by
    apply isStaticPath_false_of_mem _ '{' _ (Or.inl rfl)
    apply List.mem_cons_of_mem
    exact mem_joinSlash _ (PatSeg.par n v).pat '{' (List.mem_map.2 ⟨_, hnv, rfl⟩)
      (by simp [PatSeg.pat])
  rw [Match_single _ _ _ _ hst, segments_patternOf segs hvalid]
  have hlt : 0 < (pathOf segs).length := by simp [pathOf]
  rw [matchNode_chain_cons _ _ _ _ _ _ _ hlt, newChild_lit [] (by simp) (by simp)]
  have hroot := tryChild_static (node.mk [] [] [] false false false (none : Option H))
    (fun j np => matchNode (chain (some h) (List.map PatSeg.pat segs)
      (node.mk [] [] [] false false false none)) (pathOf segs) j np)
    [] [] (pathOf segs) emptyMap rfl rfl rfl rfl
  have hw := matchNode_walk h segs (node.mk [] [] [] false false false none) ['/'] emptyMap
    hne hvalid
  simp only [List.nil_append, List.length_nil, Nat.zero_add, List.length_singleton] at hroot hw
  rw [show ((pathOf segs).head? = some '/') from rfl, if_pos rfl] at hroot
  rw [hroot]
  rw [show (['/'] ++ joinSlash (List.map PatSeg.val segs)) = pathOf segs from rfl] at hw
  rw [hw]
  rfl

/-- C2, counterexample. With the `nil` handler registered for `/users/{id}`,
`Match` on `/users/42` reports `found = false`: a node is a terminal match only
when its handler is not `nil`. -/
theorem param_capture_counterexample :
    (Match (Register (New : Router Nat) GET "/users/{id}".toList none) GET
      "/users/42".toList).found = false := by
  decide

/-- C2 (amended). For a pattern `"/" + segments joined by "/"` (static texts
non-empty without `'/'`, `'{'`, `'}'`, `'*'`; at least one parameter; pairwise
distinct parameter names) registered alone with a handler `h` that is not `nil`,
`Match` on the path obtained by replacing each `{name}` with a non-empty value
without `'/'` returns `found = true`, handler `h`, and a mapping that binds each
name to the value substituted for it and has no other key. -/
theorem param_capture (m : Str) (segs : List PatSeg) (h : H) (hne : segs ≠ [])
    (hvalid : ∀ s ∈ segs, s.Valid) (hpar : ∃ n v, PatSeg.par n v ∈ segs)
    (hdistinct : (paramNames segs).Nodup) :
    (Match (Register New m (patternOf segs) (some h)) m (pathOf segs)).found = true
    ∧ (Match (Register New m (patternOf segs) (some h)) m (pathOf segs)).handler = some h
    ∧ (∀ n v, PatSeg.par n v ∈ segs →
        (Match (Register New m (patternOf segs) (some h)) m (pathOf segs)).params n = some v)
    ∧ (∀ k, k ∉ paramNames segs →
        (Match (Register New m (patternOf segs) (some h)) m (pathOf segs)).params k = none) := by
  rw [Match_pattern_instance m segs h hne hvalid hpar]
  refine ⟨rfl, rfl, ?_, ?_⟩
  · intro n v hnv
    exact bindAll_mem segs emptyMap n v hdistinct hnv
  · intro k hk
    exact bindAll_not_mem segs emptyMap k hk

/-- Witness for C2 (amended): `/users/{id}/posts/{pid}` against `/users/42/posts/7`. -/
theorem param_capture_witness :
    (Match (Register (New : Router Nat) GET
        (patternOf [PatSeg.lit "users".toList, PatSeg.par "id".toList "42".toList,
          PatSeg.lit "posts".toList, PatSeg.par "pid".toList "7".toList]) (some 1)) GET
        (pathOf [PatSeg.lit "users".toList, PatSeg.par "id".toList "42".toList,
          PatSeg.lit "posts".toList, PatSeg.par "pid".toList "7".toList])).found = true
    ∧ (Match (Register (New : Router Nat) GET
        (patternOf [PatSeg.lit "users".toList, PatSeg.par "id".toList "42".toList,
          PatSeg.lit "posts".toList, PatSeg.par "pid".toList "7".toList]) (some 1)) GET
        (pathOf [PatSeg.lit "users".toList, PatSeg.par "id".toList "42".toList,
          PatSeg.lit "posts".toList, PatSeg.par "pid".toList "7".toList])).handler = some 1 :=
  have hw := param_capture GET
    [PatSeg.lit "users".toList, PatSeg.par "id".toList "42".toList,
      PatSeg.lit "posts".toList, PatSeg.par "pid".toList "7".toList] (1 : Nat)
    (by simp)
    (by
      intro s hs
      simp only [List.mem_cons, List.mem_singleton, List.not_mem_nil, or_false] at hs
      rcases hs with e | e | e | e <;> subst e <;> simp [PatSeg.Valid])
    ⟨"id".toList, "42".toList, by simp⟩
    (by simp [paramNames])
  ⟨hw.1, hw.2.1⟩

/-! ## Routes with wildcards: C4, C5, C6 -/

theorem commit_commit (params : Params) (res : Option H × Params) :
    commit params (commit params res) = commit params res := by
  obtain ⟨ho, np⟩ := res
  cases ho <;> rfl

theorem commit_none (params np : Params) :
    commit params ((none : Option H), np) = (none, params) := rfl

/-- The root of a single-route trie on a path that starts with `'/'`: the
child for the empty first segment matches and the cursor moves to 1. -/
theorem matchNode_root_slash (h : Option H) (rest : List Str) (q : Str) (params : Params) :
    matchNode (chain h ([] :: rest) node.zero) ('/' :: q) 0 params
      = commit params (matchNode (chain h rest (newChild [])) ('/' :: q) 1 params) := by
  rw [matchNode_chain_cons _ _ _ _ _ _ _ (by simp), newChild_lit [] (by simp) (by simp)]
  exact tryChild_static (node.mk [] [] [] false false false (none : Option H)) _ [] []
    ('/' :: q) params rfl rfl rfl rfl

/-- A static segment of a single-route trie followed by `'/'` in the path. -/
theorem matchNode_chain_static_slash (h : Option H) (t : Str) (rest : List Str) (n0 : node H)
    (pre d : Str) (params : Params) (ht1 : '{' ∉ t) (ht2 : '*' ∉ t) :
    matchNode (chain h (t :: rest) n0) (pre ++ t ++ '/' :: d) pre.length params
      = commit params (matchNode (chain h rest (newChild t)) (pre ++ t ++ '/' :: d)
          (pre.length + t.length + 1) params) := by
  rw [matchNode_chain_cons _ _ _ _ _ _ _ (by simp), newChild_lit t ht1 ht2]
  exact tryChild_static (node.mk t [] [] false false false (none : Option H)) _ pre t
    ('/' :: d) params rfl rfl rfl rfl

/-- A static segment of a single-route trie at the end of the path. -/
theorem matchNode_chain_static_end (h : Option H) (t : Str) (rest : List Str) (n0 : node H)
    (pre : Str) (params : Params) (ht1 : '{' ∉ t) (ht2 : '*' ∉ t) (hne : t ≠ []) :
    matchNode (chain h (t :: rest) n0) (pre ++ t ++ []) pre.length params
      = commit params (matchNode (chain h rest (newChild t)) (pre ++ t ++ [])
          (pre.length + t.length) params) := by
  have hlt : pre.length < (pre ++ t ++ []).length := by
    cases t with
    | nil => exact absurd rfl hne
    | cons _ _ => simp
  rw [matchNode_chain_cons _ _ _ _ _ _ _ hlt, newChild_lit t ht1 ht2]
  exact tryChild_static (node.mk t [] [] false false false (none : Option H)) _ pre t
    [] params rfl rfl rfl rfl

theorem newChild_star : (newChild ['*'] : node H) = node.mk ['*'] [] [] false true false none :=
  rfl

theorem newChild_starstar :
    (newChild ['*', '*'] : node H) = node.mk ['*', '*'] [] [] false false true none :=
  rfl

/-- The first two levels of the trie of `/files/*` on a path `/files/<rest>`. -/
theorem matchNode_files_head (h : Option H) (rest : Str) :
    matchNode (chain h [[], "files".toList, ['*']] node.zero) ("/files/".toList ++ rest) 0
        emptyMap
      = commit emptyMap (matchNode (chain h [['*']] (newChild "files".toList))
          ("/files/".toList ++ rest) 7 emptyMap) := by
  have h0 : matchNode (chain h [[], "files".toList, ['*']] node.zero)
      ("/files/".toList ++ rest) 0 emptyMap
      = commit emptyMap (matchNode (chain h ["files".toList, ['*']] (newChild []))
          ("/files/".toList ++ rest) 1 emptyMap) :=
    matchNode_root_slash h ["files".toList, ['*']] ("files/".toList ++ rest) emptyMap
  have h1 : matchNode (chain h ["files".toList, ['*']] (newChild []))
      ("/files/".toList ++ rest) 1 emptyMap
      = commit emptyMap (matchNode (chain h [['*']] (newChild "files".toList))
          ("/files/".toList ++ rest) 7 emptyMap) :=
    matchNode_chain_static_slash h "files".toList [['*']] (newChild []) ['/'] rest emptyMap
      (by decide) (by decide)
  rw [h0, h1, commit_commit]

/-- The wildcard level of the trie of `/files/*` on `/files/<a><d>`, where `a`
is the segment at the cursor. -/
theorem matchNode_files_star (h : Option H) (a d : Str) (ha : '/' ∉ a)
    (hd : d = [] ∨ d.head? = some '/') (hne : a ++ d ≠ []) :
    matchNode (chain h [['*']] (newChild "files".toList)) ("/files/".toList ++ a ++ d) 7
        emptyMap
      = commit emptyMap (matchNode (chain h [] (newChild ['*'])) ("/files/".toList ++ a ++ d)
          (7 + a.length + 1) emptyMap) := by
  have hlt : 7 < ("/files/".toList ++ a ++ d).length := by
    have : 0 < (a ++ d).length := List.length_pos.2 hne
    simp only [List.length_append] at this ⊢
    have h7 : ("/files/".toList).length = 7 := rfl
    omega
  rw [matchNode_chain_cons _ _ _ _ _ _ _ hlt, newChild_star]
  exact tryChild_wildcard (node.mk ['*'] [] [] false true false none) _ "/files/".toList a d
    emptyMap rfl rfl ha hd

/-- `Match` on `/files/<a>` in the router holding only `/files/*`, for any handler. -/
theorem Match_files_one (m a : Str) (h : Option H) (hne : a ≠ []) (ha : '/' ∉ a) :
    Match (Register New m "/files/*".toList h) m ("/files/".toList ++ a)
      = trieResult (h, emptyMap) := by
  rw [Match_single _ _ _ _ (by decide)]
  rw [show segments "/files/*".toList = [[], "files".toList, ['*']] from by decide]
  rw [matchNode_files_head]
  rw [show "/files/".toList ++ a = "/files/".toList ++ a ++ [] from by simp]
  rw [matchNode_files_star h a [] ha (Or.inl rfl) (by simpa using hne),
    matchNode_chain_nil_end _ _ _ _ _ (by
      simp only [List.length_append, List.length_nil]
      have h7 : ("/files/".toList).length = 7 := rfl
      omega)]
  cases h <;> rfl

/-- `Match` on `/files/<a>/<b>` in the router holding only `/files/*`, for any handler. -/
theorem Match_files_two (m a b : Str) (h : Option H) (ha : '/' ∉ a) (hb : b ≠ []) :
    Match (Register New m "/files/*".toList h) m ("/files/".toList ++ a ++ '/' :: b)
      = ⟨none, emptyMap, false⟩ := by
  rw [Match_single _ _ _ _ (by decide)]
  rw [show segments "/files/*".toList = [[], "files".toList, ['*']] from by decide]
  rw [show "/files/".toList ++ a ++ '/' :: b = "/files/".toList ++ (a ++ '/' :: b)
    from by simp, matchNode_files_head]
  rw [show "/files/".toList ++ (a ++ '/' :: b) = "/files/".toList ++ a ++ '/' :: b
    from by simp]
  rw [matchNode_files_star h a ('/' :: b) ha (Or.inr rfl) (by simp),
    matchNode_chain_nil_more h (newChild ['*']) _ _ _ (newChild_children _) (by
      have hbl : 0 < b.length := List.length_pos.2 hb
      simp only [List.length_append, List.length_cons]
      have h7 : ("/files/".toList).length = 7 := rfl
      omega)]
  rfl

/-- C4, counterexample. With the `nil` handler registered for `/files/*`,
`Match` on `/files/a` reports `found = false`. -/
theorem wildcard_single_segment_counterexample :
    (Match (Register (New : Router Nat) GET "/files/*".toList none) GET
      "/files/a".toList).found = false := by
  decide

/-- C4 (amended). In a router whose only registration is `Register(m, "/files/*", h)`
with a handler `h` that is not `nil`, for all non-empty `a` and `b` without `'/'`:
`Match(m, "/files/" + a)` returns handler `h`, `found = true` and the empty
parameter mapping, and `Match(m, "/files/" + a + "/" + b)` returns `found = false`. -/
theorem wildcard_single_segment (m a b : Str) (h : H) (hane : a ≠ []) (ha : '/' ∉ a)
    (hbne : b ≠ []) (_hb : '/' ∉ b) :
    Match (Register New m "/files/*".toList (some h)) m ("/files/".toList ++ a)
      = ⟨some h, emptyMap, true⟩
    ∧ (Match (Register New m "/files/*".toList (some h)) m
        ("/files/".toList ++ a ++ "/".toList ++ b)).found = false := by
  refine ⟨Match_files_one m a (some h) hane ha, ?_⟩
  rw [show "/files/".toList ++ a ++ "/".toList ++ b = "/files/".toList ++ a ++ '/' :: b
    from by simp, Match_files_two m a b (some h) ha hbne]

/-- Witness for C4 (amended): `a = "a"`, `b = "b"`. -/
theorem wildcard_single_segment_witness :
    Match (Register (New : Router Nat) GET "/files/*".toList (some 1)) GET
        ("/files/".toList ++ "a".toList) = ⟨some 1, emptyMap, true⟩
    ∧ (Match (Register (New : Router Nat) GET "/files/*".toList (some 1)) GET
        ("/files/".toList ++ "a".toList ++ "/".toList ++ "b".toList)).found = false :=
  wildcard_single_segment GET "a".toList "b".toList 1 (by decide) (by decide) (by decide)
    (by decide)

/-- The first two levels of the trie of `/assets/**` on a path `/assets/<rest>`. -/
theorem matchNode_assets_head (h : Option H) (rest : Str) :
    matchNode (chain h [[], "assets".toList, ['*', '*']] node.zero) ("/assets/".toList ++ rest)
        0 emptyMap
      = commit emptyMap (matchNode (chain h [['*', '*']] (newChild "assets".toList))
          ("/assets/".toList ++ rest) 8 emptyMap) := by
  have h0 : matchNode (chain h [[], "assets".toList, ['*', '*']] node.zero)
      ("/assets/".toList ++ rest) 0 emptyMap
      = commit emptyMap (matchNode (chain h ["assets".toList, ['*', '*']] (newChild []))
          ("/assets/".toList ++ rest) 1 emptyMap) :=
    matchNode_root_slash h ["assets".toList, ['*', '*']] ("assets/".toList ++ rest) emptyMap
  have h1 : matchNode (chain h ["assets".toList, ['*', '*']] (newChild []))
      ("/assets/".toList ++ rest) 1 emptyMap
      = commit emptyMap (matchNode (chain h [['*', '*']] (newChild "assets".toList))
          ("/assets/".toList ++ rest) 8 emptyMap) :=
    matchNode_chain_static_slash h "assets".toList [['*', '*']] (newChild []) ['/'] rest
      emptyMap (by decide) (by decide)
  rw [h0, h1, commit_commit]

/-- `Match` on `/assets/<s>` in the router holding only `/assets/**`. -/
theorem Match_assets_some (m s : Str) (h : H) (hne : s ≠ []) :
    Match (Register New m "/assets/**".toList (some h)) m ("/assets/".toList ++ s)
      = ⟨some h, emptyMap, true⟩ := by
  rw [Match_single _ _ _ _ (by decide)]
  rw [show segments "/assets/**".toList = [[], "assets".toList, ['*', '*']] from by decide]
  rw [matchNode_assets_head]
  have hlt : 8 < ("/assets/".toList ++ s).length := by
    have hs : 0 < s.length := List.length_pos.2 hne
    have h8 : ("/assets/".toList).length = 8 := rfl
    simp only [List.length_append]
    omega
  rw [matchNode_chain_cons _ _ _ _ _ _ _ hlt, newChild_starstar]
  have hend : matchNode (chain (some h) [] (node.mk ['*', '*'] [] [] false false true none))
      ("/assets/".toList ++ s) ("/assets/".toList ++ s).length emptyMap = (some h, emptyMap) :=
    matchNode_chain_nil_end _ _ _ _ _ (le_refl _)
  rw [tryChild_multi (node.mk ['*', '*'] [] [] false false true none) _ _ 8 emptyMap h rfl hlt
    (by rw [hend]), hend]
  rfl

/-- `Match` on `/assets` in the router holding only `/assets/**`, for any handler. -/
theorem Match_assets_none (m : Str) (h : Option H) :
    Match (Register New m "/assets/**".toList h) m "/assets".toList
      = ⟨none, emptyMap, false⟩ := by
  rw [Match_single _ _ _ _ (by decide)]
  rw [show segments "/assets/**".toList = [[], "assets".toList, ['*', '*']] from by decide]
  have h0 : matchNode (chain h [[], "assets".toList, ['*', '*']] node.zero)
      "/assets".toList 0 emptyMap
      = commit emptyMap (matchNode (chain h ["assets".toList, ['*', '*']] (newChild []))
          "/assets".toList 1 emptyMap) :=
    matchNode_root_slash h ["assets".toList, ['*', '*']] "assets".toList emptyMap
  have h1 : matchNode (chain h ["assets".toList, ['*', '*']] (newChild []))
      "/assets".toList 1 emptyMap
      = commit emptyMap (matchNode (chain h [['*', '*']] (newChild "assets".toList))
          "/assets".toList 7 emptyMap) :=
    matchNode_chain_static_end h "assets".toList [['*', '*']] (newChild []) ['/'] emptyMap
      (by decide) (by decide) (by decide)
  have h2 : matchNode (chain h [['*', '*']] (newChild "assets".toList))
      "/assets".toList 7 emptyMap = (none, emptyMap) := by
    rw [matchNode_chain_cons_end _ _ _ _ _ _ _ (by decide),
      newChild_lit "assets".toList (by decide) (by decide)]
    rfl
  rw [h0, h1, h2]
  rfl

/-- C5, counterexample. With the `nil` handler registered for `/assets/**`,
`Match` on `/assets/a/b/c` reports `found = false`. -/
theorem multi_wildcard_trailing_counterexample :
    (Match (Register (New : Router Nat) GET "/assets/**".toList none) GET
      "/assets/a/b/c".toList).found = false := by
  decide

/-- C5 (amended). In a router whose only registration is
`Register(m, "/assets/**", h)` with a handler `h` that is not `nil`, for every
non-empty `s` (with any number of `'/'`), `Match(m, "/assets/" + s)` returns
handler `h`, `found = true` and the empty parameter mapping. -/
theorem multi_wildcard_trailing (m s : Str) (h : H) (hne : s ≠ []) :
    Match (Register New m "/assets/**".toList (some h)) m ("/assets/".toList ++ s)
      = ⟨some h, emptyMap, true⟩ :=
  Match_assets_some m s h hne

/-- Witness for C5 (amended): `s = "a/b/c"`. -/
theorem multi_wildcard_trailing_witness :
    Match (Register (New : Router Nat) GET "/assets/**".toList (some 1)) GET
      ("/assets/".toList ++ "a/b/c".toList) = ⟨some 1, emptyMap, true⟩ :=
  multi_wildcard_trailing GET "a/b/c".toList 1 (by decide)

/-- C6, counterexample. With only `/assets/**` registered (handler `1`),
`Match` on `/assets` reports `found = false` and no handler. -/
theorem multi_wildcard_zero_counterexample :
    (Match (Register (New : Router Nat) GET "/assets/**".toList (some 1)) GET
      "/assets".toList).found = false
    ∧ (Match (Register (New : Router Nat) GET "/assets/**".toList (some 1)) GET
      "/assets".toList).handler = none := by
  decide

/-- C6 (amended). In a router whose only registration is
`Register(m, "/assets/**", h)`, `Match(m, "/assets")` returns `found = false`
with no handler: the path is exhausted at the node of `assets`, which carries
no handler, and the `**` child below it is not tried. -/
theorem multi_wildcard_zero (m : Str) (h : Option H) :
    Match (Register New m "/assets/**".toList h) m "/assets".toList
      = ⟨none, emptyMap, false⟩ :=
  Match_assets_none m h

/-! ## C10: method isolation -/

theorem Match_congr_trees (r r' : Router H) (m q : Str) (ht : r'.trees m = r.trees m) :
    Match r' m q = Match r m q := by
  unfold Match
  rw [ht]

/-- C10. Method isolation: for `m1 ≠ m2`, `Match(m2, q)` returns the same
handler, parameter mapping and `found` after `Register(m1, p, h)` as before; in
particular after registering `/x` only under `GET`, `Match("POST", "/x")`
returns `found = false`. -/
theorem method_isolation (r : Router H) (m1 m2 p q : Str) (h : Option H) (hne : m1 ≠ m2) :
    Match (Register r m1 p h) m2 q = Match r m2 q
    ∧ (Match (Register (New : Router H) GET "/x".toList h) POST "/x".toList).found = false := by
  have key : ∀ (r : Router H) (m1 m2 p q : Str), m1 ≠ m2 →
      Match (Register r m1 p h) m2 q = Match r m2 q := fun r m1 m2 p q hne =>
    Match_congr_trees r _ m2 q (Register_trees_other r m1 m2 p h (Ne.symm hne))
  refine ⟨key r m1 m2 p q hne, ?_⟩
  rw [key New GET POST _ _ (by decide)]
  rfl

/-- Witness for C10: registering `/users/{id}` under `POST` does not change
what `GET /a/1/d` matches in `routerXY`. -/
theorem method_isolation_witness :
    Match (Register routerXY POST "/users/{id}".toList (some 7)) GET "/a/1/d".toList
      = Match routerXY GET "/a/1/d".toList :=
  (method_isolation routerXY POST GET "/users/{id}".toList "/a/1/d".toList (some 7)
    (by decide)).1

/-! ## C9: registering the same path again -/

theorem mapSet_mapSet {K V : Type} [DecidableEq K] (m : GoMap K V) (k : K) (v1 v2 : V) :
    mapSet (mapSet m k v1) k v2 = mapSet m k v2 := by
  funext k'
  unfold mapSet
  split_ifs <;> rfl

theorem insertSegs_fields (h : Option H) (segs : List Str) (n : node H) :
    (insertSegs h segs n).pfx = n.pfx ∧ (insertSegs h segs n).paramName = n.paramName
      ∧ (insertSegs h segs n).isParam = n.isParam
      ∧ (insertSegs h segs n).isWildcard = n.isWildcard
      ∧ (insertSegs h segs n).isMultiWild = n.isMultiWild := by
  cases segs with
  | nil => cases n; exact ⟨rfl, rfl, rfl, rfl, rfl⟩
  | cons seg rest =>
    simp only [insertSegs, step_eq]
    cases n; exact ⟨rfl, rfl, rfl, rfl, rfl⟩

theorem childMatches_congr (a b : node H) (seg : Str)
    (hab : a.pfx = b.pfx ∧ a.paramName = b.paramName ∧ a.isParam = b.isParam
      ∧ a.isWildcard = b.isWildcard ∧ a.isMultiWild = b.isMultiWild) :
    childMatches a seg = childMatches b seg := by
  obtain ⟨h1, h2, h3, h4, h5⟩ := hab
  unfold childMatches
  rw [h1, h2, h3, h4, h5]

theorem insertSegs_setParamName (h : Option H) (segs : List Str) (n : node H) (nm : Str) :
    insertSegs h segs (n.setParamName nm) = (insertSegs h segs n).setParamName nm := by
  cases segs with
  | nil => cases n; rfl
  | cons seg rest =>
    simp only [insertSegs, step_eq]
    cases n; rfl

theorem fixParamName_insertSegs (h : Option H) (segs : List Str) (n : node H) (seg : Str) :
    fixParamName (insertSegs h segs n) seg = insertSegs h segs (fixParamName n seg) := by
  unfold fixParamName
  rw [(insertSegs_fields h segs n).2.2.1]
  split_ifs
  · rw [insertSegs_setParamName]
  · rfl

theorem fixParamName_idem (n : node H) (seg : Str) :
    fixParamName (fixParamName n seg) seg = fixParamName n seg := by
  cases n with
  | mk p cs nm b1 b2 b3 hd =>
    cases b1 <;> simp [fixParamName, node.isParam, node.setParamName]

theorem childMatches_fixParamName (n : node H) (seg : Str)
    (hm : childMatches n seg = true) : childMatches (fixParamName n seg) seg = true := by
  cases n with
  | mk p cs nm b1 b2 b3 hd =>
    cases b1
    · simpa [fixParamName, node.isParam] using hm
    · simp only [childMatches, node.pfx, node.isParam, node.paramName, node.isWildcard,
        node.isMultiWild, fixParamName, node.setParamName, if_true, Bool.true_and,
        Bool.or_eq_true, beq_iff_eq, Bool.and_eq_true] at hm ⊢
      rcases hm with ((hm | hm) | hm) | hm
      · exact Or.inl (Or.inl (Or.inl hm))
      · exact Or.inl (Or.inl (Or.inr ⟨hm.1, trivial⟩))
      · exact Or.inl (Or.inr hm)
      · exact Or.inr hm

theorem newChild_pfx (seg : Str) : (newChild seg : node H).pfx = seg := by
  unfold newChild
  split_ifs <;> rfl

theorem childMatches_newChild (seg : Str) : childMatches (newChild seg : node H) seg = true := by
  simp [childMatches, newChild_pfx]

theorem stepList_stepList (seg : Str) (c1 c2 : node H → node H)
    (hfields : ∀ x, (c1 x).pfx = x.pfx ∧ (c1 x).paramName = x.paramName
      ∧ (c1 x).isParam = x.isParam ∧ (c1 x).isWildcard = x.isWildcard
      ∧ (c1 x).isMultiWild = x.isMultiWild)
    (hfix : ∀ x, fixParamName (c1 x) seg = c1 (fixParamName x seg))
    (hover : ∀ x, c2 (c1 x) = c2 x) (l : List (node H)) :
    stepList seg c2 (stepList seg c1 l) = stepList seg c2 l := by
  have key : ∀ x, childMatches x seg = true →
      stepList seg c2 (c1 (fixParamName x seg) :: ([] : List (node H)))
        = [c2 (fixParamName x seg)] := by
    intro x hx
    have hm : childMatches (c1 (fixParamName x seg)) seg = true := by
      rw [childMatches_congr _ _ seg (hfields _)]
      exact childMatches_fixParamName x seg hx
    simp only [stepList, hm, if_true, hfix, fixParamName_idem, hover]
  induction l with
  | nil =>
    exact key (newChild seg) (childMatches_newChild seg)
  | cons ch rest ih =>
    by_cases hm : childMatches ch seg = true
    · have hm2 : childMatches (c1 (fixParamName ch seg)) seg = true := by
        rw [childMatches_congr _ _ seg (hfields _)]
        exact childMatches_fixParamName ch seg hm
      simp only [stepList, hm, hm2, if_true, hfix, fixParamName_idem, hover]
    · simp only [stepList, hm, if_false, ih, Bool.false_eq_true]

theorem insertSegs_insertSegs (h1 h2 : Option H) (segs : List Str) :
    ∀ n : node H, insertSegs h2 segs (insertSegs h1 segs n) = insertSegs h2 segs n := by
  induction segs with
  | nil => intro n; cases n; rfl
  | cons seg rest ih =>
    intro n
    simp only [insertSegs, step_eq]
    have hl := stepList_stepList seg (insertSegs h1 rest) (insertSegs h2 rest)
      (fun x => insertSegs_fields h1 rest x)
      (fun x => fixParamName_insertSegs h1 rest x seg) ih n.children
    cases n with
    | mk p cs nm b1 b2 b3 hd =>
      simp only [node.children, node.setChildren] at hl ⊢
      rw [hl]

theorem insert_insert (n : node H) (p : Str) (h1 h2 : Option H) :
    insert (insert n p h1) p h2 = insert n p h2 := by
  simp only [insert_eq_segs, insertSegs_insertSegs]

theorem getTree_mapSet (ts : GoMap Str (Tree H)) (m : Str) (t : Tree H) :
    getTree ⟨mapSet ts m t⟩ m = t := by
  simp [getTree, mapSet]

theorem Register_Register (r : Router H) (m p : Str) (h1 h2 : Option H) :
    Register (Register r m p h1) m p h2 = Register r m p h2 := by
  cases hst : isStaticPath p
  · rw [Register_pattern r m p h1 hst, Register_pattern _ m p h2 hst,
      Register_pattern r m p h2 hst, getTree_mapSet]
    simp only [mapSet_mapSet, insert_insert]
  · rw [Register_static r m p h1 hst, Register_static _ m p h2 hst,
      Register_static r m p h2 hst, getTree_mapSet]
    simp only [mapSet_mapSet]

/-! ## C7: which route wins -/

theorem chain_firstChain (h : H) (segs : List Str) :
    ∀ n0 : node H, FirstChain h segs (chain (some h) segs n0) := by
  induction segs with
  | nil => intro n0; cases n0; rfl
  | cons seg rest ih =>
    intro n0
    refine ⟨chain (some h) rest (newChild seg), [], ?_, chain_fields _ _ _, ih _⟩
    cases n0; rfl

theorem isParam_eq (s : Str) (hs : isParam s = true) : s = '{' :: inner s ++ ['}'] := by
  cases s with
  | nil => simp [isParam] at hs
  | cons c t =>
    simp only [isParam, List.length_cons, Bool.and_eq_true, decide_eq_true_eq, beq_iff_eq,
      List.get?_cons_zero, Option.some.injEq] at hs
    obtain ⟨⟨hlen, hc⟩, hlast⟩ := hs
    have htne : t ≠ [] := by
      intro e; subst e; simp at hlen
    have hidx : t.length + 1 - 1 = (t.length - 1) + 1 := by
      have := List.length_pos.2 htne
      omega
    rw [hidx, List.get?_cons_succ, List.get?_eq_getElem?, ← List.getLast?_eq_getElem?] at hlast
    have hin : inner (c :: t) = t.dropLast := by
      simp [inner, slice, List.dropLast_eq_take]
    rw [hin, hc]
    have := List.dropLast_append_getLast? _ hlast
    rw [List.cons_append, this]

theorem newChild_handler (seg : Str) : (newChild seg : node H).handler = none := by
  unfold newChild
  split_ifs <;> rfl

theorem newChild_isMultiWild (seg : Str) (hseg : seg ≠ ['*', '*']) :
    (newChild seg : node H).isMultiWild = false := by
  unfold newChild
  split_ifs <;> rfl

theorem childMatches_sameKind (c : node H) (seg seg' : Str)
    (hk : SameKind c (newChild seg)) (hm : childMatches c seg' = true) : seg' = seg := by
  obtain ⟨h1, h2, h3, h4, h5⟩ := hk
  unfold childMatches at hm
  rw [h1, h2, h3, h4, h5] at hm
  unfold newChild at hm
  split_ifs at hm with e1 e2 e3
  · simp only [node.pfx, node.isParam, node.isWildcard, node.isMultiWild, Bool.false_and,
      Bool.or_false, Bool.true_and, Bool.or_eq_true, beq_iff_eq] at hm
    rcases hm with hm | hm
    · exact hm.symm
    · rw [hm, e1]
  · simp only [node.pfx, node.isParam, node.isWildcard, node.isMultiWild, Bool.false_and,
      Bool.or_false, Bool.true_and, Bool.or_eq_true, beq_iff_eq] at hm
    rcases hm with hm | hm
    · exact hm.symm
    · rw [hm, e2]
  · simp only [node.pfx, node.isParam, node.isWildcard, node.isMultiWild, node.paramName,
      Bool.false_and, Bool.or_false, Bool.true_and, Bool.or_eq_true, beq_iff_eq,
      Bool.and_eq_true] at hm
    rcases hm with hm | hm
    · exact hm.symm
    · rw [isParam_eq seg e3, isParam_eq seg' hm.1, hm.2]
  · simp only [node.pfx, node.isParam, node.isWildcard, node.isMultiWild, Bool.false_and,
      Bool.or_false, beq_iff_eq] at hm
    exact hm.symm

theorem fixParamName_sameKind (c : node H) (seg : Str) (hk : SameKind c (newChild seg)) :
    fixParamName c seg = c := by
  obtain ⟨-, h2, h3, -, -⟩ := hk
  unfold fixParamName
  split_ifs with hp
  · rw [h3] at hp
    have hname : (newChild seg : node H).paramName = inner seg := by
      unfold newChild at hp ⊢
      split_ifs at hp ⊢ <;> first | rfl | cases hp
    rw [hname] at h2
    cases c with
    | mk p cs nm b1 b2 b3 hd =>
      simp only [node.paramName] at h2
      simp [node.setParamName, h2]
  · rfl

theorem insertSegs_firstChain (h : H) (h' : Option H) :
    ∀ (segs segs' : List Str) (n : node H), FirstChain h segs n → segs' ≠ segs →
      FirstChain h segs (insertSegs h' segs' n) := by
  intro segs
  induction segs with
  | nil =>
    intro segs' n hfc hne
    cases segs' with
    | nil => exact absurd rfl hne
    | cons seg' rest' =>
      simp only [insertSegs, step_eq]
      cases n
      exact hfc
  | cons seg rest ih =>
    intro segs' n hfc hne
    obtain ⟨c, cs, hch, hk, hrest⟩ := hfc
    cases segs' with
    | nil =>
      refine ⟨c, cs, ?_, hk, hrest⟩
      cases n; exact hch
    | cons seg' rest' =>
      simp only [insertSegs, step_eq, hch, stepList]
      by_cases hm : childMatches c seg' = true
      · have hseg : seg' = seg := childMatches_sameKind c seg seg' hk hm
        subst hseg
        have hrne : rest' ≠ rest := fun e => hne (by rw [e])
        rw [if_pos hm, fixParamName_sameKind c seg' hk]
        refine ⟨insertSegs h' rest' c, cs, ?_, ?_, ih rest' c hrest hrne⟩
        · cases n; rfl
        · obtain ⟨f1, f2, f3, f4, f5⟩ := insertSegs_fields h' rest' c
          obtain ⟨k1, k2, k3, k4, k5⟩ := hk
          exact ⟨f1.trans k1, f2.trans k2, f3.trans k3, f4.trans k4, f5.trans k5⟩
      · rw [if_neg hm]
        refine ⟨c, stepList seg' (insertSegs h' rest') cs, ?_, hk, hrest⟩
        cases n; rfl

/-- Without `**`, the body of the children loop either returns without a
recursive call or makes one recursive call whose cursor and mapping do not
depend on the subtree of the child. -/
theorem tryChild_shape (ch : node H) (path : Str) (i : Nat) (params : Params)
    (hmulti : ch.isMultiWild = false) :
    ∃ o : Option (Nat × Params), ∀ recur : Nat → Params → Option H × Params,
      tryChild ch recur path i params =
        match o with
        | some (j, np) => commit params (recur j np)
        | none => (none, params) := by
  unfold tryChild
  cases hw : ch.isWildcard
  · cases hp : ch.isParam
    · by_cases hs : path.length ≥ i + ch.pfx.length ∧ slice path i (i + ch.pfx.length) = ch.pfx
      · exact ⟨some ((if i + ch.pfx.length < path.length
            ∧ path.get? (i + ch.pfx.length) = some '/' then i + ch.pfx.length + 1
            else i + ch.pfx.length), copyParams params),
          fun recur => by simp only [hmulti, Bool.false_eq_true, if_false, if_pos hs]⟩
      · exact ⟨none, fun recur => by simp only [hmulti, Bool.false_eq_true, if_false, if_neg hs]⟩
    · exact ⟨some (scan path i + 1,
        mapSet (copyParams params) ch.paramName (slice path i (scan path i))),
        fun recur => by simp only [hmulti, Bool.false_eq_true, if_false, if_true]⟩
  · exact ⟨some (scan path i + 1, copyParams params),
      fun recur => by simp only [hmulti, Bool.false_eq_true, if_false, if_true]⟩

theorem commit_fst (params : Params) (res : Option H × Params) :
    (commit params res).1 = res.1 := by
  obtain ⟨ho, np⟩ := res
  cases ho <;> rfl

theorem matchChildren_cons_of_some (ch : node H) (rest : List (node H)) (path : Str)
    (i : Nat) (params : Params) (h : H)
    (hs : (tryChild ch (fun j np => matchNode ch path j np) path i params).1 = some h) :
    matchChildren (ch :: rest) path i params
      = tryChild ch (fun j np => matchNode ch path j np) path i params := by
  rw [matchChildren_cons]
  generalize tryChild ch (fun j np => matchNode ch path j np) path i params = res at hs ⊢
  obtain ⟨ho, p⟩ := res
  cases ho with
  | none => cases hs
  | some h' => rfl

/-- A route that runs through first children and has `**` at most as its last
segment is found exactly as in the trie that holds it alone. -/
theorem matchNode_firstChain (h : H) (path : Str) :
    ∀ (segs : List Str) (n n0 : node H) (i : Nat) (params : Params),
      FirstChain h segs n → MultiLast segs → n0.children = [] →
      n0.handler = none → (matchNode (chain (some h) segs n0) path i params).1 ≠ none →
      matchNode n path i params = matchNode (chain (some h) segs n0) path i params
        ∧ (matchNode (chain (some h) segs n0) path i params).1 = some h := by
  intro segs
  induction segs with
  | nil =>
    intro n n0 i params hfc _ hch _ hsome
    by_cases hi : i ≥ path.length
    · rw [matchNode_chain_nil_end _ _ _ _ _ hi, matchNode_eq, if_pos hi]
      exact ⟨by rw [show n.handler = some h from hfc], rfl⟩
    · rw [matchNode_chain_nil_more _ _ _ _ _ hch (by omega)] at hsome
      exact absurd rfl hsome
  | cons seg rest ih =>
    intro n n0 i params hfc hml _ hnone hsome
    obtain ⟨c, cs, hchildren, hk, hrest⟩ := hfc
    obtain ⟨hlast, hmlrest⟩ := hml
    by_cases hi : i ≥ path.length
    · rw [matchNode_chain_cons_end _ _ _ _ _ _ _ hi, hnone] at hsome
      exact absurd rfl hsome
    · have hlt : i < path.length := by omega
      by_cases hseg : seg = ['*', '*']
      · have hr : rest = [] := hlast hseg
        subst hr
        subst hseg
        have hch : c.handler = some h := hrest
        have hmw : c.isMultiWild = true := by rw [hk.2.2.2.2]; rfl
        have hend : matchNode c path path.length params = (some h, params) := by
          rw [matchNode_eq, if_pos (le_refl _), hch]
        have hfull : tryChild c (fun j np => matchNode c path j np) path i params
            = commit params (some h, params) := by
          rw [tryChild_multi c _ path i params h hmw hlt (by rw [hend])]
          rw [hend]
        have hend0 : matchNode (chain (some h) [] (newChild ['*', '*'])) path path.length params
            = (some h, params) := matchNode_chain_nil_end _ _ _ _ _ (le_refl _)
        have hchain : matchNode (chain (some h) [['*', '*']] n0) path i params
            = commit params (some h, params) := by
          rw [matchNode_chain_cons _ _ _ _ _ _ _ hlt,
            tryChild_multi (newChild ['*', '*']) _ path i params h rfl hlt
              (by rw [hend0])]
          rw [hend0]
        rw [hchain, matchNode_eq, if_neg hi, hchildren,
          matchChildren_cons_of_some c cs path i params h (by rw [hfull]; rfl), hfull]
        exact ⟨rfl, rfl⟩
      · obtain ⟨o, ho⟩ := tryChild_shape (newChild seg : node H) path i params
          (newChild_isMultiWild seg hseg)
        rw [matchNode_chain_cons _ _ _ _ _ _ _ hlt, ho] at hsome ⊢
        rw [matchNode_eq, if_neg hi, hchildren]
        have hc : tryChild c (fun j np => matchNode c path j np) path i params
            = tryChild (newChild seg) (fun j np => matchNode c path j np) path i params :=
          tryChild_congr _ _ _ _ _ _ hk
        cases o with
        | none => exact absurd rfl hsome
        | some jp =>
          obtain ⟨j, np⟩ := jp
          simp only [commit_fst] at hsome ⊢
          obtain ⟨e1, e2⟩ := ih c (newChild seg) j np hrest hmlrest (newChild_children seg)
            (newChild_handler seg) hsome
          have htc : tryChild c (fun j np => matchNode c path j np) path i params
              = commit params (matchNode (chain (some h) rest (newChild seg)) path j np) := by
            rw [hc, ho]
            simp only [e1]
          refine ⟨?_, e2⟩
          rw [matchChildren_cons_of_some c cs path i params h (by rw [htc, commit_fst, e2]), htc]

theorem firstRoute_register (r : Router H) (m q : Str) (segs : List Str) (h : H)
    (m' p' : Str) (h' : Option H) (hr : FirstRoute r m q segs h)
    (hsegs : m' = m → isStaticPath p' = false → segments p' ≠ segs)
    (hstatic : m' = m → isStaticPath p' = true → p' ≠ q) :
    FirstRoute (Register r m' p' h') m q segs h := by
  obtain ⟨t, ht, hq, hfc⟩ := hr
  by_cases hm : m' = m
  · subst hm
    cases hst : isStaticPath p'
    · rw [Register_pattern r m' p' h' hst, getTree_of_some r m' t ht]
      refine ⟨_, mapSet_same _ _ _, hq, ?_⟩
      show FirstChain h segs (insert t.root p' h')
      rw [insert_eq_segs]
      exact insertSegs_firstChain h h' segs _ _ hfc (hsegs rfl hst)
    · rw [Register_static r m' p' h' hst, getTree_of_some r m' t ht]
      refine ⟨_, mapSet_same _ _ _, ?_, hfc⟩
      show mapSet t.staticRoutes p' h' q = none
      rw [mapSet_other _ _ _ _ (Ne.symm (hstatic rfl hst))]
      exact hq
  · exact ⟨t, (Register_trees_other r m' m p' h' (Ne.symm hm)).trans ht, hq, hfc⟩

theorem firstRoute_registerAll (rest : List (Str × Str × Option H)) (r : Router H)
    (m q : Str) (segs : List Str) (h : H) (hr : FirstRoute r m q segs h)
    (hsegs : ∀ e ∈ rest, e.1 = m → isStaticPath e.2.1 = false → segments e.2.1 ≠ segs)
    (hstatic : ∀ e ∈ rest, e.1 = m → isStaticPath e.2.1 = true → e.2.1 ≠ q) :
    FirstRoute (registerAll r rest) m q segs h := by
  induction rest generalizing r with
  | nil => exact hr
  | cons e rest ih =>
    obtain ⟨m', p', h'⟩ := e
    simp only [registerAll]
    apply ih
    · exact firstRoute_register r m q segs h m' p' h' hr
        (hsegs (m', p', h') (List.mem_cons_self _ _))
        (hstatic (m', p', h') (List.mem_cons_self _ _))
    · exact fun e he => hsegs e (List.mem_cons_of_mem _ he)
    · exact fun e he => hstatic e (List.mem_cons_of_mem _ he)

/-- C7, counterexample. Register `/{x}/foo` (1), `/*/bar` (2), `/{x}/bar` (3)
in this order. On their own, the second and the third route match `/1/bar` and
the first does not; the full router returns the handler of the third route:
it shares the child `{x}`, created by the first registration, which is tried
before the child `*` of the second. Second case, a segment after `**`:
register `/**//b` (1) and then `/**` (2). Each matches `/x//b` on its own; the
full router returns the handler of the second route, because the `**` loop
tries the end of the path first, where the later registration has put its
handler on the shared `**` node. -/
theorem registration_order_counterexample :
    ((Match (Register (New : Router Nat) GET "/{x}/foo".toList (some 1)) GET
        "/1/bar".toList).found = false
    ∧ (Match (Register (New : Router Nat) GET "/*/bar".toList (some 2)) GET
        "/1/bar".toList).handler = some 2
    ∧ (Match (Register (New : Router Nat) GET "/{x}/bar".toList (some 3)) GET
        "/1/bar".toList).handler = some 3
    ∧ (Match routerOrder GET "/1/bar".toList).handler = some 3)
    ∧ ((Match (Register (New : Router Nat) GET "/**//b".toList (some 1)) GET
        "/x//b".toList).handler = some 1
    ∧ (Match (Register (New : Router Nat) GET "/**".toList (some 2)) GET
        "/x//b".toList).handler = some 2
    ∧ (Match (Register (Register (New : Router Nat) GET "/**//b".toList (some 1)) GET
        "/**".toList (some 2)) GET "/x//b".toList).handler = some 2) := by
  decide

/-- C7 (amended). The route registered first wins: if the first `Register`
call on a new router registers under `m` a patterned route `p1` in which no
segment follows a `**` segment, with a handler `h1` that is not `nil`, no later
call under `m` registers a patterned path with the same segment sequence or
the static path `q`, and `p1` matches `q` on its own, then `Match(m, q)` on the
full router returns what it returns in the router holding `p1` alone, with
handler `h1`, whichever later routes match `q` too. -/
theorem first_route_precedence (m p1 q : Str) (h1 : H) (rest : List (Str × Str × Option H))
    (hpat : isStaticPath p1 = false)
    (hlast : MultiLast (segments p1))
    (hsegs : ∀ e ∈ rest, e.1 = m → isStaticPath e.2.1 = false → segments e.2.1 ≠ segments p1)
    (hstatic : ∀ e ∈ rest, e.1 = m → isStaticPath e.2.1 = true → e.2.1 ≠ q)
    (halone : (Match (Register New m p1 (some h1)) m q).found = true) :
    Match (registerAll New ((m, p1, some h1) :: rest)) m q
        = Match (Register New m p1 (some h1)) m q
    ∧ (Match (registerAll New ((m, p1, some h1) :: rest)) m q).handler = some h1 := by
  have hfirst : FirstRoute (Register New m p1 (some h1)) m q (segments p1) h1 := by
    rw [Register_pattern _ _ _ _ hpat]
    refine ⟨_, mapSet_same _ _ _, rfl, ?_⟩
    show FirstChain h1 (segments p1) (insert node.zero p1 (some h1))
    rw [insert_eq_segs, insertSegs_leaf _ _ node.zero rfl]
    exact chain_firstChain h1 (segments p1) node.zero
  obtain ⟨t, ht, hq, hfc⟩ := firstRoute_registerAll rest _ m q (segments p1) h1 hfirst hsegs hstatic
  rw [Match_single _ _ _ _ hpat] at halone ⊢
  have hsome : (matchNode (chain (some h1) (segments p1) node.zero) q 0 emptyMap).1 ≠ none := by
    intro hnone
    generalize matchNode (chain (some h1) (segments p1) node.zero) q 0 emptyMap = res
      at halone hnone
    obtain ⟨ho, p⟩ := res
    cases ho with
    | none => simp [trieResult] at halone
    | some _ => cases hnone
  obtain ⟨e1, e2⟩ := matchNode_firstChain h1 q (segments p1) t.root node.zero 0 emptyMap hfc
    hlast rfl rfl hsome
  have hfull : Match (registerAll New ((m, p1, some h1) :: rest)) m q
      = trieResult (matchNode (chain (some h1) (segments p1) node.zero) q 0 emptyMap) := by
    show Match (registerAll (Register New m p1 (some h1)) rest) m q = _
    simp only [Match, ht, hq, e1]
  rw [hfull]
  refine ⟨rfl, ?_⟩
  generalize matchNode (chain (some h1) (segments p1) node.zero) q 0 emptyMap = res at e2
  obtain ⟨ho, p⟩ := res
  cases ho with
  | none => cases e2
  | some h' =>
    simp only [Option.some.injEq] at e2
    subst e2
    rfl

/-- Witness for C7 (amended): `/{x}/**` registered first, then `/*/**`,
`/{x}/a/b` (which shares the node `{x}`), `/**` and the static `/static`; the
path `/1/a/b` is matched by each of the four patterned routes on its own, and
the full router returns the handler of the first. -/
theorem first_route_precedence_witness :
    ((Match (Register (New : Router Nat) GET "/*/**".toList (some 2)) GET
        "/1/a/b".toList).handler = some 2
      ∧ (Match (Register (New : Router Nat) GET "/{x}/a/b".toList (some 3)) GET
        "/1/a/b".toList).handler = some 3
      ∧ (Match (Register (New : Router Nat) GET "/**".toList (some 4)) GET
        "/1/a/b".toList).handler = some 4)
    ∧ Match (registerAll (New : Router Nat)
        ((GET, "/{x}/**".toList, some 1) ::
          [(GET, "/*/**".toList, some 2), (GET, "/{x}/a/b".toList, some 3),
            (GET, "/**".toList, some 4), (GET, "/static".toList, some 5)])) GET
          "/1/a/b".toList
      = Match (Register (New : Router Nat) GET "/{x}/**".toList (some 1)) GET "/1/a/b".toList
    ∧ (Match (registerAll (New : Router Nat)
        ((GET, "/{x}/**".toList, some 1) ::
          [(GET, "/*/**".toList, some 2), (GET, "/{x}/a/b".toList, some 3),
            (GET, "/**".toList, some 4), (GET, "/static".toList, some 5)])) GET
          "/1/a/b".toList).handler = some 1 :=
  ⟨by decide,
    first_route_precedence GET "/{x}/**".toList "/1/a/b".toList 1
      [(GET, "/*/**".toList, some 2), (GET, "/{x}/a/b".toList, some 3),
        (GET, "/**".toList, some 4), (GET, "/static".toList, some 5)]
      (by decide)
      (by
        rw [show segments "/{x}/**".toList = [[], "{x}".toList, ['*', '*']] from by decide]
        simp [MultiLast])
      (by decide) (by decide) (by decide)⟩

/-! ## C14: static paths and patterned paths -/

/-- C14. Classification and dispatch: `isStaticPath(p)` holds exactly when no
byte of `p` is `'{'`, `'*'` or `'?'`; `Register(m, p, h)` then assigns
`staticRoutes[p] = h` in the tree of `m` and keeps its trie, and otherwise
inserts into the trie and keeps the static map. The path `/a?b` is patterned:
after registering it alone the static map has no entry for it and the trie
holds the route (and finds it). -/
theorem static_classification (r : Router H) (m p : Str) (h : Option H) :
    (isStaticPath p = true ↔ ∀ c ∈ p, c ≠ '{' ∧ c ≠ '*' ∧ c ≠ '?')
    ∧ (Register r m p h).trees m
        = some (if isStaticPath p = true then
            ⟨mapSet (getTree r m).staticRoutes p h, (getTree r m).root⟩
          else ⟨(getTree r m).staticRoutes, insert (getTree r m).root p h⟩)
    ∧ isStaticPath "/a?b".toList = false
    ∧ (getTree routerQ GET).staticRoutes "/a?b".toList = none
    ∧ (getTree routerQ GET).root = chain (some 1) [[], "a?b".toList] node.zero
    ∧ (Match routerQ GET "/a?b".toList).handler = some 1 := by
  refine ⟨isStaticPath_iff p, ?_, by decide, by decide, ?_, by decide⟩
  · cases hst : isStaticPath p
    · rw [Register_pattern r m p h hst]
      simp [mapSet]
    · rw [Register_static r m p h hst]
      simp [mapSet]
  · show (getTree (Register New GET "/a?b".toList (some 1)) GET).root = _
    rw [Register_pattern _ _ _ _ (by decide), getTree_mapSet]
    show insert node.zero "/a?b".toList (some 1) = _
    rw [insert_eq_segs, insertSegs_leaf _ _ node.zero rfl]
    rfl

/-! ## C17: a trailing slash in `insert` -/

theorem segments_append_slash_last (p : Str) (hne : p ≠ []) (hlast : p.getLast? ≠ some '/') :
    segments (p ++ ['/']) = segments p := by
  induction p with
  | nil => exact absurd rfl hne
  | cons c rest ih =>
    cases rest with
    | nil =>
      have hc : c ≠ '/' := by
        intro e
        apply hlast
        simp [e]
      simp [segments, hc]
    | cons c2 rest2 =>
      have hl : (c2 :: rest2).getLast? ≠ some '/' := by
        simpa [List.getLast?_cons_cons] using hlast
      have := ih (by simp) hl
      show segments (c :: ((c2 :: rest2) ++ ['/'])) = segments (c :: c2 :: rest2)
      simp only [segments] at this ⊢
      rw [this]

/-- C17. A single trailing slash is ignored by insertion: for a non-empty path
`p` that does not end in `'/'`, `insert(n, p + "/", h)` gives the same trie as
`insert(n, p, h)`; hence for a patterned `p` not ending in `'/'`,
`Register(m, p + "/", h)` and `Register(m, p, h)` give the same router state. -/
theorem trailing_slash_insert (n : node H) (p : Str) (h : Option H) (hne : p ≠ [])
    (hlast : p.getLast? ≠ some '/') :
    insert n (p ++ ['/']) h = insert n p h
    ∧ (∀ (r : Router H) (m : Str), isStaticPath p = false →
        Register r m (p ++ ['/']) h = Register r m p h) := by
  have key : ∀ n' : node H, insert n' (p ++ ['/']) h = insert n' p h := by
    intro n'
    rw [insert_eq_segs, insert_eq_segs, segments_append_slash_last p hne hlast]
  refine ⟨key n, ?_⟩
  intro r m hst
  have hst2 : isStaticPath (p ++ ['/']) = false := by
    cases hs : isStaticPath (p ++ ['/']) with
    | false => rfl
    | true =>
      have h1 := (isStaticPath_iff _).1 hs
      have h2 : isStaticPath p = true :=
        (isStaticPath_iff p).2 (fun c hc => h1 c (List.mem_append_left _ hc))
      rw [h2] at hst
      cases hst
  rw [Register_pattern r m _ h hst2, Register_pattern r m p h hst, key]

/-- Witness for C17: `/a/{x}` and `/a/{x}/` inserted below `/a/{y}/d`. -/
theorem trailing_slash_insert_witness :
    insert (getTree routerXY GET).root ("/a/{x}".toList ++ ['/']) (some 5)
      = insert (getTree routerXY GET).root "/a/{x}".toList (some 5) :=
  (trailing_slash_insert (getTree routerXY GET).root "/a/{x}".toList (some 5)
    (by decide) (by decide)).1

/-! ## C18: a node without a handler is no terminal match -/

/-- The trie of `/a/{x}/c` on `/a/<v><d>`, where `d` is empty or a single `'/'`:
the walk ends at the node of `a` or of `{x}`, neither of which has a handler. -/
theorem matchNode_interior (h : Option H) (v d : Str) (hv : '/' ∉ v)
    (hd : d = [] ∨ d = ['/']) :
    matchNode (chain h [[], "a".toList, "{x}".toList, "c".toList] node.zero)
        ("/a/".toList ++ v ++ d) 0 emptyMap = (none, emptyMap) := by
  have h0 : matchNode (chain h [[], "a".toList, "{x}".toList, "c".toList] node.zero)
      ("/a/".toList ++ v ++ d) 0 emptyMap
      = commit emptyMap (matchNode (chain h ["a".toList, "{x}".toList, "c".toList] (newChild []))
          ("/a/".toList ++ v ++ d) 1 emptyMap) :=
    matchNode_root_slash h ["a".toList, "{x}".toList, "c".toList] ("a/".toList ++ v ++ d)
      emptyMap
  have h1 : matchNode (chain h ["a".toList, "{x}".toList, "c".toList] (newChild []))
      ("/a/".toList ++ v ++ d) 1 emptyMap
      = commit emptyMap (matchNode (chain h ["{x}".toList, "c".toList] (newChild "a".toList))
          ("/a/".toList ++ v ++ d) 3 emptyMap) := by
    have := matchNode_chain_static_slash h "a".toList ["{x}".toList, "c".toList] (newChild [])
      ['/'] (v ++ d) emptyMap (by decide) (by decide)
    rw [show ['/'] ++ "a".toList ++ '/' :: (v ++ d) = "/a/".toList ++ v ++ d from by simp]
      at this
    exact this
  have h3 : ("/a/".toList).length = 3 := rfl
  have hlen : ("/a/".toList ++ v ++ d).length = 3 + v.length + d.length := by
    simp only [List.length_append, h3]
  have hdl : d.length ≤ 1 := by
    rcases hd with e | e <;> subst e <;> simp
  have h2 : matchNode (chain h ["{x}".toList, "c".toList] (newChild "a".toList))
      ("/a/".toList ++ v ++ d) 3 emptyMap = (none, emptyMap) := by
    by_cases hend : 3 ≥ ("/a/".toList ++ v ++ d).length
    · rw [matchNode_chain_cons_end _ _ _ _ _ _ _ hend, newChild_handler]
    · rw [matchNode_chain_cons _ _ _ _ _ _ _ (by omega)]
      have hpar : (newChild "{x}".toList : node H)
          = node.mk "{x}".toList [] "x".toList true false false none := newChild_par "x".toList
      rw [hpar]
      have htc := tryChild_param (node.mk "{x}".toList [] "x".toList true false false none)
        (fun j np => matchNode (chain h ["c".toList]
          (node.mk "{x}".toList [] "x".toList true false false none))
          ("/a/".toList ++ v ++ d) j np) "/a/".toList v d emptyMap rfl rfl rfl hv
        (by rcases hd with e | e <;> subst e <;> simp)
      rw [h3] at htc
      rw [htc]
      dsimp only
      rw [matchNode_chain_cons_end h "c".toList [] _ ("/a/".toList ++ v ++ d)
        (3 + v.length + 1) _ (by omega)]
      rfl
  rw [h0, h1, h2]
  rfl

/-- C18. A node without a handler is not a terminal match: in a router whose
only registration is `Register(m, "/a/{x}/c", h)`, for every `v` without `'/'`,
`Match(m, "/a/" + v)` and `Match(m, "/a/" + v + "/")` return `found = false`
and no handler. -/
theorem interior_node_not_terminal (m v : Str) (h : Option H) (hv : '/' ∉ v) :
    Match (Register New m "/a/{x}/c".toList h) m ("/a/".toList ++ v)
      = ⟨none, emptyMap, false⟩
    ∧ Match (Register New m "/a/{x}/c".toList h) m ("/a/".toList ++ v ++ "/".toList)
      = ⟨none, emptyMap, false⟩ := by
  have hseg : segments "/a/{x}/c".toList = [[], "a".toList, "{x}".toList, "c".toList] := by
    decide
  constructor
  · rw [Match_single _ _ _ _ (by decide), hseg]
    have := matchNode_interior h v [] hv (Or.inl rfl)
    rw [List.append_nil] at this
    rw [this]
    rfl
  · rw [Match_single _ _ _ _ (by decide), hseg,
      matchNode_interior h v "/".toList hv (Or.inr rfl)]
    rfl

/-- Witness for C18: `v = "1"`. -/
theorem interior_node_not_terminal_witness :
    Match (Register (New : Router Nat) GET "/a/{x}/c".toList (some 1)) GET
        ("/a/".toList ++ "1".toList) = ⟨none, emptyMap, false⟩
    ∧ Match (Register (New : Router Nat) GET "/a/{x}/c".toList (some 1)) GET
        ("/a/".toList ++ "1".toList ++ "/".toList) = ⟨none, emptyMap, false⟩ :=
  interior_node_not_terminal GET "1".toList (some 1) (by decide)

/-! ## Well-formed tries -/

theorem WF_iff (n : node H) : WF n ↔ WFList n.children := by
  cases n
  simp only [WF, node.children]

theorem WFList_cons (c : node H) (rest : List (node H)) :
    WFList (c :: rest) ↔
      SameKind c (newChild c.pfx) ∧ (∀ d ∈ rest, d.pfx ≠ c.pfx) ∧ WF c ∧ WFList rest := by
  simp only [WFList]

theorem WFList_nil : WFList ([] : List (node H)) := by
  simp only [WFList]

theorem WF_zero : WF (node.zero : node H) := by
  rw [WF_iff]
  exact WFList_nil

theorem WF_newChild (seg : Str) : WF (newChild seg : node H) := by
  rw [WF_iff, newChild_children]
  exact WFList_nil

theorem WF_setHandler (n : node H) (h : Option H) : WF (n.setHandler h) ↔ WF n := by
  cases n
  simp only [node.setHandler, WF]

theorem WF_setChildren (n : node H) (cs : List (node H)) : WF (n.setChildren cs) ↔ WFList cs := by
  cases n
  simp only [node.setChildren, WF]

theorem childMatches_of_pfx (c : node H) (seg : Str) (hp : c.pfx = seg) :
    childMatches c seg = true := by
  simp [childMatches, hp]

theorem fixParamName_pfx (c : node H) (seg : Str) : (fixParamName c seg).pfx = c.pfx := by
  unfold fixParamName
  split_ifs
  · cases c; rfl
  · rfl

theorem stepList_pfx (seg : Str) (cont : node H → node H)
    (hcont : ∀ x, (cont x).pfx = x.pfx) (cs : List (node H)) :
    ∀ d ∈ stepList seg cont cs, (∃ d0 ∈ cs, d.pfx = d0.pfx) ∨ d.pfx = seg := by
  induction cs with
  | nil =>
    intro d hd
    have : d = cont (fixParamName (newChild seg) seg) := by simpa [stepList] using hd
    right
    rw [this, hcont, fixParamName_pfx, newChild_pfx]
  | cons c rest ih =>
    intro d hd
    by_cases hm : childMatches c seg = true
    · simp only [stepList, hm, if_true, List.mem_cons] at hd
      rcases hd with e | e
      · left
        exact ⟨c, List.mem_cons_self _ _, by rw [e, hcont, fixParamName_pfx]⟩
      · left
        exact ⟨d, List.mem_cons_of_mem _ e, rfl⟩
    · simp only [stepList, hm, if_false, List.mem_cons, Bool.false_eq_true] at hd
      rcases hd with e | e
      · left
        exact ⟨c, List.mem_cons_self _ _, by rw [e]⟩
      · rcases ih d e with ⟨d0, hd0, hp⟩ | hp
        · left
          exact ⟨d0, List.mem_cons_of_mem _ hd0, hp⟩
        · right
          exact hp

theorem sameKind_trans_fields (x y : node H) (seg : Str)
    (hxy : x.pfx = y.pfx ∧ x.paramName = y.paramName ∧ x.isParam = y.isParam
      ∧ x.isWildcard = y.isWildcard ∧ x.isMultiWild = y.isMultiWild)
    (hk : SameKind y (newChild seg)) : SameKind x (newChild seg) := by
  obtain ⟨f1, f2, f3, f4, f5⟩ := hxy
  obtain ⟨k1, k2, k3, k4, k5⟩ := hk
  exact ⟨f1.trans k1, f2.trans k2, f3.trans k3, f4.trans k4, f5.trans k5⟩

theorem sameKind_newChild (seg : Str) :
    SameKind (newChild seg : node H) (newChild (newChild seg : node H).pfx) := by
  rw [newChild_pfx]
  exact ⟨rfl, rfl, rfl, rfl, rfl⟩

theorem stepList_WF (seg : Str) (cont : node H → node H)
    (hfields : ∀ x, (cont x).pfx = x.pfx ∧ (cont x).paramName = x.paramName
      ∧ (cont x).isParam = x.isParam ∧ (cont x).isWildcard = x.isWildcard
      ∧ (cont x).isMultiWild = x.isMultiWild)
    (hwf : ∀ x, WF x → WF (cont x)) (cs : List (node H)) (hcs : WFList cs) :
    WFList (stepList seg cont cs) := by
  induction cs with
  | nil =>
    simp only [stepList, fixParamName_newChild]
    rw [WFList_cons]
    refine ⟨?_, fun d hd => absurd hd (List.not_mem_nil _), hwf _ (WF_newChild seg), WFList_nil⟩
    rw [(hfields _).1]
    exact sameKind_trans_fields _ _ _ (hfields _) (sameKind_newChild seg)
  | cons c rest ih =>
    obtain ⟨hk, hd, hwfc, hrest⟩ := (WFList_cons c rest).1 hcs
    by_cases hm : childMatches c seg = true
    · have hseg : seg = c.pfx := childMatches_sameKind c c.pfx seg hk hm
      have hfix : fixParamName c seg = c := by
        rw [hseg]
        exact fixParamName_sameKind c c.pfx hk
      simp only [stepList, hm, if_true, hfix]
      rw [WFList_cons]
      refine ⟨?_, ?_, hwf c hwfc, hrest⟩
      · rw [(hfields c).1]
        exact sameKind_trans_fields _ _ _ (hfields c) hk
      · rw [(hfields c).1]
        exact hd
    · simp only [stepList, hm, if_false, Bool.false_eq_true]
      rw [WFList_cons]
      refine ⟨hk, ?_, hwfc, ih hrest⟩
      intro d hdm
      rcases stepList_pfx seg cont (fun x => (hfields x).1) rest d hdm with ⟨d0, hd0, hp⟩ | hp
      · rw [hp]
        exact hd d0 hd0
      · rw [hp]
        intro e
        exact hm (childMatches_of_pfx c seg e.symm)

theorem insertSegs_WF (h : Option H) (segs : List Str) :
    ∀ n : node H, WF n → WF (insertSegs h segs n) := by
  induction segs with
  | nil =>
    intro n hn
    exact (WF_setHandler n h).2 hn
  | cons seg rest ih =>
    intro n hn
    simp only [insertSegs, step_eq]
    rw [WF_setChildren]
    exact stepList_WF seg (insertSegs h rest) (fun x => insertSegs_fields h rest x) ih _
      ((WF_iff n).1 hn)

theorem insert_WF (n : node H) (p : Str) (h : Option H) (hn : WF n) : WF (insert n p h) := by
  rw [insert_eq_segs]
  exact insertSegs_WF h _ n hn

theorem getTree_WF (r : Router H) (m : Str) (hr : RouterWF r) : WF (getTree r m).root := by
  unfold getTree
  cases ht : r.trees m with
  | none => exact WF_zero
  | some t => exact hr m t ht

theorem Register_WF (r : Router H) (m p : Str) (h : Option H) (hr : RouterWF r) :
    RouterWF (Register r m p h) := by
  intro m' t ht
  by_cases hm : m' = m
  · subst hm
    cases hst : isStaticPath p
    · rw [Register_pattern r m' p h hst] at ht
      have : t = ⟨(getTree r m').staticRoutes, insert (getTree r m').root p h⟩ := by
        simpa [mapSet] using ht.symm
      rw [this]
      exact insert_WF _ p h (getTree_WF r m' hr)
    · rw [Register_static r m' p h hst] at ht
      have : t = ⟨mapSet (getTree r m').staticRoutes p h, (getTree r m').root⟩ := by
        simpa [mapSet] using ht.symm
      rw [this]
      exact getTree_WF r m' hr
  · rw [Register_trees_other r m m' p h hm] at ht
    exact hr m' t ht

theorem New_WF : RouterWF (New : Router H) := by
  intro m t ht
  cases ht

theorem registerAll_WF (regs : List (Str × Str × Option H)) (r : Router H) (hr : RouterWF r) :
    RouterWF (registerAll r regs) := by
  induction regs generalizing r with
  | nil => exact hr
  | cons e rest ih =>
    obtain ⟨m, p, h⟩ := e
    exact ih _ (Register_WF r m p h hr)

theorem WFList_mem (cs : List (node H)) (hcs : WFList cs) :
    ∀ c ∈ cs, SameKind c (newChild c.pfx) ∧ WF c := by
  induction cs with
  | nil => intro c hc; cases hc
  | cons c0 rest ih =>
    obtain ⟨hk, -, hwf, hrest⟩ := (WFList_cons c0 rest).1 hcs
    intro c hc
    rcases List.mem_cons.1 hc with e | e
    · rw [e]; exact ⟨hk, hwf⟩
    · exact ih hrest c e

theorem WFList_nodup (cs : List (node H)) (hcs : WFList cs) : (cs.map node.pfx).Nodup := by
  induction cs with
  | nil => simp
  | cons c0 rest ih =>
    obtain ⟨-, hd, -, hrest⟩ := (WFList_cons c0 rest).1 hcs
    rw [List.map_cons, List.nodup_cons]
    refine ⟨?_, ih hrest⟩
    intro hm
    obtain ⟨d, hdm, hp⟩ := List.mem_map.1 hm
    exact hd d hdm hp

theorem WF_descendant (root n : node H) (hroot : WF root) (hn : Descendant root n) : WF n := by
  induction hn with
  | self => exact hroot
  | child a c _ hc ih => exact (WFList_mem a.children ((WF_iff a).1 ih) c hc).2

/-! ## C16: the shape of reachable tries -/

theorem kindOk_of_sameKind (c : node H) (hk : SameKind c (newChild c.pfx)) : KindOk c := by
  obtain ⟨-, h2, h3, h4, h5⟩ := hk
  unfold KindOk
  rw [h2, h3, h4, h5]
  unfold newChild
  split_ifs with e1 e2 e3
  · simp [node.isParam, node.isWildcard, node.isMultiWild, e1, isParam]
  · simp [node.isParam, node.isWildcard, node.isMultiWild, e2, isParam]
  · simp [node.isParam, node.isWildcard, node.isMultiWild, node.paramName, e1, e2, e3]
  · simp [node.isParam, node.isWildcard, node.isMultiWild, e1, e2, e3]

theorem length_le_one_of_const {α β : Type} (f : α → β) (b : β) (l : List α)
    (hnd : (l.map f).Nodup) (hall : ∀ x ∈ l, f x = b) : l.length ≤ 1 := by
  cases l with
  | nil => simp
  | cons x rest =>
    cases rest with
    | nil => simp
    | cons y rest2 =>
      exfalso
      have hx := hall x (List.mem_cons_self _ _)
      have hy := hall y (List.mem_cons_of_mem _ (List.mem_cons_self _ _))
      simp only [List.map_cons, List.nodup_cons, List.mem_cons] at hnd
      exact hnd.1 (Or.inl (hx.trans hy.symm))

theorem childrenOk_of_WFList (cs : List (node H)) (hcs : WFList cs) : ChildrenOk cs := by
  have hkind : ∀ c ∈ cs, KindOk c := fun c hc =>
    kindOk_of_sameKind c (WFList_mem cs hcs c hc).1
  have hnd : (cs.map node.pfx).Nodup := WFList_nodup cs hcs
  have hsub : ∀ p : node H → Bool, ((cs.filter p).map node.pfx).Nodup := fun p =>
    hnd.sublist ((List.filter_sublist cs).map node.pfx)
  refine ⟨hkind, hnd, hsub _, ?_, ?_, ?_⟩
  · have hmap : (cs.filter node.isParam).map node.pfx
        = ((cs.filter node.isParam).map node.paramName).map (fun n => '{' :: n ++ ['}']) := by
      rw [List.map_map]
      apply List.map_congr_left
      intro x hx
      obtain ⟨hxm, hxp⟩ := List.mem_filter.1 hx
      obtain ⟨-, -, k3, k4, -⟩ := hkind x hxm
      show x.pfx = '{' :: x.paramName ++ ['}']
      rw [k4 hxp]
      exact isParam_eq x.pfx (k3.1 hxp)
    have := hsub node.isParam
    rw [hmap] at this
    exact List.Nodup.of_map _ this
  · apply length_le_one_of_const node.pfx ['*'] _ (hsub _)
    intro x hx
    obtain ⟨hxm, hxp⟩ := List.mem_filter.1 hx
    exact (hkind x hxm).1.1 hxp
  · apply length_le_one_of_const node.pfx ['*', '*'] _ (hsub _)
    intro x hx
    obtain ⟨hxm, hxp⟩ := List.mem_filter.1 hx
    exact (hkind x hxm).2.1.1 hxp

/-- C16. Trie well-formedness: in every trie reachable from `New` by `Register`
calls, the children of every node are each exactly one of static, parameter,
wildcard, multi-wildcard, with `isWildcard` iff the prefix is `*`,
`isMultiWild` iff it is `**`, `isParam` iff `isParam(prefix)` (length at least
2, first byte `'{'`, last byte `'}'`) and then `paramName` the prefix without
braces; and they have pairwise distinct prefixes, so static children have
distinct texts, parameter children distinct names, and there is at most one
wildcard and at most one multi-wildcard child. -/
theorem trie_well_formed (regs : List (Str × Str × Option H)) (m : Str) (t : Tree H)
    (n : node H) (ht : (registerAll New regs).trees m = some t)
    (hn : Descendant t.root n) : ChildrenOk n.children :=
  childrenOk_of_WFList n.children
    ((WF_iff n).1 (WF_descendant t.root n (registerAll_WF regs New New_WF m t ht) hn))

/-- Witness for C16: in the trie of `routerOrder` (routes `/{x}/foo`, `/*/bar`,
`/{x}/bar`) the node of the empty first segment, one level below the root, has
the parameter child `{x}` and the wildcard child `*`; the theorem is applied
to this node. -/
theorem trie_well_formed_witness :
    (registerAll New [(GET, "/{x}/foo".toList, some 1), (GET, "/*/bar".toList, some 2),
        (GET, "/{x}/bar".toList, some 3)]).trees GET = some (getTree routerOrder GET)
    ∧ (getTree routerOrder GET).root.children = [nodeOrder]
    ∧ nodeOrder.children.map node.pfx = ["{x}".toList, ['*']]
    ∧ nodeOrder.children.map node.isParam = [true, false]
    ∧ nodeOrder.children.map node.isWildcard = [false, true]
    ∧ ChildrenOk nodeOrder.children :=
  ⟨rfl, rfl, rfl, rfl, rfl,
    trie_well_formed
      [(GET, "/{x}/foo".toList, some 1), (GET, "/*/bar".toList, some 2),
        (GET, "/{x}/bar".toList, some 3)] GET (getTree routerOrder GET)
      nodeOrder rfl
      (Descendant.child (getTree routerOrder GET).root nodeOrder Descendant.self
        (List.mem_singleton.2 rfl))⟩

/-! ## C15: parameter names at a shared position -/

theorem Match_of_tree (r : Router H) (m q : Str) (t : Tree H) (ht : r.trees m = some t)
    (hq : t.staticRoutes q = none) :
    Match r m q = trieResult (matchNode t.root q 0 emptyMap) := by
  simp only [Match, ht, hq]

theorem findChild_get (cs : List (node H)) (seg : Str) (k : Nat)
    (hf : findChild cs seg = some k) :
    ∃ c, cs.get? k = some c ∧ childMatches c seg = true := by
  induction cs generalizing k with
  | nil => simp [findChild] at hf
  | cons c rest ih =>
    by_cases hm : childMatches c seg = true
    · simp only [findChild, hm, if_true, Option.some.injEq] at hf
      subst hf
      exact ⟨c, rfl, hm⟩
    · simp only [findChild, hm, if_false, Bool.false_eq_true, Option.map_eq_some'] at hf
      obtain ⟨k', hk', rfl⟩ := hf
      obtain ⟨c', hc', hm'⟩ := ih k' hk'
      exact ⟨c', by simpa using hc', hm'⟩

theorem trees_register_two (m p1 p2 : Str) (h1 h2 : Option H)
    (hp1 : isStaticPath p1 = false) (hp2 : isStaticPath p2 = false) :
    (Register (Register New m p1 h1) m p2 h2).trees m
      = some ⟨emptyMap, insertSegs h2 (segments p2) (insertSegs h1 (segments p1) node.zero)⟩ := by
  rw [Register_pattern New m p1 h1 hp1, Register_pattern _ m p2 h2 hp2, getTree_mapSet,
    insert_eq_segs, insert_eq_segs]
  exact mapSet_same _ _ _

/-- C15, counterexample. After `Register("GET", "/a/{x}/c", 1)` and
`Register("GET", "/a/{y}/d", 2)` the node of `a` has two parameter children,
named `x` and `y`, and `Match("GET", "/a/1/c")` binds `x`, not `y`. -/
theorem param_rebinding_counterexample :
    (getTree routerXY GET).root = trieXY (some 1) (some 2)
    ∧ (Match routerXY GET "/a/1/c".toList).handler = some 1
    ∧ (Match routerXY GET "/a/1/c".toList).params "y".toList = none
    ∧ (Match routerXY GET "/a/1/c".toList).params "x".toList = some "1".toList := by
  refine ⟨rfl, by decide, by decide, by decide⟩

/-- C15 (amended). In every trie reachable from `New`, `findChild(n, seg)` only
returns a child whose prefix equals `seg`, and the assignment of lines 102-104
leaves that child as it is; so a parameter segment with another name does not
reuse an existing parameter node and no stored name is ever replaced. After
`Register(m, "/a/{x}/c", h1)` then `Register(m, "/a/{y}/d", h2)` the node of `a`
has the two parameter children `{x}` and `{y}`; `Match(m, "/a/1/c")` returns
`h1` with `{x: "1"}` and `Match(m, "/a/1/d")` returns `h2` with `{y: "1"}`. -/
theorem param_name_kept (regs : List (Str × Str × Option H)) (m : Str) (t : Tree H)
    (n : node H) (seg : Str) (k : Nat) (ht : (registerAll New regs).trees m = some t)
    (hn : Descendant t.root n) (hfind : findChild n.children seg = some k) :
    (∃ c, n.children.get? k = some c ∧ c.pfx = seg ∧ fixParamName c seg = c)
    ∧ (∀ (m' : Str) (h1 h2 : H),
        (Register (Register New m' "/a/{x}/c".toList (some h1)) m' "/a/{y}/d".toList
            (some h2)).trees m' = some ⟨emptyMap, trieXY (some h1) (some h2)⟩
        ∧ Match (Register (Register New m' "/a/{x}/c".toList (some h1)) m'
            "/a/{y}/d".toList (some h2)) m' "/a/1/c".toList
          = ⟨some h1, mapSet emptyMap "x".toList "1".toList, true⟩
        ∧ Match (Register (Register New m' "/a/{x}/c".toList (some h1)) m'
            "/a/{y}/d".toList (some h2)) m' "/a/1/d".toList
          = ⟨some h2, mapSet emptyMap "y".toList "1".toList, true⟩) := by
  constructor
  · obtain ⟨c, hc, hm⟩ := findChild_get n.children seg k hfind
    have hwf : WF n := WF_descendant t.root n (registerAll_WF regs New New_WF m t ht) hn
    have hk : SameKind c (newChild c.pfx) :=
      (WFList_mem n.children ((WF_iff n).1 hwf) c (List.get?_mem hc)).1
    have hseg : seg = c.pfx := childMatches_sameKind c c.pfx seg hk hm
    refine ⟨c, hc, hseg.symm, ?_⟩
    rw [hseg]
    exact fixParamName_sameKind c c.pfx hk
  · intro m' h1 h2
    have htree : (Register (Register New m' "/a/{x}/c".toList (some h1)) m' "/a/{y}/d".toList
        (some h2)).trees m' = some ⟨emptyMap, trieXY (some h1) (some h2)⟩ := by
      rw [trees_register_two m' _ _ _ _ (by decide) (by decide),
        show segments "/a/{x}/c".toList = [[], "a".toList, "{x}".toList, "c".toList]
          from by decide,
        show segments "/a/{y}/d".toList = [[], "a".toList, "{y}".toList, "d".toList]
          from by decide]
      rfl
    refine ⟨htree, ?_, ?_⟩
    · rw [Match_of_tree _ m' _ _ htree rfl]
      rfl
    · rw [Match_of_tree _ m' _ _ htree rfl]
      rfl

/-- Witness for C15 (amended): in `routerXY` (routes `/a/{x}/c` and `/a/{y}/d`)
the node of `a`, two levels below the root, has the parameter children `{x}`
and `{y}`; for the segment `{y}`, `findChild` passes over the parameter node
`{x}` and returns the second child, the parameter node named `y`, which the
name assignment leaves as it is. -/
theorem param_name_kept_witness :
    (registerAll New [(GET, "/a/{x}/c".toList, some 1),
        (GET, "/a/{y}/d".toList, some 2)]).trees GET = some (getTree routerXY GET)
    ∧ (getTree routerXY GET).root.children
        = [node.mk [] [nodeXYa] [] false false false none]
    ∧ nodeXYa.children.map node.isParam = [true, true]
    ∧ nodeXYa.children.map node.paramName = ["x".toList, "y".toList]
    ∧ findChild nodeXYa.children "{y}".toList = some 1
    ∧ ∃ c, nodeXYa.children.get? 1 = some c ∧ c.pfx = "{y}".toList
        ∧ fixParamName c "{y}".toList = c :=
  ⟨rfl, rfl, rfl, rfl, by decide,
    (param_name_kept
      [(GET, "/a/{x}/c".toList, some 1), (GET, "/a/{y}/d".toList, some 2)] GET
      (getTree routerXY GET) nodeXYa "{y}".toList 1 rfl
      (Descendant.child (node.mk [] [nodeXYa] [] false false false none) nodeXYa
        (Descendant.child (getTree routerXY GET).root
          (node.mk [] [nodeXYa] [] false false false none) Descendant.self
          (List.mem_singleton.2 rfl))
        (List.mem_singleton.2 rfl))
      (by decide)).1⟩

/-! ## Success of `match` under changes of the trie -/

theorem multiLoop_mono (ra rb : Nat → Params → Option H × Params) (path : Str) (pi : Nat)
    (hrec : ∀ j np np', (ra j np).1 ≠ none → (rb j np').1 ≠ none) :
    ∀ c np np', (multiLoop ra path pi c np).1 ≠ none →
      (multiLoop rb path pi c np').1 ≠ none := by
  intro c
  induction c with
  | zero =>
    intro np np' hs
    exact absurd rfl hs
  | succ c ih =>
    intro np np' hs
    unfold multiLoop at hs ⊢
    by_cases hskip : pi + c < path.length ∧ path.get? (pi + c) ≠ some '/'
    · rw [if_pos hskip] at hs ⊢
      exact ih np np' hs
    · rw [if_neg hskip] at hs ⊢
      have hr := hrec (pi + c) np np'
      generalize ra (pi + c) np = resa at hs hr
      generalize rb (pi + c) np' = resb at hr ⊢
      obtain ⟨oa, pa⟩ := resa
      obtain ⟨ob, pb⟩ := resb
      cases ob with
      | some hb => simp
      | none =>
        cases oa with
        | some ha => exact absurd rfl (hr (by simp))
        | none => exact ih pa pb hs

theorem tryChild_mono (a b : node H) (ra rb : Nat → Params → Option H × Params)
    (path : Str) (i : Nat) (p p' : Params)
    (hab : a.pfx = b.pfx ∧ a.isParam = b.isParam ∧ a.isWildcard = b.isWildcard
      ∧ a.isMultiWild = b.isMultiWild)
    (hrec : ∀ j np np', (ra j np).1 ≠ none → (rb j np').1 ≠ none)
    (hs : (tryChild a ra path i p).1 ≠ none) : (tryChild b rb path i p').1 ≠ none := by
  obtain ⟨h1, h2, h3, h4⟩ := hab
  unfold tryChild at hs ⊢
  rw [h1, h2, h3, h4] at hs
  dsimp only at hs ⊢
  split_ifs at hs ⊢
  · rw [commit_fst] at hs ⊢
    exact multiLoop_mono ra rb path i hrec _ _ _ hs
  · rw [commit_fst] at hs ⊢
    exact hrec _ _ _ hs
  · rw [commit_fst] at hs ⊢
    exact hrec _ _ _ hs
  · rw [commit_fst] at hs ⊢
    exact hrec _ _ _ hs
  · rw [commit_fst] at hs ⊢
    exact hrec _ _ _ hs
  · exact absurd rfl hs

/-- The children loop returns a handler exactly when the body does for one
of the children. -/
theorem matchChildren_success_iff (cs : List (node H)) (path : Str) (i : Nat) (p : Params) :
    (matchChildren cs path i p).1 ≠ none ↔
      ∃ c ∈ cs, (tryChild c (fun j np => matchNode c path j np) path i p).1 ≠ none := by
  induction cs with
  | nil => simp [matchChildren]
  | cons c rest ih =>
    rw [matchChildren_cons]
    have hf := tryChild_fail c (fun j np => matchNode c path j np) path i p
    generalize hres : tryChild c (fun j np => matchNode c path j np) path i p = res at hf
    obtain ⟨ho, p1⟩ := res
    cases ho with
    | some h =>
      simp only [ne_eq, not_false_eq_true, true_iff, reduceCtorEq]
      exact ⟨c, List.mem_cons_self _ _, by rw [hres]; simp⟩
    | none =>
      have hp : p1 = p := hf rfl
      subst hp
      simp only [List.mem_cons, exists_eq_or_imp, hres, ne_eq, not_true_eq_false, false_or]
      exact ih

/-- Whether `match` returns a handler does not depend on the parameter mapping
it is called with. -/
theorem matchNode_success_indep (path : Str) (n : node H) :
    ∀ (i : Nat) (p p' : Params), (matchNode n path i p).1 ≠ none →
      (matchNode n path i p').1 ≠ none := by
  induction n using node.induct with
  | step pf cs nm b1 b2 b3 hd ih =>
    intro i p p' hs
    rw [matchNode_eq] at hs ⊢
    simp only [node.handler, node.children] at hs ⊢
    split_ifs at hs ⊢
    · exact hs
    · obtain ⟨c, hc, hcs⟩ := (matchChildren_success_iff cs path i p).1 hs
      exact (matchChildren_success_iff cs path i p').2 ⟨c, hc,
        tryChild_mono c c _ _ path i p p' ⟨rfl, rfl, rfl, rfl⟩
          (fun j np np' h => ih c hc j np np' h) hcs⟩

theorem matchNode_setParamName (n : node H) (nm : Str) (path : Str) (i : Nat) (p : Params) :
    matchNode (n.setParamName nm) path i p = matchNode n path i p := by
  rw [matchNode_eq, matchNode_eq]
  cases n
  rfl

theorem matchNode_fixParamName (n : node H) (seg : Str) (path : Str) (i : Nat) (p : Params) :
    matchNode (fixParamName n seg) path i p = matchNode n path i p := by
  unfold fixParamName
  split_ifs
  · exact matchNode_setParamName n _ path i p
  · rfl

theorem fixParamName_flags (c : node H) (seg : Str) :
    (fixParamName c seg).pfx = c.pfx ∧ (fixParamName c seg).isParam = c.isParam
      ∧ (fixParamName c seg).isWildcard = c.isWildcard
      ∧ (fixParamName c seg).isMultiWild = c.isMultiWild := by
  unfold fixParamName
  split_ifs
  · cases c; exact ⟨rfl, rfl, rfl, rfl⟩
  · exact ⟨rfl, rfl, rfl, rfl⟩

theorem stepList_mem (seg : Str) (cont : node H → node H) (cs : List (node H)) :
    ∀ c ∈ cs, c ∈ stepList seg cont cs ∨ cont (fixParamName c seg) ∈ stepList seg cont cs := by
  induction cs with
  | nil => intro c hc; cases hc
  | cons c0 rest ih =>
    intro c hc
    by_cases hm : childMatches c0 seg = true
    · simp only [stepList, hm, if_true, List.mem_cons]
      rcases List.mem_cons.1 hc with e | e
      · right; left; rw [e]
      · left; right; exact e
    · simp only [stepList, hm, if_false, List.mem_cons, Bool.false_eq_true]
      rcases List.mem_cons.1 hc with e | e
      · left; left; exact e
      · rcases ih c e with h | h
        · left; right; exact h
        · right; right; exact h

/-- Inserting a route with a handler that is not `nil` keeps every success of
`match`. -/
theorem insertSegs_mono (h : H) (path : Str) :
    ∀ (segs : List Str) (n : node H) (i : Nat) (p p' : Params),
      (matchNode n path i p).1 ≠ none →
      (matchNode (insertSegs (some h) segs n) path i p').1 ≠ none := by
  intro segs
  induction segs with
  | nil =>
    intro n i p p' hs
    have hs' := matchNode_success_indep path n i p p' hs
    rw [matchNode_eq] at hs' ⊢
    cases n with
    | mk pf cs nm b1 b2 b3 hd =>
      simp only [insertSegs, node.setHandler, node.handler, node.children] at hs' ⊢
      split_ifs at hs' ⊢
      · simp
      · exact hs'
  | cons seg rest ih =>
    intro n i p p' hs
    simp only [insertSegs, step_eq]
    rw [matchNode_eq] at hs ⊢
    cases n with
    | mk pf cs nm b1 b2 b3 hd =>
      simp only [node.setChildren, node.handler, node.children] at hs ⊢
      split_ifs at hs ⊢
      · exact hs
      · obtain ⟨c, hc, hcs⟩ := (matchChildren_success_iff cs path i p).1 hs
        apply (matchChildren_success_iff _ path i p').2
        rcases stepList_mem seg (insertSegs (some h) rest) cs c hc with hmem | hmem
        · exact ⟨c, hmem, tryChild_mono c c _ _ path i p p' ⟨rfl, rfl, rfl, rfl⟩
            (fun j np np' hj => matchNode_success_indep path c j np np' hj) hcs⟩
        · refine ⟨_, hmem, tryChild_mono c _ _ _ path i p p' ?_ ?_ hcs⟩
          · obtain ⟨f1, -, f3, f4, f5⟩ := insertSegs_fields (some h) rest (fixParamName c seg)
            obtain ⟨g1, g3, g4, g5⟩ := fixParamName_flags c seg
            exact ⟨(f1.trans g1).symm, (f3.trans g3).symm, (f4.trans g4).symm,
              (f5.trans g5).symm⟩
          · intro j np np' hj
            apply ih (fixParamName c seg) j np np'
            rw [matchNode_fixParamName]
            exact hj

/-! ## C13: the routing table only grows -/

theorem trieResult_found (res : Option H × Params) :
    (trieResult res).found = true ↔ res.1 ≠ none := by
  obtain ⟨ho, p⟩ := res
  cases ho <;> simp [trieResult]

/-- C13. The routing table only grows: for every router state `r`, every
`Register(m, p, h)` with a handler `h` that is not `nil`, and every method `m'`
and path `q`, if `Match(m', q)` returns `found = true` in `r` then it returns
`found = true` after the `Register` call. -/
theorem table_only_grows (r : Router H) (m p : Str) (h : H) (m' q : Str)
    (hfound : (Match r m' q).found = true) :
    (Match (Register r m p (some h)) m' q).found = true := by
  by_cases hm : m' = m
  · subst hm
    cases ht : r.trees m' with
    | none => simp [Match, ht] at hfound
    | some t =>
      have hg : getTree r m' = t := getTree_of_some r m' t ht
      cases hst : isStaticPath p
      · have htree : (Register r m' p (some h)).trees m'
            = some ⟨t.staticRoutes, insert t.root p (some h)⟩ := by
          rw [Register_pattern r m' p _ hst, hg]
          exact mapSet_same _ _ _
        cases hq : t.staticRoutes q with
        | some hstat => simp [Match, htree, hq]
        | none =>
          rw [Match_of_tree r m' q t ht hq, trieResult_found] at hfound
          rw [Match_of_tree _ m' q _ htree hq, trieResult_found]
          show (matchNode (insert t.root p (some h)) q 0 emptyMap).1 ≠ none
          rw [insert_eq_segs]
          exact insertSegs_mono h q _ t.root 0 emptyMap emptyMap hfound
      · have htree : (Register r m' p (some h)).trees m'
            = some ⟨mapSet t.staticRoutes p (some h), t.root⟩ := by
          rw [Register_static r m' p _ hst, hg]
          exact mapSet_same _ _ _
        by_cases hqp : q = p
        · subst hqp
          simp [Match, htree, mapSet]
        · cases hq : t.staticRoutes q with
          | some hstat =>
            simp [Match, htree, mapSet, hqp, hq]
          | none =>
            have hq' : (mapSet t.staticRoutes p (some h)) q = none := by
              rw [mapSet_other _ _ _ _ hqp]; exact hq
            rw [Match_of_tree r m' q t ht hq] at hfound
            rw [Match_of_tree _ m' q _ htree hq']
            exact hfound
  · rw [Match_congr_trees r _ m' q (Register_trees_other r m m' p (some h) hm)]
    exact hfound

/-- Witness for C13: `/a/1/c` stays found in `routerXY` after registering `/a/**`. -/
theorem table_only_grows_witness :
    (Match (Register routerXY GET "/a/**".toList (some 9)) GET "/a/1/c".toList).found = true :=
  table_only_grows routerXY GET "/a/**".toList 9 GET "/a/1/c".toList (by decide)

/-! ## C11: a trailing slash in `Match` -/

theorem multiLoop_success_iff (recur : Nat → Params → Option H × Params) (path : Str)
    (pi : Nat) (hind : ∀ j np np', (recur j np).1 ≠ none → (recur j np').1 ≠ none) :
    ∀ c np, (multiLoop recur path pi c np).1 ≠ none ↔
      ∃ k, k < c ∧ ¬ (pi + k < path.length ∧ path.get? (pi + k) ≠ some '/')
        ∧ (recur (pi + k) np).1 ≠ none := by
  intro c
  induction c with
  | zero =>
    intro np
    simp [multiLoop]
  | succ c ih =>
    intro np
    unfold multiLoop
    by_cases hskip : pi + c < path.length ∧ path.get? (pi + c) ≠ some '/'
    · rw [if_pos hskip, ih np]
      constructor
      · rintro ⟨k, hk, h1, h2⟩
        exact ⟨k, by omega, h1, h2⟩
      · rintro ⟨k, hk, h1, h2⟩
        have hkc : k ≠ c := by
          intro e; subst e; exact h1 hskip
        exact ⟨k, by omega, h1, h2⟩
    · rw [if_neg hskip]
      generalize hres : recur (pi + c) np = res
      obtain ⟨ho, p1⟩ := res
      cases ho with
      | some h =>
        simp only [ne_eq, not_false_eq_true, true_iff, reduceCtorEq]
        exact ⟨c, by omega, hskip, by rw [hres]; simp⟩
      | none =>
        simp only []
        rw [ih p1]
        constructor
        · rintro ⟨k, hk, h1, h2⟩
          exact ⟨k, by omega, h1, hind _ _ _ h2⟩
        · rintro ⟨k, hk, h1, h2⟩
          have hkc : k ≠ c := by
            intro e; subst e; rw [hres] at h2; exact h2 rfl
          exact ⟨k, by omega, h1, hind _ _ _ h2⟩

theorem get?_snoc_lt (q : Str) (j : Nat) (hj : j < q.length) :
    (q ++ ['/']).get? j = q.get? j := by
  rw [List.get?_eq_getElem?, List.get?_eq_getElem?, List.getElem?_append_left hj]

theorem get?_snoc_len (q : Str) : (q ++ ['/']).get? q.length = some '/' := by
  rw [List.get?_eq_getElem?, List.getElem?_append_right (le_refl _)]
  simp

theorem slash_not_last (q : Str) (hlast : q.getLast? ≠ some '/') (j : Nat)
    (hj : j < q.length) (hs : q.get? j = some '/') : j + 1 < q.length := by
  by_contra hc
  have hjl : j = q.length - 1 := by omega
  apply hlast
  rw [List.getLast?_eq_getElem?, ← hjl, ← List.get?_eq_getElem?]
  exact hs

theorem scanFrom_snoc (l : Str) (e : Nat) : scanFrom (l ++ ['/']) e = scanFrom l e := by
  induction l generalizing e with
  | nil => simp [scanFrom]
  | cons c rest ih =>
    show scanFrom (c :: (rest ++ ['/'])) e = scanFrom (c :: rest) e
    simp only [scanFrom, ih]

theorem scan_snoc (q : Str) (i : Nat) (hi : i ≤ q.length) :
    scan (q ++ ['/']) i = scan q i := by
  unfold scan
  rw [List.drop_append_of_le_length hi, scanFrom_snoc]

theorem scan_bounds (q : Str) (i : Nat) (hi : i ≤ q.length) :
    scan q i ≤ q.length ∧ (scan q i < q.length → q.get? (scan q i) = some '/') := by
  obtain ⟨pre, t, d, hpath, hpre, ht, hd, -, -⟩ := decomp_exists q i hi
  have hscan := scan_of_decomp q pre t d i hpath hpre ht hd
  have hlen := length_of_decomp q pre t d i hpath hpre
  have hget := get?_of_decomp q pre t d i hpath hpre
  rw [hscan, hget]
  refine ⟨by omega, ?_⟩
  intro hlt
  rcases hd with e | ⟨r, e⟩
  · subst e
    simp at hlen
    omega
  · rw [e]; rfl

theorem slice_snoc (q : Str) (a b : Nat) (hb : b ≤ q.length) :
    slice (q ++ ['/']) a b = slice q a b := by
  unfold slice
  by_cases ha : a ≤ q.length
  · rw [List.drop_append_of_le_length ha, List.take_append_of_le_length]
    rw [List.length_drop]
    omega
  · have hz : b - a = 0 := by omega
    rw [hz, List.take_zero, List.take_zero]

theorem slashCursor_scan (q : Str) (hlast : q.getLast? ≠ some '/') (i : Nat)
    (hi : i ≤ q.length) : slashCursor q (scan q i + 1) = scan q i + 1 := by
  obtain ⟨h1, h2⟩ := scan_bounds q i hi
  unfold slashCursor
  split_ifs with hlt
  · rfl
  · by_cases he : scan q i < q.length
    · have := slash_not_last q hlast _ he (h2 he)
      omega
    · omega

theorem tryChild_slash (c : node H) (rq rq' : Nat → Params → Option H × Params) (q : Str)
    (i : Nat) (p p' : Params) (hlast : q.getLast? ≠ some '/') (hi : i < q.length)
    (hrec : ∀ j np np', (rq j np).1 ≠ none → (rq' (slashCursor q j) np').1 ≠ none)
    (hind : ∀ j np np', (rq j np).1 ≠ none → (rq j np').1 ≠ none)
    (hind' : ∀ j np np', (rq' j np).1 ≠ none → (rq' j np').1 ≠ none)
    (hs : (tryChild c rq q i p).1 ≠ none) :
    (tryChild c rq' (q ++ ['/']) i p').1 ≠ none := by
  have hlen' : (q ++ ['/']).length = q.length + 1 := by simp
  unfold tryChild at hs ⊢
  dsimp only at hs ⊢
  rw [scan_snoc q i (by omega), hlen']
  by_cases hmw : c.isMultiWild = true
  · rw [if_pos hmw, commit_fst] at hs ⊢
    obtain ⟨k, hk, hskip, hsucc⟩ := (multiLoop_success_iff rq q i hind _ _).1 hs
    apply (multiLoop_success_iff rq' (q ++ ['/']) i hind' _ _).2
    by_cases hj : i + k < q.length
    · have hget : q.get? (i + k) = some '/' := by
        by_contra hne
        exact hskip ⟨hj, hne⟩
      refine ⟨k, by omega, ?_, ?_⟩
      · rw [get?_snoc_lt q _ hj, hget]
        simp
      · have := hrec (i + k) _ (copyParams p') hsucc
        unfold slashCursor at this
        rw [if_pos hj] at this
        exact this
    · have hjl : i + k = q.length := by omega
      refine ⟨k + 1, by omega, ?_, ?_⟩
      · rw [hlen']
        intro hc
        omega
      · have := hrec (i + k) _ (copyParams p') hsucc
        unfold slashCursor at this
        rw [if_neg hj] at this
        rw [show i + (k + 1) = q.length + 1 from by omega]
        exact this
  · rw [if_neg hmw] at hs ⊢
    by_cases hw : c.isWildcard = true
    · rw [if_pos hw, commit_fst] at hs ⊢
      have := hrec _ _ (copyParams p') hs
      rw [slashCursor_scan q hlast i (by omega)] at this
      exact this
    · rw [if_neg hw] at hs ⊢
      by_cases hp : c.isParam = true
      · rw [if_pos hp, commit_fst] at hs ⊢
        have := hrec _ _
          (mapSet (copyParams p') c.paramName (slice (q ++ ['/']) i (scan q i))) hs
        rw [slashCursor_scan q hlast i (by omega)] at this
        exact this
      · rw [if_neg hp] at hs ⊢
        by_cases hst : q.length ≥ i + c.pfx.length ∧ slice q i (i + c.pfx.length) = c.pfx
        · rw [if_pos hst, commit_fst] at hs
          have hst' : q.length + 1 ≥ i + c.pfx.length
              ∧ slice (q ++ ['/']) i (i + c.pfx.length) = c.pfx :=
            ⟨by omega, by rw [slice_snoc q _ _ hst.1]; exact hst.2⟩
          rw [if_pos hst', commit_fst]
          have := hrec _ _ (copyParams p') hs
          by_cases hn : i + c.pfx.length < q.length
          · rw [get?_snoc_lt q _ hn]
            by_cases hg : q.get? (i + c.pfx.length) = some '/'
            · rw [if_pos ⟨hn, hg⟩] at this
              rw [if_pos ⟨by omega, hg⟩]
              have hlt := slash_not_last q hlast _ hn hg
              unfold slashCursor at this
              rw [if_pos hlt] at this
              exact this
            · rw [if_neg (fun hc => hg hc.2)] at this
              rw [if_neg (fun hc => hg hc.2)]
              unfold slashCursor at this
              rw [if_pos hn] at this
              exact this
          · have hnl : i + c.pfx.length = q.length := by omega
            rw [if_neg (fun hc => hn hc.1)] at this
            rw [hnl, get?_snoc_len, if_pos ⟨by omega, rfl⟩]
            unfold slashCursor at this
            rw [hnl, if_neg (Nat.lt_irrefl _)] at this
            exact this
        · rw [if_neg hst] at hs
          exact absurd rfl hs

/-- A path found by `match` is still found with a slash appended, the cursor
moved past the slash where the shorter path was exhausted. -/
theorem matchNode_slash (q : Str) (hlast : q.getLast? ≠ some '/') (n : node H) :
    ∀ (i : Nat) (p p' : Params), (matchNode n q i p).1 ≠ none →
      (matchNode n (q ++ ['/']) (slashCursor q i) p').1 ≠ none := by
  induction n using node.induct with
  | step pf cs nm b1 b2 b3 hd ih =>
    intro i p p' hs
    have hlen' : (q ++ ['/']).length = q.length + 1 := by simp
    rw [matchNode_eq] at hs ⊢
    simp only [node.handler, node.children] at hs ⊢
    unfold slashCursor
    by_cases hi : i < q.length
    · rw [if_neg (by omega)] at hs
      rw [if_pos hi, if_neg (by rw [hlen']; omega)]
      obtain ⟨c, hc, hcs⟩ := (matchChildren_success_iff cs q i p).1 hs
      exact (matchChildren_success_iff cs _ i p').2 ⟨c, hc,
        tryChild_slash c _ _ q i p p' hlast hi (fun j np np' h => ih c hc j np np' h)
          (fun j np np' h => matchNode_success_indep q c j np np' h)
          (fun j np np' h => matchNode_success_indep _ c j np np' h) hcs⟩
    · rw [if_pos (by omega)] at hs
      rw [if_neg hi, if_pos (by rw [hlen'])]
      exact hs

theorem segments_ne_nil (l : Str) (hl : l ≠ []) : segments l ≠ [] := by
  rw [segments_eq l hl]
  simp

theorem insert_handler (n : node H) (p : Str) (h : Option H) (hp : isStaticPath p = false) :
    (insert n p h).handler = n.handler := by
  have hne : p ≠ [] := by
    intro e; subst e; cases hp
  rw [insert_eq_segs]
  cases hsegs : segments p with
  | nil => exact absurd hsegs (segments_ne_nil p hne)
  | cons seg rest =>
    simp only [insertSegs, step_eq]
    cases n; rfl

theorem Register_rootBare (r : Router H) (m p : Str) (h : Option H) (hr : RootBare r) :
    RootBare (Register r m p h) := by
  have hg : (getTree r m).root.handler = none := by
    unfold getTree
    cases ht : r.trees m with
    | none => rfl
    | some t => exact hr m t ht
  intro m' t ht
  by_cases hm : m' = m
  · subst hm
    cases hst : isStaticPath p
    · rw [Register_pattern r m' p h hst] at ht
      have : t = ⟨(getTree r m').staticRoutes, insert (getTree r m').root p h⟩ := by
        simpa [mapSet] using ht.symm
      rw [this]
      exact (insert_handler _ p h hst).trans hg
    · rw [Register_static r m' p h hst] at ht
      have : t = ⟨mapSet (getTree r m').staticRoutes p h, (getTree r m').root⟩ := by
        simpa [mapSet] using ht.symm
      rw [this]
      exact hg
  · rw [Register_trees_other r m m' p h hm] at ht
    exact hr m' t ht

theorem registerAll_rootBare (regs : List (Str × Str × Option H)) (r : Router H)
    (hr : RootBare r) : RootBare (registerAll r regs) := by
  induction regs generalizing r with
  | nil => exact hr
  | cons e rest ih =>
    obtain ⟨m, p, h⟩ := e
    exact ih _ (Register_rootBare r m p h hr)

/-- C11, counterexample. With only the static path `/x` registered, `Match`
finds `/x` and does not find `/x/`: the static map is probed with the exact
path. -/
theorem trailing_slash_match_counterexample :
    (Match (Register (New : Router Nat) GET "/x".toList (some 1)) GET "/x".toList).found = true
    ∧ (Match (Register (New : Router Nat) GET "/x".toList (some 1)) GET
        ("/x".toList ++ "/".toList)).found = false := by
  decide

/-- C11 (amended). For every router state reached from `New` by `Register`
calls, every method `m` and every path `q` that does not end in `'/'` and is not
a key of the static map of `m`: if `Match(m, q)` returns `found = true` then
`Match(m, q + "/")` returns `found = true`. -/
theorem trailing_slash_match (regs : List (Str × Str × Option H)) (m q : Str)
    (hlast : q.getLast? ≠ some '/')
    (hstatic : (getTree (registerAll New regs) m).staticRoutes q = none)
    (hfound : (Match (registerAll New regs) m q).found = true) :
    (Match (registerAll New regs) m (q ++ ['/'])).found = true := by
  cases ht : (registerAll New regs).trees m with
  | none => simp [Match, ht] at hfound
  | some t =>
    have hq : t.staticRoutes q = none := by
      rw [getTree_of_some _ m t ht] at hstatic
      exact hstatic
    rw [Match_of_tree _ m q t ht hq, trieResult_found] at hfound
    have hbare : t.root.handler = none :=
      registerAll_rootBare regs New (fun _ _ h => by cases h) m t ht
    have hne : 0 < q.length := by
      by_contra hc
      have hz : 0 ≥ q.length := by omega
      rw [matchNode_eq, if_pos hz, hbare] at hfound
      exact hfound rfl
    have hs := matchNode_slash q hlast t.root 0 emptyMap emptyMap hfound
    unfold slashCursor at hs
    rw [if_pos hne] at hs
    cases hq' : t.staticRoutes (q ++ ['/']) with
    | some hstat => simp [Match, ht, hq']
    | none =>
      rw [Match_of_tree _ m _ t ht hq', trieResult_found]
      exact hs

/-- Witness for C11 (amended): `/a/1/d` and `/a/1/d/` in `routerXY`. -/
theorem trailing_slash_match_witness :
    (Match (registerAll (New : Router Nat)
      [(GET, "/a/{x}/c".toList, some 1), (GET, "/a/{y}/d".toList, some 2)]) GET
      ("/a/1/d".toList ++ ['/'])).found = true :=
  trailing_slash_match [(GET, "/a/{x}/c".toList, some 1), (GET, "/a/{y}/d".toList, some 2)]
    GET "/a/1/d".toList (by decide) (by decide) (by decide)

/-! ## C19: matching the registered path itself -/

theorem spells_segments : ∀ (k : Nat) (l pre : Str), l.length ≤ k →
    Spells (pre ++ l) pre.length (segments l) := by
  intro k
  induction k with
  | zero =>
    intro l pre hl
    have : l = [] := List.length_eq_zero.1 (by omega)
    subst this
    simp [segments, Spells]
  | succ k ih =>
    intro l pre hl
    by_cases hne : l = []
    · subst hne
      simp [segments, Spells]
    · rw [segments_eq l hne]
      have hsplit := segOf_append_afterSeg l
      have hseg := slash_not_mem_segOf l
      rcases afterSeg_cases l with hd | ⟨r, hd⟩
      · refine ⟨pre, afterSeg l, ?_, rfl, hseg, ?_, Or.inl hd, ?_, ?_⟩
        · rw [List.append_assoc, hsplit]
        · rw [hsplit]; exact hne
        · intro _
          rw [hd]; rfl
        · rw [hd]
          show Spells (pre ++ l) _ (segments [])
          have hl2 : l = segOf l := by
            have := hsplit
            rw [hd, List.append_nil] at this
            exact this.symm
          simp only [segments, Spells, List.length_append]
          rw [← hl2]
          omega
      · refine ⟨pre, afterSeg l, ?_, rfl, hseg, ?_, Or.inr (by rw [hd]; rfl), ?_, ?_⟩
        · rw [List.append_assoc, hsplit]
        · rw [hsplit]; exact hne
        · intro e
          rw [hd] at e
          cases e
        · rw [hd]
          have hl2 : l = segOf l ++ '/' :: r := by
            have := hsplit
            rw [hd] at this
            exact this.symm
          have hlen : r.length ≤ k := by
            have := congrArg List.length hl2
            simp only [List.length_append, List.length_cons] at this
            omega
          have := ih r (pre ++ segOf l ++ ['/']) hlen
          have hp : pre ++ segOf l ++ ['/'] ++ r = pre ++ l := by
            conv_rhs => rw [hl2]
            simp
          rw [hp] at this
          simpa [List.length_append] using this

theorem stepList_target (seg : Str) (cont : node H → node H) (cs : List (node H))
    (hcs : WFList cs) :
    ∃ c, WF c ∧ SameKind c (newChild seg) ∧ cont c ∈ stepList seg cont cs := by
  induction cs with
  | nil =>
    refine ⟨newChild seg, WF_newChild seg, ⟨rfl, rfl, rfl, rfl, rfl⟩, ?_⟩
    simp [stepList, fixParamName_newChild]
  | cons c0 rest ih =>
    obtain ⟨hk, -, hwf, hrest⟩ := (WFList_cons c0 rest).1 hcs
    by_cases hm : childMatches c0 seg = true
    · have hseg : seg = c0.pfx := childMatches_sameKind c0 c0.pfx seg hk hm
      have hfix : fixParamName c0 seg = c0 := by
        rw [hseg]; exact fixParamName_sameKind c0 c0.pfx hk
      refine ⟨c0, hwf, by rw [hseg]; exact hk, ?_⟩
      simp [stepList, hm, hfix]
    · obtain ⟨c, h1, h2, h3⟩ := ih hrest
      refine ⟨c, h1, h2, ?_⟩
      simp only [stepList, hm, if_false, Bool.false_eq_true]
      exact List.mem_cons_of_mem _ h3

theorem newChild_flags (seg : Str) :
    (seg = ['*', '*'] → (newChild seg : node H).isMultiWild = true)
    ∧ (seg ≠ ['*', '*'] → (newChild seg : node H).isMultiWild = false)
    ∧ (seg = ['*'] → (newChild seg : node H).isWildcard = true)
    ∧ (seg ≠ ['*'] → (newChild seg : node H).isWildcard = false)
    ∧ (seg ≠ ['*'] → seg ≠ ['*', '*'] → (newChild seg : node H).isParam = isParam seg) := by
  refine ⟨?_, ?_, ?_, ?_, ?_⟩
  · intro e; subst e; rfl
  · intro e
    by_cases e1 : seg = ['*'] <;> by_cases e3 : isParam seg = true <;>
      simp [newChild, e, e1, e3, node.isMultiWild]
  · intro e; subst e; rfl
  · intro e
    by_cases e2 : seg = ['*', '*'] <;> by_cases e3 : isParam seg = true <;>
      simp [newChild, e, e2, e3, node.isWildcard]
  · intro e1 e2
    by_cases e3 : isParam seg = true <;> simp [newChild, e1, e2, e3, node.isParam]

/-- In a well-formed trie, after inserting the segments with a handler that is
not `nil`, a path that spells these segments is found. -/
theorem insertSegs_roundtrip (h : H) (path : Str) :
    ∀ (segs : List Str) (n : node H) (i : Nat) (p0 : Params), WF n → MultiLast segs →
      Spells path i segs →
      (matchNode (insertSegs (some h) segs n) path i p0).1 ≠ none := by
  intro segs
  induction segs with
  | nil =>
    intro n i p0 _ _ hsp
    have hi : i ≥ path.length := hsp
    rw [matchNode_eq, if_pos hi]
    cases n
    simp [insertSegs, node.setHandler, node.handler]
  | cons seg rest ih =>
    intro n i p0 hwf hml hsp
    obtain ⟨pre, d, hpath, hpre, hseg, hne, hd, hdrest, hnext⟩ := hsp
    obtain ⟨hmulti, hmlrest⟩ := hml
    have hlen : path.length = i + seg.length + d.length := by
      rw [hpath, ← hpre]; simp only [List.length_append]
    have hi : i < path.length := by
      have : 0 < (seg ++ d).length := List.length_pos.2 hne
      simp only [List.length_append] at this
      omega
    simp only [insertSegs, step_eq]
    rw [matchNode_eq, if_neg (by omega)]
    have hchildren : (n.setChildren (stepList seg (insertSegs (some h) rest) n.children)).children
        = stepList seg (insertSegs (some h) rest) n.children := by
      cases n; rfl
    rw [hchildren]
    obtain ⟨c, hcwf, hck, hcmem⟩ :=
      stepList_target seg (insertSegs (some h) rest) n.children ((WF_iff n).1 hwf)
    apply (matchChildren_success_iff _ path i p0).2
    refine ⟨_, hcmem, ?_⟩
    obtain ⟨f1, -, f3, f4, f5⟩ := insertSegs_fields (some h) rest c
    obtain ⟨k1, -, k3, k4, k5⟩ := hck
    obtain ⟨n1, n2, n3, n4, n5⟩ := newChild_flags (H := H) seg
    have hrec : ∀ np, (matchNode (insertSegs (some h) rest c) path (i + seg.length + 1) np).1
        ≠ none := fun np => ih c _ np hcwf hmlrest hnext
    by_cases e2 : seg = ['*', '*']
    · have hrest : rest = [] := hmulti e2
      subst hrest
      have hend : matchNode (insertSegs (some h) [] c) path path.length p0 = (some h, p0) := by
        rw [matchNode_eq, if_pos (le_refl _)]
        cases c; rfl
      rw [tryChild_multi _ _ path i p0 h ((f5.trans k5).trans (n1 e2)) hi (by rw [hend]),
        commit_fst, hend]
      simp
    · have hmw : (insertSegs (some h) rest c).isMultiWild = false :=
        (f5.trans k5).trans (n2 e2)
      subst hpath
      subst hpre
      by_cases e1 : seg = ['*']
      · rw [tryChild_wildcard _ _ pre seg d p0 hmw ((f4.trans k4).trans (n3 e1)) hseg hd,
          commit_fst]
        exact hrec _
      · have hw : (insertSegs (some h) rest c).isWildcard = false :=
          (f4.trans k4).trans (n4 e1)
        have hp : (insertSegs (some h) rest c).isParam = isParam seg :=
          (f3.trans k3).trans (n5 e1 e2)
        cases hps : isParam seg
        · rw [tryChild_static _ _ pre seg d p0 hmw hw (hp.trans hps)
            ((f1.trans k1).trans (newChild_pfx seg)), commit_fst]
          rcases hd with hd | hd
          · subst hd
            have hrest : rest = [] := hdrest rfl
            subst hrest
            simp only [List.head?_nil, if_false, reduceCtorEq]
            rw [matchNode_eq, if_pos (by simp)]
            cases c
            simp [insertSegs, node.setHandler, node.handler]
          · rw [if_pos hd]
            exact hrec _
        · rw [tryChild_param _ _ pre seg d p0 hmw hw (hp.trans hps) hseg hd, commit_fst]
          exact hrec _

/-- C19, counterexample. With only `/**/a` registered (handler `1`), `Match` on
the literal path `/**/a` reports `found = false`: after `**` the cursor stands
on a `'/'`, where the static child `a` does not match. -/
theorem register_match_roundtrip_counterexample :
    (Match (Register (New : Router Nat) GET "/**/a".toList (some 1)) GET
      "/**/a".toList).found = false := by
  decide

/-- C19 (amended). Register then Match round trip: for every router state
reached from `New` by `Register` calls, every method `m`, every handler `h` that
is not `nil` and every path `p`, static or patterned, in which no segment
follows a `**` segment: after `Register(m, p, h)`, `Match(m, p)` on the literal
path `p` returns `found = true`. -/
theorem register_match_roundtrip (regs : List (Str × Str × Option H)) (m p : Str) (h : H)
    (hmulti : MultiLast (segments p)) :
    (Match (Register (registerAll New regs) m p (some h)) m p).found = true := by
  cases hst : isStaticPath p
  · have hwf : WF (getTree (registerAll New regs) m).root :=
      getTree_WF _ m (registerAll_WF regs New New_WF)
    have htree : (Register (registerAll New regs) m p (some h)).trees m
        = some ⟨(getTree (registerAll New regs) m).staticRoutes,
            insert (getTree (registerAll New regs) m).root p (some h)⟩ := by
      rw [Register_pattern _ m p _ hst]
      exact mapSet_same _ _ _
    cases hq : (getTree (registerAll New regs) m).staticRoutes p with
    | some hstat => simp [Match, htree, hq]
    | none =>
      rw [Match_of_tree _ m p _ htree hq, trieResult_found]
      show (matchNode (insert _ p (some h)) p 0 emptyMap).1 ≠ none
      rw [insert_eq_segs]
      have hsp := spells_segments p.length p [] (le_refl _)
      exact insertSegs_roundtrip h p (segments p) _ 0 emptyMap hwf hmulti hsp
  · rw [match_of_hasStatic _ m p (some h) (hasStatic_register_self _ m p (some h) hst)]

/-- Witness for C19 (amended): `/a/{x}/*/**` registered in `routerOrder`. -/
theorem register_match_roundtrip_witness :
    (Match (Register (registerAll (New : Router Nat)
      [(GET, "/{x}/foo".toList, some 1), (GET, "/*/bar".toList, some 2)]) GET
      "/a/{x}/*/**".toList (some 5)) GET "/a/{x}/*/**".toList).found = true :=
  register_match_roundtrip [(GET, "/{x}/foo".toList, some 1), (GET, "/*/bar".toList, some 2)]
    GET "/a/{x}/*/**".toList 5
    (by
      rw [show segments "/a/{x}/*/**".toList
        = [[], "a".toList, "{x}".toList, ['*'], ['*', '*']] from by decide]
      simp [MultiLast])

/-! ## C12: where a returned handler comes from -/

theorem Prov_iff (Q : List Str → Option H → Prop) (addr : List Str) (n : node H) :
    Prov Q addr n ↔ Q addr n.handler ∧ ProvList Q addr n.children := by
  cases n
  simp only [Prov, node.handler, node.children]

theorem ProvList_cons (Q : List Str → Option H → Prop) (addr : List Str) (c : node H)
    (rest : List (node H)) :
    ProvList Q addr (c :: rest) ↔ Prov Q (addr ++ [c.pfx]) c ∧ ProvList Q addr rest := by
  simp only [ProvList]

theorem ProvList_nil (Q : List Str → Option H → Prop) (addr : List Str) :
    ProvList Q addr ([] : List (node H)) := by
  simp only [ProvList]

theorem provList_mem (Q : List Str → Option H → Prop) (addr : List Str) (cs : List (node H))
    (hcs : ProvList Q addr cs) : ∀ c ∈ cs, Prov Q (addr ++ [c.pfx]) c := by
  induction cs with
  | nil => intro c hc; cases hc
  | cons c0 rest ih =>
    obtain ⟨h0, hrest⟩ := (ProvList_cons Q addr c0 rest).1 hcs
    intro c hc
    rcases List.mem_cons.1 hc with e | e
    · rw [e]; exact h0
    · exact ih hrest c e

/-- A property that holds below `n` can be exchanged for one it implies at all
addresses that extend the address of `n`. -/
theorem prov_mono (Q Q' : List Str → Option H → Prop) (n : node H) :
    ∀ addr, (∀ a hd, addr <+: a → Q a hd → Q' a hd) → Prov Q addr n → Prov Q' addr n := by
  induction n using node.induct with
  | step pf cs nm b1 b2 b3 hd ih =>
    intro addr himp hprov
    rw [Prov_iff] at hprov ⊢
    simp only [node.handler, node.children] at hprov ⊢
    refine ⟨himp addr hd (List.prefix_refl _) hprov.1, ?_⟩
    have hl := hprov.2
    clear hprov
    induction cs with
    | nil => exact ProvList_nil Q' addr
    | cons c rest ihl =>
      obtain ⟨h0, hrest⟩ := (ProvList_cons Q addr c rest).1 hl
      rw [ProvList_cons]
      refine ⟨?_, ihl (fun x hx => ih x (List.mem_cons_of_mem _ hx)) hrest⟩
      apply ih c (List.mem_cons_self _ _) _ _ h0
      intro a hd' hpre hq
      exact himp a hd' ((List.prefix_append addr [c.pfx]).trans hpre) hq

theorem provList_mono (Q Q' : List Str → Option H → Prop) (addr : List Str)
    (cs : List (node H))
    (himp : ∀ c ∈ cs, ∀ a hd, (addr ++ [c.pfx]) <+: a → Q a hd → Q' a hd)
    (hcs : ProvList Q addr cs) : ProvList Q' addr cs := by
  induction cs with
  | nil => exact ProvList_nil Q' addr
  | cons c rest ih =>
    obtain ⟨h0, hrest⟩ := (ProvList_cons Q addr c rest).1 hcs
    rw [ProvList_cons]
    exact ⟨prov_mono Q Q' c _ (himp c (List.mem_cons_self _ _)) h0,
      ih (fun x hx => himp x (List.mem_cons_of_mem _ hx)) hrest⟩

theorem prefix_snoc_ne (addr : List Str) (x seg : Str) (rest a : List Str)
    (hx : x ≠ seg) (hpre : (addr ++ [x]) <+: a) : a ≠ addr ++ seg :: rest := by
  intro e
  subst e
  obtain ⟨t, ht⟩ := hpre
  rw [List.append_assoc, List.append_cancel_left_eq] at ht
  simp only [List.singleton_append, List.cons.injEq] at ht
  exact hx ht.1

theorem prefix_ne_self_snoc (addr : List Str) (seg : Str) (rest : List Str) :
    addr ≠ addr ++ seg :: rest := by
  intro e
  have := congrArg List.length e
  simp at this

theorem prov_leaf (Q : List Str → Option H → Prop) (addr : List Str) (n : node H)
    (hc : n.children = []) (hh : n.handler = none) (hq : Q addr none) : Prov Q addr n := by
  rw [Prov_iff, hc, hh]
  exact ⟨hq, ProvList_nil Q addr⟩

/-- Inserting a route changes the handler at the address of the route and at
no other address. -/
theorem prov_insert (Q Q' : List Str → Option H → Prop) (h : Option H)
    (hnone : ∀ a, Q a none) :
    ∀ (segs : List Str) (n : node H) (addr : List Str), WF n → Prov Q addr n →
      Q' (addr ++ segs) h → (∀ a hd, Q a hd → a ≠ addr ++ segs → Q' a hd) →
      Prov Q' addr (insertSegs h segs n) := by
  intro segs
  induction segs with
  | nil =>
    intro n addr _ hprov hnew hold
    rw [List.append_nil] at hnew hold
    rw [Prov_iff] at hprov ⊢
    have hh : (insertSegs h [] n).handler = h := by cases n; rfl
    have hc : (insertSegs h [] n).children = n.children := by cases n; rfl
    rw [hh, hc]
    refine ⟨hnew, provList_mono Q Q' addr _ ?_ hprov.2⟩
    intro c _ a hd hpre hq
    apply hold a hd hq
    intro e
    subst e
    have := hpre.length_le
    simp at this
  | cons seg rest ih =>
    intro n addr hwf hprov hnew hold
    simp only [insertSegs, step_eq]
    rw [Prov_iff] at hprov ⊢
    have hh : (n.setChildren (stepList seg (insertSegs h rest) n.children)).handler
        = n.handler := by cases n; rfl
    have hc : (n.setChildren (stepList seg (insertSegs h rest) n.children)).children
        = stepList seg (insertSegs h rest) n.children := by cases n; rfl
    rw [hh, hc]
    refine ⟨hold _ _ hprov.1 (prefix_ne_self_snoc addr seg rest), ?_⟩
    have hwl := (WF_iff n).1 hwf
    have hpl := hprov.2
    have hnew' : Q' ((addr ++ [seg]) ++ rest) h := by
      rw [List.append_assoc]; exact hnew
    have hold' : ∀ a hd, Q a hd → a ≠ (addr ++ [seg]) ++ rest → Q' a hd := by
      intro a hd hq hne
      apply hold a hd hq
      rw [List.append_assoc] at hne
      exact hne
    clear hprov hh hc
    generalize n.children = cs at hwl hpl
    induction cs with
    | nil =>
      simp only [stepList, fixParamName_newChild]
      rw [ProvList_cons]
      refine ⟨?_, ProvList_nil Q' addr⟩
      rw [(insertSegs_fields h rest (newChild seg)).1, newChild_pfx]
      exact ih (newChild seg) (addr ++ [seg]) (WF_newChild seg)
        (prov_leaf Q _ _ (newChild_children seg) (newChild_handler seg) (hnone _)) hnew' hold'
    | cons c rest_cs ihl =>
      obtain ⟨hk, hd, hwfc, hrest⟩ := (WFList_cons c rest_cs).1 hwl
      obtain ⟨hpc, hprest⟩ := (ProvList_cons Q addr c rest_cs).1 hpl
      by_cases hm : childMatches c seg = true
      · have hseg : seg = c.pfx := childMatches_sameKind c c.pfx seg hk hm
        have hfix : fixParamName c seg = c := by
          rw [hseg]; exact fixParamName_sameKind c c.pfx hk
        simp only [stepList, hm, if_true, hfix]
        rw [ProvList_cons]
        constructor
        · rw [(insertSegs_fields h rest c).1]
          rw [← hseg] at hpc ⊢
          exact ih c (addr ++ [seg]) hwfc hpc hnew' hold'
        · apply provList_mono Q Q' addr rest_cs _ hprest
          intro c2 hc2 a hd' hpre hq
          apply hold a hd' hq
          exact prefix_snoc_ne addr c2.pfx seg rest a (by rw [hseg]; exact hd c2 hc2) hpre
      · simp only [stepList, hm, if_false, Bool.false_eq_true]
        rw [ProvList_cons]
        refine ⟨?_, ihl hrest hprest⟩
        apply prov_mono Q Q' c _ _ hpc
        intro a hd' hpre hq
        apply hold a hd' hq
        exact prefix_snoc_ne addr c.pfx seg rest a
          (fun e => hm (childMatches_of_pfx c seg e)) hpre

theorem multiLoop_some_elim (recur : Nat → Params → Option H × Params) (path : Str)
    (pi : Nat) (h : H) :
    ∀ c np, (multiLoop recur path pi c np).1 = some h → ∃ j np', (recur j np').1 = some h := by
  intro c
  induction c with
  | zero =>
    intro np hs
    simp [multiLoop] at hs
  | succ c ih =>
    intro np hs
    unfold multiLoop at hs
    split_ifs at hs
    · exact ih np hs
    · generalize hres : recur (pi + c) np = res at hs
      obtain ⟨ho, p1⟩ := res
      cases ho with
      | some h' =>
        exact ⟨pi + c, np, by rw [hres]; exact hs⟩
      | none => exact ih p1 hs

theorem tryChild_some_elim (c : node H) (recur : Nat → Params → Option H × Params)
    (path : Str) (i : Nat) (p : Params) (h : H)
    (hs : (tryChild c recur path i p).1 = some h) : ∃ j np, (recur j np).1 = some h := by
  unfold tryChild at hs
  dsimp only at hs
  split_ifs at hs
  · rw [commit_fst] at hs
    exact multiLoop_some_elim recur path i h _ _ hs
  · rw [commit_fst] at hs
    exact ⟨_, _, hs⟩
  · rw [commit_fst] at hs
    exact ⟨_, _, hs⟩
  · rw [commit_fst] at hs
    exact ⟨_, _, hs⟩
  · rw [commit_fst] at hs
    exact ⟨_, _, hs⟩

theorem matchChildren_some_elim (cs : List (node H)) (path : Str) (i : Nat) (h : H) :
    ∀ p, (matchChildren cs path i p).1 = some h →
      ∃ c ∈ cs, ∃ j np, (matchNode c path j np).1 = some h := by
  induction cs with
  | nil =>
    intro p hs
    simp [matchChildren] at hs
  | cons c rest ih =>
    intro p hs
    rw [matchChildren_cons] at hs
    generalize hres : tryChild c (fun j np => matchNode c path j np) path i p = res at hs
    obtain ⟨ho, p1⟩ := res
    cases ho with
    | some h' =>
      have hh : h' = h := by simpa using hs
      obtain ⟨j, np, hj⟩ := tryChild_some_elim c _ path i p h (by rw [hres, hh])
      exact ⟨c, List.mem_cons_self _ _, j, np, hj⟩
    | none =>
      obtain ⟨c', hc', hj⟩ := ih p1 hs
      exact ⟨c', List.mem_cons_of_mem _ hc', hj⟩

/-- A handler returned by `match` is the handler of a node of the trie. -/
theorem prov_match (Q : List Str → Option H → Prop) (path : Str) (h : H) (n : node H) :
    ∀ (addr : List Str) (i : Nat) (p : Params), Prov Q addr n →
      (matchNode n path i p).1 = some h → ∃ a, Q a (some h) := by
  induction n using node.induct with
  | step pf cs nm b1 b2 b3 hd ih =>
    intro addr i p hprov hs
    rw [Prov_iff] at hprov
    rw [matchNode_eq] at hs
    simp only [node.handler, node.children] at hprov hs
    split_ifs at hs
    · simp only at hs
      rw [hs] at hprov
      exact ⟨addr, hprov.1⟩
    · obtain ⟨c, hc, j, np, hj⟩ := matchChildren_some_elim cs path i h p hs
      exact ih c hc _ j np (provList_mem Q addr cs hprov.2 c hc) hj

theorem lastReg_snoc_self (regs : List (Str × Str × Option H)) (m p : Str) (h : Option H) :
    LastReg (regs ++ [(m, p, h)]) m p h :=
  ⟨regs, [], rfl, fun e he => by cases he⟩

theorem lastReg_snoc_other (regs : List (Str × Str × Option H)) (m p m' p' : Str)
    (h h' : Option H) (hne : ¬ (m' = m ∧ p' = p)) (hl : LastReg regs m p h) :
    LastReg (regs ++ [(m', p', h')]) m p h := by
  obtain ⟨pre, post, e, hpost⟩ := hl
  refine ⟨pre, post ++ [(m', p', h')], by rw [e]; simp, ?_⟩
  intro x hx
  rcases List.mem_append.1 hx with hx | hx
  · exact hpost x hx
  · rw [List.mem_singleton.1 hx]
    exact hne

theorem regQ_none (regs : List (Str × Str × Option H)) (m : Str) (a : List Str) :
    RegQ regs m a none := by
  intro h hh
  cases hh

theorem regQ_snoc_other (regs : List (Str × Str × Option H)) (m m' p' : Str)
    (h' : Option H) (a : List Str) (hd : Option H)
    (hne : ¬ (m' = m ∧ isStaticPath p' = false ∧ segments p' = a))
    (hq : RegQ regs m a hd) : RegQ (regs ++ [(m', p', h')]) m a hd := by
  intro h hh
  obtain ⟨p, hp, hs, hl⟩ := hq h hh
  refine ⟨p, hp, hs, lastReg_snoc_other regs m p m' p' (some h) h' ?_ hl⟩
  rintro ⟨e1, e2⟩
  exact hne ⟨e1, by rw [e2]; exact hp, by rw [e2]; exact hs⟩

theorem getTree_prov (regs : List (Str × Str × Option H)) (r : Router H) (m : Str)
    (hr : RouterProv regs r) :
    Prov (RegQ regs m) [] (getTree r m).root
      ∧ ∀ p h, (getTree r m).staticRoutes p = some h →
          isStaticPath p = true ∧ LastReg regs m p h := by
  unfold getTree
  cases ht : r.trees m with
  | none =>
    refine ⟨prov_leaf _ _ _ rfl rfl (regQ_none regs m []), ?_⟩
    intro p h hs
    simp [emptyMap] at hs
  | some t => exact hr m t ht

/-- One more `Register` call keeps every handler of the router tied to the most
recent registration of its path. -/
theorem Register_prov (regs : List (Str × Str × Option H)) (r : Router H) (m p : Str)
    (h : Option H) (hwf : RouterWF r) (hr : RouterProv regs r) :
    RouterProv (regs ++ [(m, p, h)]) (Register r m p h) := by
  intro m' t ht
  by_cases hm : m' = m
  · subst hm
    obtain ⟨hroot, hstat⟩ := getTree_prov regs r m' hr
    cases hst : isStaticPath p
    · rw [Register_pattern r m' p h hst] at ht
      have ht' : t = ⟨(getTree r m').staticRoutes, insert (getTree r m').root p h⟩ := by
        simpa [mapSet] using ht.symm
      rw [ht']
      dsimp only
      constructor
      · rw [insert_eq_segs]
        apply prov_insert (RegQ regs m') (RegQ (regs ++ [(m', p, h)]) m') h
          (regQ_none regs m') (segments p) _ [] (getTree_WF r m' hwf) hroot
        · intro h0 hh0
          rw [List.nil_append]
          exact ⟨p, hst, rfl, by rw [← hh0]; exact lastReg_snoc_self regs m' p h⟩
        · intro a hd hq hne
          apply regQ_snoc_other regs m' m' p h a hd _ hq
          rintro ⟨_, _, e⟩
          rw [List.nil_append] at hne
          exact hne e.symm
      · intro p0 h0 hs0
        obtain ⟨hp0, hl0⟩ := hstat p0 h0 hs0
        refine ⟨hp0, lastReg_snoc_other regs m' p0 m' p h0 h ?_ hl0⟩
        rintro ⟨_, e⟩
        rw [e, hp0] at hst
        cases hst
    · rw [Register_static r m' p h hst] at ht
      have ht' : t = ⟨mapSet (getTree r m').staticRoutes p h, (getTree r m').root⟩ := by
        simpa [mapSet] using ht.symm
      rw [ht']
      dsimp only
      constructor
      · apply prov_mono (RegQ regs m') (RegQ (regs ++ [(m', p, h)]) m') _ [] _ hroot
        intro a hd _ hq
        apply regQ_snoc_other regs m' m' p h a hd _ hq
        rintro ⟨_, e, _⟩
        rw [e] at hst
        cases hst
      · intro p0 h0 hs0
        by_cases hp : p0 = p
        · subst hp
          rw [mapSet_same] at hs0
          have e : h = h0 := by simpa using hs0
          rw [← e]
          exact ⟨hst, lastReg_snoc_self regs m' p0 h⟩
        · rw [mapSet_other _ _ _ _ hp] at hs0
          obtain ⟨hp0, hl0⟩ := hstat p0 h0 hs0
          exact ⟨hp0, lastReg_snoc_other regs m' p0 m' p h0 h (fun e => hp e.2.symm) hl0⟩
  · rw [Register_trees_other r m m' p h hm] at ht
    obtain ⟨hroot, hstat⟩ := hr m' t ht
    constructor
    · apply prov_mono (RegQ regs m') (RegQ (regs ++ [(m, p, h)]) m') _ [] _ hroot
      intro a hd _ hq
      exact regQ_snoc_other regs m' m p h a hd (fun e => hm e.1.symm) hq
    · intro p0 h0 hs0
      obtain ⟨hp0, hl0⟩ := hstat p0 h0 hs0
      exact ⟨hp0, lastReg_snoc_other regs m' p0 m p h0 h (fun e => hm e.1.symm) hl0⟩

theorem registerAll_snoc (regs : List (Str × Str × Option H)) (r : Router H) (m p : Str)
    (h : Option H) :
    registerAll r (regs ++ [(m, p, h)]) = Register (registerAll r regs) m p h := by
  rw [registerAll_append]
  rfl

theorem registerAll_prov (regs : List (Str × Str × Option H)) :
    RouterProv regs (registerAll (New : Router H) regs) := by
  induction regs using List.reverseRecOn with
  | nil =>
    intro m t ht
    simp [registerAll, New, emptyMap] at ht
  | append_singleton regs e ih =>
    obtain ⟨m, p, h⟩ := e
    rw [registerAll_snoc]
    exact Register_prov regs _ m p h (registerAll_WF regs New New_WF) ih

/-- C12. Handlers are forwarded verbatim: in every router state reached from
`New()` by a sequence `regs` of `Register` calls, if `Match(m, q)` returns
`found = true` then the handler it returns is the handler argument of a call
`Register(m, p, h)` of the sequence, for some path `p`, and no later call of
the sequence registers `p` under `m`. -/
theorem handler_forwarded (regs : List (Str × Str × Option H)) (m q : Str)
    (hfound : (Match (registerAll New regs) m q).found = true) :
    ∃ pre p post, regs = pre ++ (m, p, (Match (registerAll New regs) m q).handler) :: post
      ∧ ∀ e ∈ post, ¬ (e.1 = m ∧ e.2.1 = p) := by
  have hr := registerAll_prov regs
  generalize registerAll (New : Router H) regs = r at hfound hr ⊢
  cases ht : r.trees m with
  | none => simp [Match, ht] at hfound
  | some t =>
    obtain ⟨hroot, hstat⟩ := hr m t ht
    cases hs : t.staticRoutes q with
    | some h0 =>
      obtain ⟨_, pre, post, e, hpost⟩ := hstat q h0 hs
      have hm : (Match r m q).handler = h0 := by simp only [Match, ht, hs]
      rw [hm]
      exact ⟨pre, q, post, e, hpost⟩
    | none =>
      rw [Match_of_tree r m q t ht hs] at hfound ⊢
      generalize hres : matchNode t.root q 0 emptyMap = res at hfound
      obtain ⟨ho, np⟩ := res
      cases ho with
      | none => simp [trieResult] at hfound
      | some h1 =>
        obtain ⟨a, ha⟩ := prov_match (RegQ regs m) q h1 t.root [] 0 emptyMap hroot
          (by rw [hres])
        obtain ⟨p, _, _, pre, post, e, hpost⟩ := ha h1 rfl
        exact ⟨pre, p, post, e, hpost⟩

/-- C12 at a concrete input: after `Register("GET", "/a/{x}", 1)`,
`Register("GET", "/a/{x}", 2)` and `Register("GET", "/b", 3)`, `Match("GET",
"/a/7")` is found, and its handler `2` is the argument of the second call,
which is the last one for `/a/{x}`. -/
theorem handler_forwarded_witness :
    (Match (registerAll New [(GET, "/a/{x}".toList, some 1), (GET, "/a/{x}".toList, some 2),
        (GET, "/b".toList, some 3)]) GET "/a/7".toList).found = true
      ∧ (Match (registerAll New [(GET, "/a/{x}".toList, some 1),
          (GET, "/a/{x}".toList, some 2), (GET, "/b".toList, some 3)]) GET
            "/a/7".toList).handler = some 2
      ∧ ∃ pre p post,
          [(GET, "/a/{x}".toList, some 1), (GET, "/a/{x}".toList, some 2),
              (GET, "/b".toList, some (3 : Nat))]
            = pre ++ (GET, p, (Match (registerAll New [(GET, "/a/{x}".toList, some 1),
                (GET, "/a/{x}".toList, some 2), (GET, "/b".toList, some 3)]) GET
                  "/a/7".toList).handler) :: post
          ∧ ∀ e ∈ post, ¬ (e.1 = GET ∧ e.2.1 = p) :=
  ⟨by decide, by decide,
    handler_forwarded [(GET, "/a/{x}".toList, some 1), (GET, "/a/{x}".toList, some 2),
      (GET, "/b".toList, some 3)] GET "/a/7".toList (by decide)⟩

/-! ## C20: no access out of range -/

theorem indexC_nat (s : Str) (j : Nat) : indexC s (j : Int) = s.get? j := by
  simp [indexC]

theorem indexC_lt (s : Str) (j : Nat) (hj : j < s.length) :
    ∃ c, indexC s (j : Int) = some c ∧ s.get? j = some c := by
  rw [indexC_nat]
  exact ⟨s.get ⟨j, hj⟩, List.get?_eq_get hj, List.get?_eq_get hj⟩

theorem sliceC_nat (s : Str) (a b : Nat) (hab : a ≤ b) (hb : b ≤ s.length) :
    sliceC s (a : Int) (b : Int) = some (slice s a b) := by
  unfold sliceC
  rw [if_pos ⟨by omega, by omega, by omega⟩]
  simp

theorem innerC_eq (seg : Str) (hl : 2 ≤ seg.length) : innerC seg = some (inner seg) := by
  unfold innerC inner
  have e : ((seg.length : Int) - 1) = ((seg.length - 1 : Nat) : Int) := by omega
  rw [e]
  exact sliceC_nat seg 1 (seg.length - 1) (by omega) (by omega)

theorem scan_unfold (path : Str) (e : Nat) :
    scan path e = if e < path.length ∧ path.get? e ≠ some '/' then scan path (e + 1) else e := by
  unfold scan
  by_cases he : e < path.length
  · rw [List.drop_eq_getElem_cons he, List.get?_eq_get he]
    simp only [scanFrom, he, true_and, ne_eq, Option.some.injEq, List.get_eq_getElem]
  · rw [List.drop_eq_nil_of_le (by omega)]
    simp [scanFrom, he]

theorem scanLoopC_eq (path : Str) :
    ∀ fuel e, 1 ≤ fuel → path.length + 1 ≤ fuel + e →
      scanLoopC path fuel e = some (scan path e) := by
  intro fuel
  induction fuel with
  | zero => intro e h1 _; omega
  | succ fuel ih =>
    intro e _ hf
    rw [scan_unfold]
    unfold scanLoopC
    by_cases he : e < path.length
    · obtain ⟨c, hc, hg⟩ := indexC_lt path e he
      rw [if_pos he, hc, hg]
      by_cases hcs : c = '/'
      · simp [hcs]
      · simp only [Option.bind_eq_bind, Option.some_bind, ne_eq, hcs, not_false_eq_true,
          if_true, he, true_and, Option.some.injEq]
        exact ih (e + 1) (by omega) (by omega)
    · simp [he]

theorem scanC_eq (path : Str) (i : Nat) : scanC path i = some (scan path i) :=
  scanLoopC_eq path (path.length + 1) i (by omega) (by omega)

theorem isParam_length (seg : Str) (hs : isParam seg = true) : 2 ≤ seg.length := by
  unfold isParam at hs
  simp only [Bool.and_eq_true, decide_eq_true_eq] at hs
  omega

theorem isParamC_eq (seg : Str) : isParamC seg = some (isParam seg) := by
  unfold isParamC isParam
  by_cases hl : seg.length > 1
  · obtain ⟨c0, h0, g0⟩ := indexC_lt seg 0 (by omega)
    obtain ⟨c1, h1, g1⟩ := indexC_lt seg (seg.length - 1) (by omega)
    have e : ((seg.length : Int) - 1) = ((seg.length - 1 : Nat) : Int) := by omega
    have h0' : indexC seg 0 = some c0 := h0
    rw [if_pos hl, e, h0', h1, g0, g1]
    by_cases hc : c0 = '{' <;> by_cases hc1 : c1 = '}' <;> simp [hc, hc1, hl]
  · simp [hl]

theorem childMatchesC_eq (ch : node H) (seg : Str) :
    childMatchesC ch seg = some (childMatches ch seg) := by
  unfold childMatchesC childMatches
  rw [isParamC_eq]
  by_cases hp : ch.pfx = seg
  · simp [hp]
  · have hb : (ch.pfx == seg) = false := beq_eq_false_iff_ne.2 hp
    rw [if_neg hp, hb]
    clear hp hb
    by_cases hs : isParam seg = true
    · rw [innerC_eq seg (isParam_length seg hs), hs]
      clear hs
      generalize inner seg = s
      cases h1 : ch.isParam <;> cases h2 : ch.isWildcard <;> cases h3 : ch.isMultiWild <;>
        by_cases h4 : ch.paramName = s <;> by_cases h5 : seg = ['*'] <;>
        by_cases h6 : seg = ['*', '*'] <;> simp [h4, h5, h6]
    · rw [Bool.not_eq_true] at hs
      rw [hs]
      clear hs
      cases h1 : ch.isParam <;> cases h2 : ch.isWildcard <;> cases h3 : ch.isMultiWild <;>
        by_cases h5 : seg = ['*'] <;> by_cases h6 : seg = ['*', '*'] <;>
        simp [h5, h6]

theorem findChildC_eq (cs : List (node H)) (seg : Str) :
    findChildC cs seg = some (findChild cs seg) := by
  induction cs with
  | nil => rfl
  | cons c rest ih =>
    simp only [findChildC, findChild, childMatchesC_eq, ih, Option.bind_eq_bind,
      Option.some_bind, Option.pure_def]
    split_ifs <;> rfl

theorem newChildC_eq (seg : Str) : (newChildC seg : Option (node H)) = some (newChild seg) := by
  unfold newChildC newChild
  rw [isParamC_eq]
  by_cases hs : isParam seg = true
  · rw [innerC_eq seg (isParam_length seg hs)]
    split_ifs <;> simp [hs]
  · split_ifs <;> simp [hs]

theorem fixParamNameC_eq (child : node H) (seg : Str)
    (hp : child.isParam = true → 2 ≤ seg.length) :
    fixParamNameC child seg = some (fixParamName child seg) := by
  unfold fixParamNameC fixParamName
  by_cases h : child.isParam = true
  · rw [if_pos h, if_pos h, innerC_eq seg (hp h)]
    rfl
  · rw [if_neg h, if_neg h]
    rfl

theorem updateAtC_eq {α : Type} (fC : α → Option α) (f : α → α) (cs : List α) :
    ∀ k, (∀ a, cs.get? k = some a → fC a = some (f a)) →
      updateAtC fC cs k = some (updateAt f cs k) := by
  induction cs with
  | nil => intro k _; rfl
  | cons a rest ih =>
    intro k hk
    cases k with
    | zero =>
      simp only [updateAtC, updateAt, hk a rfl, Option.bind_eq_bind, Option.some_bind,
        Option.pure_def]
    | succ k =>
      simp only [updateAtC, updateAt, ih k (fun b hb => hk b (by simpa using hb)),
        Option.bind_eq_bind, Option.some_bind, Option.pure_def]

theorem newChild_isParam_imp (seg : Str) (hs : (newChild seg : node H).isParam = true) :
    isParam seg = true := by
  unfold newChild at hs
  split_ifs at hs with h1 h2 h3
  · cases hs
  · cases hs
  · exact h3
  · cases hs

/-- A child that `findChild` returns for `seg` in a well-formed trie and that
is flagged `isParam` has the prefix `seg`, which is of parameter form. -/
theorem reused_child_param (c : node H) (seg : Str) (hk : SameKind c (newChild c.pfx))
    (hm : childMatches c seg = true) (hp : c.isParam = true) :
    seg = c.pfx ∧ isParam seg = true := by
  have hseg : seg = c.pfx := childMatches_sameKind c c.pfx seg hk hm
  refine ⟨hseg, ?_⟩
  rw [hseg]
  apply newChild_isParam_imp (H := H)
  rw [← hk.2.2.1]
  exact hp

theorem stepC_eq (n : node H) (seg : Str) (contC : node H → Option (node H))
    (cont : node H → node H) (hwf : WFList n.children)
    (hcont : ∀ c, WF c → contC c = some (cont c)) :
    stepC n seg contC = some (step n seg cont) := by
  unfold stepC step
  rw [findChildC_eq]
  simp only [Option.bind_eq_bind, Option.some_bind]
  cases hf : findChild n.children seg with
  | some k =>
    obtain ⟨c, hget, hm⟩ := findChild_get n.children seg k hf
    obtain ⟨hk, hwc⟩ := WFList_mem n.children hwf c (List.get?_mem hget)
    dsimp only
    rw [updateAtC_eq _ (fun child => cont (fixParamName child seg)) n.children k]
    · rfl
    · intro a ha
      rw [hget] at ha
      cases ha
      have hfix : fixParamNameC c seg = some (fixParamName c seg) :=
        fixParamNameC_eq c seg (fun hp => isParam_length seg (reused_child_param c seg hk hm hp).2)
      have hseg : seg = c.pfx := childMatches_sameKind c c.pfx seg hk hm
      rw [hfix]
      simp only [Option.some_bind]
      apply hcont
      rw [hseg, fixParamName_sameKind c c.pfx hk]
      exact hwc
  | none =>
    dsimp only
    rw [newChildC_eq]
    simp only [Option.some_bind]
    rw [fixParamNameC_eq (newChild seg) seg
      (fun hp => isParam_length seg (newChild_isParam_imp seg hp))]
    simp only [Option.some_bind]
    rw [fixParamName_newChild, hcont _ (WF_newChild seg)]
    rfl

theorem scan_ge (q : Str) (i : Nat) (hi : i ≤ q.length) : i ≤ scan q i := by
  obtain ⟨pre, t, d, hpath, hpre, ht, hd, -, -⟩ := decomp_exists q i hi
  rw [scan_of_decomp q pre t d i hpath hpre ht hd]
  omega

theorem insertLoopC_eq (path : Str) (h : Option H) :
    ∀ (fuel : Nat) (n : node H) (i : Nat), WF n → i ≤ path.length → path.length - i < fuel →
      insertLoopC path h fuel n i = some (insertLoop path h fuel n i) := by
  intro fuel
  induction fuel with
  | zero => intro n i _ _ hf; omega
  | succ fuel ih =>
    intro n i hwf hi hf
    unfold insertLoopC insertLoop
    by_cases hlen : i ≥ path.length
    · rw [if_pos hlen, if_pos hlen]
      rfl
    · rw [if_neg hlen, if_neg hlen]
      have hge := scan_ge path i hi
      obtain ⟨hle, hslash⟩ := scan_bounds path i hi
      dsimp only
      simp only [scanC_eq, sliceC_nat path i (scan path i) hge hle, Option.bind_eq_bind,
        Option.some_bind, Option.pure_def]
      by_cases hlt : scan path i < path.length
      · obtain ⟨c, hc, hg⟩ := indexC_lt path (scan path i) hlt
        have hcs : c = '/' := by
          rw [hslash hlt] at hg
          exact (Option.some.inj hg).symm
        have hcond : scan path i < path.length ∧ path.get? (scan path i) = some '/' :=
          ⟨hlt, hslash hlt⟩
        rw [if_pos hcond]
        simp only [if_pos hlt, hc, hcs, Option.some_bind, if_true]
        exact stepC_eq n _ _ _ ((WF_iff n).1 hwf)
          (fun child hchild => ih child (scan path i + 1) hchild (by omega) (by omega))
      · have hcond : ¬ (scan path i < path.length ∧ path.get? (scan path i) = some '/') :=
          fun hh => hlt hh.1
        rw [if_neg hcond]
        simp only [if_neg hlt, Option.some_bind]
        exact stepC_eq n _ _ _ ((WF_iff n).1 hwf)
          (fun child hchild => ih child (scan path i) hchild (by omega) (by omega))

/-- On a well-formed trie `insert` makes no access out of range. -/
theorem insertC_eq (n : node H) (path : Str) (h : Option H) (hwf : WF n) :
    insertC n path h = some (insert n path h) :=
  insertLoopC_eq path h (path.length + 1) n 0 hwf (Nat.zero_le _) (by omega)

theorem multiLoopC_eq (recurC : Nat → Params → Option (Option H × Params))
    (recur : Nat → Params → Option H × Params) (path : Str) (pi : Nat)
    (hrec : ∀ j np, recurC j np = some (recur j np)) :
    ∀ c np, multiLoopC recurC path pi c np = some (multiLoop recur path pi c np) := by
  intro c
  induction c with
  | zero => intro np; rfl
  | succ c ih =>
    intro np
    unfold multiLoopC multiLoop
    by_cases hlt : pi + c < path.length
    · obtain ⟨b, hb, hg⟩ := indexC_lt path (pi + c) hlt
      rw [if_pos hlt, hb, hg]
      by_cases hbs : b = '/'
      · simp only [Option.bind_eq_bind, Option.some_bind, Option.pure_def, hbs, ne_eq,
          not_true_eq_false, decide_False, Bool.false_eq_true, if_false, and_false, hrec]
        cases recur (pi + c) np with
        | mk ho np1 =>
          cases ho with
          | some h1 => rfl
          | none => exact ih np1
      · have hcond : pi + c < path.length ∧ some b ≠ some '/' :=
          ⟨hlt, fun e => hbs (Option.some.inj e)⟩
        rw [if_pos hcond]
        simp only [Option.bind_eq_bind, Option.some_bind, Option.pure_def, ne_eq, hbs,
          not_false_eq_true, decide_True, if_true]
        exact ih np
    · rw [if_neg hlt, if_neg (fun hh => hlt hh.1)]
      simp only [Option.bind_eq_bind, Option.some_bind, Option.pure_def, Bool.false_eq_true,
        if_false, hrec]
      cases recur (pi + c) np with
      | mk ho np1 =>
        cases ho with
        | some h1 => rfl
        | none => exact ih np1

theorem tryChildC_eq (ch : node H) (recurC : Nat → Params → Option (Option H × Params))
    (recur : Nat → Params → Option H × Params) (path : Str) (i : Nat) (params : Params)
    (hrec : ∀ j np, recurC j np = some (recur j np)) (hi : i < path.length) :
    tryChildC ch recurC path i params = some (tryChild ch recur path i params) := by
  unfold tryChildC tryChild
  dsimp only
  have hge := scan_ge path i (by omega)
  obtain ⟨hle, -⟩ := scan_bounds path i (by omega)
  by_cases h1 : ch.isMultiWild = true
  · rw [if_pos h1, if_pos h1, multiLoopC_eq recurC recur path i hrec]
    rfl
  · rw [if_neg h1, if_neg h1]
    by_cases h2 : ch.isWildcard = true
    · rw [if_pos h2, if_pos h2, scanC_eq]
      simp only [Option.bind_eq_bind, Option.some_bind, Option.pure_def, hrec]
    · rw [if_neg h2, if_neg h2]
      by_cases h3 : ch.isParam = true
      · rw [if_pos h3, if_pos h3, scanC_eq]
        simp only [Option.bind_eq_bind, Option.some_bind, Option.pure_def, hrec,
          sliceC_nat path i (scan path i) hge hle]
      · rw [if_neg h3, if_neg h3]
        by_cases h4 : path.length ≥ i + ch.pfx.length
        · rw [if_pos h4, sliceC_nat path i (i + ch.pfx.length) (by omega) h4]
          simp only [Option.bind_eq_bind, Option.some_bind]
          by_cases h5 : slice path i (i + ch.pfx.length) = ch.pfx
          · have h45 : path.length ≥ i + ch.pfx.length
                ∧ slice path i (i + ch.pfx.length) = ch.pfx := ⟨h4, h5⟩
            rw [if_pos h45]
            simp only [if_pos h5, Option.bind_eq_bind, Option.some_bind, Option.pure_def]
            by_cases h6 : i + ch.pfx.length < path.length
            · obtain ⟨c, hc, hg⟩ := indexC_lt path (i + ch.pfx.length) h6
              by_cases hcs : c = '/'
              · have hcond : i + ch.pfx.length < path.length
                    ∧ path.get? (i + ch.pfx.length) = some '/' := ⟨h6, by rw [hg, hcs]⟩
                rw [if_pos hcond]
                simp only [if_pos h6, hc, hcs, Option.some_bind, if_true, hrec]
              · have hcond : ¬ (i + ch.pfx.length < path.length
                    ∧ path.get? (i + ch.pfx.length) = some '/') :=
                  fun hh => hcs (by rw [hg] at hh; exact Option.some.inj hh.2)
                rw [if_neg hcond]
                simp only [if_pos h6, hc, hcs, Option.some_bind, if_false, hrec]
            · have hcond : ¬ (i + ch.pfx.length < path.length
                  ∧ path.get? (i + ch.pfx.length) = some '/') := fun hh => h6 hh.1
              rw [if_neg hcond]
              simp only [if_neg h6, Option.some_bind, hrec]
          · have h45 : ¬ (path.length ≥ i + ch.pfx.length
                ∧ slice path i (i + ch.pfx.length) = ch.pfx) := fun hh => h5 hh.2
            rw [if_neg h45]
            simp only [if_neg h5, Option.pure_def]
        · have h45 : ¬ (path.length ≥ i + ch.pfx.length
              ∧ slice path i (i + ch.pfx.length) = ch.pfx) := fun hh => h4 hh.1
          rw [if_neg h4, if_neg h45]
          rfl

theorem matchNodeC_unfold (n : node H) (path : Str) (i : Nat) (params : Params) :
    matchNodeC n path i params =
      if i ≥ path.length then some (n.handler, params)
      else matchChildrenC n.children path i params := by
  cases n
  simp only [matchNodeC, node.handler, node.children, Option.pure_def]

theorem matchChildrenC_eq (cs : List (node H)) (path : Str) (i : Nat) (hi : i < path.length)
    (hcs : ∀ c ∈ cs, ∀ j np, matchNodeC c path j np = some (matchNode c path j np)) :
    ∀ params, matchChildrenC cs path i params = some (matchChildren cs path i params) := by
  induction cs with
  | nil => intro params; rfl
  | cons c rest ih =>
    intro params
    rw [matchChildren_cons]
    simp only [matchChildrenC]
    rw [tryChildC_eq c _ (fun j np => matchNode c path j np) path i params
      (hcs c (List.mem_cons_self _ _)) hi]
    simp only [Option.bind_eq_bind, Option.some_bind]
    cases tryChild c (fun j np => matchNode c path j np) path i params with
    | mk ho p1 =>
      cases ho with
      | some h1 => rfl
      | none => exact ih (fun x hx => hcs x (List.mem_cons_of_mem _ hx)) p1

/-- On every trie and from every cursor, `match` makes no access out of range. -/
theorem matchNodeC_eq (n : node H) :
    ∀ (path : Str) (i : Nat) (params : Params),
      matchNodeC n path i params = some (matchNode n path i params) := by
  induction n using node.induct with
  | step pf cs nm b1 b2 b3 hd ih =>
    intro path i params
    rw [matchNodeC_unfold, matchNode_eq]
    by_cases hi : i ≥ path.length
    · rw [if_pos hi, if_pos hi]
    · rw [if_neg hi, if_neg hi]
      exact matchChildrenC_eq _ path i (by omega) (fun c hc => ih c hc path) params

/-- The check is not vacuous: on a trie that no `Register` call builds, whose
only child is flagged both `isWildcard` and `isParam`, inserting `*` reuses
that child and evaluates `seg[1:len(seg)-1]` with `len(seg) = 1`. -/
theorem insertC_out_of_range_example :
    insertC (node.mk [] [node.mk ['*'] [] [] true true false none] [] false false false
      (none : Option Nat)) "*".toList none = none := rfl

/-- C20. No access out of range: for the trie of any method in any router
state reached from `New()` by `Register` calls (the empty root where the
method has no tree yet), every path string and every handler, `insert` with
every index and slice expression checked against the length of its string
runs to the end and returns what `insert` returns, and `match` with the same
checks returns what `match` returns, from every cursor `i`, the cursor
`len(path) + 1` passed on by the parameter and wildcard cases included. The
checked expressions are `path[i]` and `path[start:i]` in `insert`,
`seg[0]`, `seg[len(seg)-1]` and `seg[1:len(seg)-1]` in `isParam`, `findChild`
and `insert`, and `path[j]`, `path[end]`, `path[pi:end]`,
`path[pi:pi+len(prefix)]` and `path[next]` in `match`. -/
theorem no_out_of_range (regs : List (Str × Str × Option H)) (m path : Str)
    (h : Option H) (i : Nat) (params : Params) :
    insertC (getTree (registerAll New regs) m).root path h
        = some (insert (getTree (registerAll New regs) m).root path h)
      ∧ matchNodeC (getTree (registerAll New regs) m).root path i params
        = some (matchNode (getTree (registerAll New regs) m).root path i params) :=
  ⟨insertC_eq _ path h (getTree_WF _ m (registerAll_WF regs New New_WF)),
    matchNodeC_eq _ path i params⟩

/-! ## C9: registering a path again -/

theorem mapHList_eq {H' : Type} (f : Option H → Option H') (cs : List (node H)) :
    node.mapHList f cs = cs.map (node.mapH f) := by
  induction cs with
  | nil => simp only [node.mapHList, List.map_nil]
  | cons c rest ih => simp only [node.mapHList, List.map_cons, ih]

theorem mapH_mk {H' : Type} (f : Option H → Option H') (p : Str) (cs : List (node H))
    (nm : Str) (b1 b2 b3 : Bool) (hd : Option H) :
    (node.mk p cs nm b1 b2 b3 hd).mapH f = node.mk p (cs.map (node.mapH f)) nm b1 b2 b3 (f hd) := by
  simp only [node.mapH, mapHList_eq]

theorem mapH_fields {H' : Type} (f : Option H → Option H') (n : node H) :
    (n.mapH f).pfx = n.pfx ∧ (n.mapH f).paramName = n.paramName
      ∧ (n.mapH f).isParam = n.isParam ∧ (n.mapH f).isWildcard = n.isWildcard
      ∧ (n.mapH f).isMultiWild = n.isMultiWild := by
  cases n
  rw [mapH_mk]
  exact ⟨rfl, rfl, rfl, rfl, rfl⟩

theorem mapH_children {H' : Type} (f : Option H → Option H') (n : node H) :
    (n.mapH f).children = n.children.map (node.mapH f) := by
  cases n
  rw [mapH_mk]
  rfl

theorem mapH_handler {H' : Type} (f : Option H → Option H') (n : node H) :
    (n.mapH f).handler = f n.handler := by
  cases n
  rw [mapH_mk]
  rfl

theorem mapH_setHandler {H' : Type} (f : Option H → Option H') (n : node H) (h : Option H) :
    (n.setHandler h).mapH f = (n.mapH f).setHandler (f h) := by
  cases n
  simp only [node.setHandler, mapH_mk]

theorem mapH_setChildren {H' : Type} (f : Option H → Option H') (n : node H)
    (cs : List (node H)) :
    (n.setChildren cs).mapH f = (n.mapH f).setChildren (cs.map (node.mapH f)) := by
  cases n
  simp only [node.setChildren, mapH_mk]

theorem mapH_setParamName {H' : Type} (f : Option H → Option H') (n : node H) (s : Str) :
    (n.setParamName s).mapH f = (n.mapH f).setParamName s := by
  cases n
  simp only [node.setParamName, mapH_mk]

theorem childMatches_mapH {H' : Type} (f : Option H → Option H') (c : node H) (seg : Str) :
    childMatches (c.mapH f) seg = childMatches c seg := by
  obtain ⟨e1, e2, e3, e4, e5⟩ := mapH_fields f c
  unfold childMatches
  rw [e1, e2, e3, e4, e5]

theorem fixParamName_mapH {H' : Type} (f : Option H → Option H') (c : node H) (seg : Str) :
    fixParamName (c.mapH f) seg = (fixParamName c seg).mapH f := by
  unfold fixParamName
  rw [(mapH_fields f c).2.2.1]
  by_cases hp : c.isParam = true
  · rw [if_pos hp, if_pos hp, mapH_setParamName]
  · rw [if_neg hp, if_neg hp]

theorem newChild_mapH {H' : Type} (f : Option H → Option H') (hf0 : f none = none)
    (seg : Str) : (newChild seg : node H).mapH f = newChild seg := by
  unfold newChild
  split_ifs <;> simp only [mapH_mk, List.map_nil, hf0]

theorem stepList_mapH {H' : Type} (f : Option H → Option H') (hf0 : f none = none)
    (seg : Str) (cont : node H → node H) (cont' : node H' → node H')
    (hc : ∀ c, cont' (c.mapH f) = (cont c).mapH f) (cs : List (node H)) :
    stepList seg cont' (cs.map (node.mapH f)) = (stepList seg cont cs).map (node.mapH f) := by
  induction cs with
  | nil =>
    simp only [List.map_nil, stepList, List.map_cons, fixParamName_newChild]
    rw [← hc, newChild_mapH f hf0]
  | cons c rest ih =>
    simp only [List.map_cons, stepList, childMatches_mapH]
    by_cases hm : childMatches c seg = true
    · rw [if_pos hm, if_pos hm, List.map_cons, fixParamName_mapH, hc]
    · rw [if_neg hm, if_neg hm, List.map_cons, ih]

/-- `insert` commutes with a relabelling of the handlers that keeps `nil`. -/
theorem insertSegs_mapH {H' : Type} (f : Option H → Option H') (hf0 : f none = none)
    (h : Option H) :
    ∀ (segs : List Str) (n : node H),
      insertSegs (f h) segs (n.mapH f) = (insertSegs h segs n).mapH f := by
  intro segs
  induction segs with
  | nil =>
    intro n
    simp only [insertSegs, mapH_setHandler]
  | cons seg rest ih =>
    intro n
    simp only [insertSegs, step_eq, mapH_setChildren, mapH_children]
    rw [stepList_mapH f hf0 seg (insertSegs h rest) (insertSegs (f h) rest) (fun c => ih c)]

theorem commit_relabel {H' : Type} (f : Option H → Option H') (hf0 : f none = none)
    (hf1 : ∀ x, f (some x) ≠ none) (params : Params) (res : Option H × Params) :
    commit params (relabel f res) = relabel f (commit params res) := by
  obtain ⟨ho, np⟩ := res
  cases ho with
  | none => simp only [relabel, commit, hf0]
  | some x =>
    cases hx : f (some x) with
    | none => exact absurd hx (hf1 x)
    | some y => simp only [relabel, commit, hx]

theorem multiLoop_relabel {H' : Type} (f : Option H → Option H') (hf0 : f none = none)
    (hf1 : ∀ x, f (some x) ≠ none) (recur' : Nat → Params → Option H' × Params)
    (recur : Nat → Params → Option H × Params) (path : Str) (pi : Nat)
    (hrec : ∀ j np, recur' j np = relabel f (recur j np)) :
    ∀ c np, multiLoop recur' path pi c np = relabel f (multiLoop recur path pi c np) := by
  intro c
  induction c with
  | zero =>
    intro np
    simp only [multiLoop, relabel, hf0]
  | succ c ih =>
    intro np
    unfold multiLoop
    by_cases hcond : pi + c < path.length ∧ path.get? (pi + c) ≠ some '/'
    · rw [if_pos hcond, if_pos hcond]
      exact ih np
    · rw [if_neg hcond, if_neg hcond, hrec]
      generalize recur (pi + c) np = res
      obtain ⟨ho, np1⟩ := res
      cases ho with
      | none =>
        simp only [relabel, hf0]
        exact ih np1
      | some x =>
        cases hx : f (some x) with
        | none => exact absurd hx (hf1 x)
        | some y => simp only [relabel, hx]

theorem tryChild_relabel {H' : Type} (f : Option H → Option H') (hf0 : f none = none)
    (hf1 : ∀ x, f (some x) ≠ none) (c : node H)
    (recur' : Nat → Params → Option H' × Params) (recur : Nat → Params → Option H × Params)
    (path : Str) (i : Nat) (params : Params)
    (hrec : ∀ j np, recur' j np = relabel f (recur j np)) :
    tryChild (c.mapH f) recur' path i params = relabel f (tryChild c recur path i params) := by
  obtain ⟨e1, e2, e3, e4, e5⟩ := mapH_fields f c
  unfold tryChild
  rw [e1, e2, e3, e4, e5]
  dsimp only
  by_cases h1 : c.isMultiWild = true
  · rw [if_pos h1, if_pos h1, multiLoop_relabel f hf0 hf1 recur' recur path i hrec,
      commit_relabel f hf0 hf1]
  · rw [if_neg h1, if_neg h1]
    by_cases h2 : c.isWildcard = true
    · rw [if_pos h2, if_pos h2, hrec, commit_relabel f hf0 hf1]
    · rw [if_neg h2, if_neg h2]
      by_cases h3 : c.isParam = true
      · rw [if_pos h3, if_pos h3, hrec, commit_relabel f hf0 hf1]
      · rw [if_neg h3, if_neg h3]
        by_cases h4 : path.length ≥ i + c.pfx.length
            ∧ slice path i (i + c.pfx.length) = c.pfx
        · rw [if_pos h4, if_pos h4, hrec, commit_relabel f hf0 hf1]
        · rw [if_neg h4, if_neg h4]
          simp only [relabel, hf0]

theorem matchChildren_relabel {H' : Type} (f : Option H → Option H') (hf0 : f none = none)
    (hf1 : ∀ x, f (some x) ≠ none) (path : Str) (i : Nat) (cs : List (node H))
    (hcs : ∀ c ∈ cs, ∀ j np, matchNode (c.mapH f) path j np = relabel f (matchNode c path j np)) :
    ∀ params, matchChildren (cs.map (node.mapH f)) path i params
      = relabel f (matchChildren cs path i params) := by
  induction cs with
  | nil =>
    intro params
    simp only [List.map_nil, matchChildren, relabel, hf0]
  | cons c rest ih =>
    intro params
    rw [List.map_cons, matchChildren_cons, matchChildren_cons,
      tryChild_relabel f hf0 hf1 c _ (fun j np => matchNode c path j np) path i params
        (hcs c (List.mem_cons_self _ _))]
    generalize tryChild c (fun j np => matchNode c path j np) path i params = res
    obtain ⟨ho, p1⟩ := res
    cases ho with
    | none =>
      simp only [relabel, hf0]
      exact ih (fun x hx => hcs x (List.mem_cons_of_mem _ hx)) p1
    | some x =>
      cases hx : f (some x) with
      | none => exact absurd hx (hf1 x)
      | some y => simp only [relabel, hx]

/-- `match` commutes with a relabelling of the handlers that keeps `nil` and
only `nil` as `nil`. -/
theorem matchNode_relabel {H' : Type} (f : Option H → Option H') (hf0 : f none = none)
    (hf1 : ∀ x, f (some x) ≠ none) (path : Str) (n : node H) :
    ∀ i params, matchNode (n.mapH f) path i params = relabel f (matchNode n path i params) := by
  induction n using node.induct with
  | step pf cs nm b1 b2 b3 hd ih =>
    intro i params
    rw [matchNode_eq, matchNode_eq, mapH_handler, mapH_children]
    by_cases hi : i ≥ path.length
    · rw [if_pos hi, if_pos hi]
      rfl
    · rw [if_neg hi, if_neg hi]
      exact matchChildren_relabel f hf0 hf1 path i _ (fun c hc => ih c hc) params

theorem mapSet_map {K V W : Type} [DecidableEq K] (g : V → W) (m : GoMap K V) (k : K) (v : V) :
    (fun k' => (mapSet m k v k').map g) = mapSet (fun k' => (m k').map g) k (g v) := by
  funext k'
  unfold mapSet
  split_ifs <;> rfl

theorem getTree_mapH {H' : Type} (f : Option H → Option H') (hf0 : f none = none)
    (r : Router H) (m : Str) :
    getTree (Router.mapH f r) m = Tree.mapH f (getTree r m) := by
  unfold getTree
  have e : (Router.mapH f r).trees m = (r.trees m).map (Tree.mapH f) := rfl
  rw [e]
  cases ht : r.trees m with
  | none =>
    simp only [Option.map_none', Tree.mapH, node.zero, mapH_mk, List.map_nil, hf0]
    rfl
  | some t => simp only [Option.map_some']

/-- `Register` commutes with a relabelling of the handlers that keeps `nil`. -/
theorem Register_mapH {H' : Type} (f : Option H → Option H') (hf0 : f none = none)
    (r : Router H) (m p : Str) (h : Option H) :
    Router.mapH f (Register r m p h) = Register (Router.mapH f r) m p (f h) := by
  cases hst : isStaticPath p
  · rw [Register_pattern r m p h hst, Register_pattern _ m p (f h) hst, getTree_mapH f hf0,
      insert_eq_segs, insert_eq_segs]
    show (⟨fun m' => (mapSet r.trees m _ m').map (Tree.mapH f)⟩ : Router H') = _
    rw [mapSet_map]
    simp only [Tree.mapH, insertSegs_mapH f hf0]
    rfl
  · rw [Register_static r m p h hst, Register_static _ m p (f h) hst, getTree_mapH f hf0]
    show (⟨fun m' => (mapSet r.trees m _ m').map (Tree.mapH f)⟩ : Router H') = _
    rw [mapSet_map]
    simp only [Tree.mapH, mapSet_map]
    rfl

/-- `Match` commutes with a relabelling of the handlers that keeps `nil` and
only `nil` as `nil`. -/
theorem Match_mapH {H' : Type} (f : Option H → Option H') (hf0 : f none = none)
    (hf1 : ∀ x, f (some x) ≠ none) (r : Router H) (m q : Str) :
    Match (Router.mapH f r) m q
      = ⟨f (Match r m q).handler, (Match r m q).params, (Match r m q).found⟩ := by
  cases ht : r.trees m with
  | none =>
    have e : (Router.mapH f r).trees m = none := by
      simp only [Router.mapH, ht, Option.map_none']
    simp only [Match, ht, e, hf0]
  | some t =>
    have e : (Router.mapH f r).trees m = some (Tree.mapH f t) := by
      simp only [Router.mapH, ht, Option.map_some']
    cases hs : t.staticRoutes q with
    | some h =>
      have es : (Tree.mapH f t).staticRoutes q = some (f h) := by
        simp only [Tree.mapH, hs, Option.map_some']
      simp only [Match, ht, e, hs, es]
    | none =>
      have es : (Tree.mapH f t).staticRoutes q = none := by
        simp only [Tree.mapH, hs, Option.map_none']
      have er : (Tree.mapH f t).root = t.root.mapH f := rfl
      simp only [Match, ht, e, hs, es, er, matchNode_relabel f hf0 hf1]
      generalize matchNode t.root q 0 emptyMap = res
      obtain ⟨ho, p1⟩ := res
      cases ho with
      | none => simp only [relabel, trieResult, hf0]
      | some x =>
        cases hx : f (some x) with
        | none => exact absurd hx (hf1 x)
        | some y => simp only [relabel, trieResult, hx]

theorem mapH_mapH_id {H' : Type} (f : Option H → Option H') (g : Option H' → Option H)
    (hgf : ∀ o, g (f o) = o) (n : node H) : (n.mapH f).mapH g = n := by
  induction n using node.induct with
  | step pf cs nm b1 b2 b3 hd ih =>
    rw [mapH_mk, mapH_mk, hgf, List.map_map]
    congr 1
    conv_rhs => rw [← List.map_id cs]
    exact List.map_congr_left (fun c hc => ih c hc)

theorem Router_mapH_mapH_id {H' : Type} (f : Option H → Option H') (g : Option H' → Option H)
    (hgf : ∀ o, g (f o) = o) (r : Router H) : Router.mapH g (Router.mapH f r) = r := by
  cases r with
  | mk trees =>
    simp only [Router.mapH, Router.mk.injEq]
    funext m
    cases trees m with
    | none => rfl
    | some t =>
      cases t with
      | mk sr root =>
        simp only [Option.map_some', Tree.mapH, mapH_mapH_id f g hgf, Option.some.injEq,
          Tree.mk.injEq, and_true]
        funext p
        cases sr p with
        | none => rfl
        | some h => simp only [Option.map_some', hgf]

theorem unmark_map (h o : Option H) : unmark h (Option.map some o) = o := by
  cases o <;> rfl

theorem Match_found_of_handler (r : Router H) (m q : Str)
    (hh : (Match r m q).handler ≠ none) : (Match r m q).found = true := by
  cases ht : r.trees m with
  | none =>
    simp only [Match, ht] at hh
    exact absurd rfl hh
  | some t =>
    cases hs : t.staticRoutes q with
    | some h => simp only [Match, ht, hs]
    | none =>
      simp only [Match, ht, hs] at hh ⊢
      generalize matchNode t.root q 0 emptyMap = res at hh ⊢
      obtain ⟨ho, p1⟩ := res
      cases ho with
      | none => exact absurd rfl hh
      | some x => rfl

theorem Match_register_static_other (r : Router H) (m p q : Str) (x : Option H)
    (hp : isStaticPath p = true) (hq : q ≠ p) :
    Match (Register r m p x) m q = Match r m q := by
  rw [Register_static r m p x hp]
  cases ht : r.trees m with
  | none =>
    have hg : getTree r m = ⟨emptyMap, node.zero⟩ := by simp only [getTree, ht]
    have hz : matchNode (node.zero : node H) q 0 emptyMap = (none, emptyMap) := by
      rw [matchNode_eq]
      split_ifs <;> rfl
    have hs : mapSet (emptyMap : GoMap Str (Option H)) p x q = none := by
      rw [mapSet_other _ _ _ _ hq]
      rfl
    simp only [Match, mapSet_same, ht, hg, hs, hz, trieResult]
  | some t =>
    have hg : getTree r m = t := getTree_of_some r m t ht
    simp only [Match, mapSet_same, ht, hg, mapSet_other _ _ _ _ hq]

/-- A call of `Match` that resolves to the route `p` returns the handler
registered for `p`, when that handler is not `nil` or `p` is static. -/
theorem Match_of_resolves (r : Router H) (m p q : Str) (h : Option H)
    (hres : ResolvesTo r m p q) (hcond : h ≠ none ∨ isStaticPath p = true) :
    Match (Register r m p h) m q = ⟨h, (Match (markRoute r m p) m q).params, true⟩ := by
  unfold ResolvesTo at hres
  cases h with
  | some b =>
    have hf0 : unmark (some b) none = none := rfl
    have hf1 : ∀ x, unmark (some b) (some x) ≠ none := by
      intro x
      cases x <;> simp [unmark]
    have key : Register r m p (some b) = Router.mapH (unmark (some b)) (markRoute r m p) := by
      unfold markRoute
      rw [Register_mapH _ hf0, Router_mapH_mapH_id _ _ (unmark_map (some b))]
      rfl
    rw [key, Match_mapH _ hf0 hf1, hres,
      Match_found_of_handler _ m q (by rw [hres]; exact fun e => by cases e)]
    rfl
  | none =>
    have hp : isStaticPath p = true := by
      rcases hcond with e | e
      · exact absurd rfl e
      · exact e
    by_cases hq : q = p
    · subst hq
      rw [match_of_hasStatic _ m q none (hasStatic_register_self r m q none hp)]
      unfold markRoute
      rw [match_of_hasStatic _ m q (some none) (hasStatic_register_self _ m q (some none) hp)]
    · exfalso
      unfold markRoute at hres
      rw [Match_register_static_other _ m p q _ hp hq,
        Match_mapH (Option.map some) rfl (fun x e => by cases e)] at hres
      simp only at hres
      cases hh : (Match r m q).handler with
      | none => rw [hh] at hres; cases hres
      | some x => rw [hh] at hres; cases hres

/-- C9, counterexample. In the router holding `/u/{x}/z` (9) and `/u/*` (3),
register `/u/{x}` with handler `1`: `Match` on `/u/7` resolves to that route
and returns `1`. After registering `/u/{x}` again with the `nil` handler,
`Match` on `/u/7` returns neither `1` nor `nil`: the node of `{x}` is passed
over and the route `/u/*` answers with `3`. -/
theorem reregister_nil_counterexample :
    (Match (markRoute routerFallback GET "/u/{x}".toList) GET "/u/7".toList).handler
        = some none
    ∧ (Match (Register routerFallback GET "/u/{x}".toList (some 1)) GET
        "/u/7".toList).handler = some 1
    ∧ (Match (Register (Register routerFallback GET "/u/{x}".toList (some 1)) GET
        "/u/{x}".toList none) GET "/u/7".toList).handler = some 3
    ∧ (Match (Register (Register routerFallback GET "/u/{x}".toList (some 1)) GET
        "/u/{x}".toList none) GET "/u/7".toList).found = true := by
  decide

/-- C9 (amended). Re-registration overwrites: `Register(m, p, h1)` followed by
`Register(m, p, h2)` leaves the router in the same state (static maps, tries,
child order, names, handlers) as `Register(m, p, h2)` alone, for static and
patterned `p` and all handlers, `nil` included, and registering the same path
and handler twice equals registering it once. For static `p`, `Match(m, p)`
then returns `h2` with the empty mapping and `found = true`. Every
`Match(m, q)` that resolves to the route `p` returns `h1` after the first call
(for `h1` not `nil`, or `p` static) and, for `h2` not `nil` or `p` static,
returns `h2` with the same parameter mapping and `found = true` after the
second. Example: after `Register(m, "/u/{x}", a)` and `Register(m, "/u/{x}", b)`
on a new router, with `a` and `b` not `nil`, `Match(m, "/u/7")` returns `b` with
`{x: "7"}`. -/
theorem reregister_overwrites (r : Router H) (m p : Str) (h1 h2 : Option H) :
    Register (Register r m p h1) m p h2 = Register r m p h2
    ∧ Register (Register r m p h2) m p h2 = Register r m p h2
    ∧ (isStaticPath p = true →
        Match (Register (Register r m p h1) m p h2) m p = ⟨h2, emptyMap, true⟩)
    ∧ (∀ q, ResolvesTo r m p q →
        ((h1 ≠ none ∨ isStaticPath p = true) →
          Match (Register r m p h1) m q
            = ⟨h1, (Match (markRoute r m p) m q).params, true⟩)
        ∧ ((h2 ≠ none ∨ isStaticPath p = true) →
          Match (Register (Register r m p h1) m p h2) m q
            = ⟨h2, (Match (markRoute r m p) m q).params, true⟩))
    ∧ (∀ (m' : Str) (a b : H),
        Match (Register (Register New m' "/u/{x}".toList (some a)) m' "/u/{x}".toList
            (some b)) m' "/u/7".toList
          = ⟨some b, mapSet emptyMap "x".toList "7".toList, true⟩) := by
  refine ⟨Register_Register r m p h1 h2, Register_Register r m p h2 h2, ?_, ?_, ?_⟩
  · intro hp
    exact match_of_hasStatic _ m p h2 (hasStatic_register_self _ m p h2 hp)
  · intro q hres
    constructor
    · exact fun hc => Match_of_resolves r m p q h1 hres hc
    · intro hc
      rw [Register_Register r m p h1 h2]
      exact Match_of_resolves r m p q h2 hres hc
  · intro m' a b
    rw [Register_Register, Match_single _ _ _ _ (by decide),
      show segments "/u/{x}".toList = [[], "u".toList, "{x}".toList] from by decide]
    rfl

/-- Witness for C9 (amended): in the router holding `/u/{x}/z` (9) and `/u/*`
(3), `/u/{x}` is registered with `1` and then with `2`; `Match` on `/u/7`
resolves to that route, returns `1` after the first call and `2` after the
second, both with `{x: "7"}`. -/
theorem reregister_overwrites_witness :
    ResolvesTo routerFallback GET "/u/{x}".toList "/u/7".toList
    ∧ (Match (markRoute routerFallback GET "/u/{x}".toList) GET "/u/7".toList).params
        "x".toList = some "7".toList
    ∧ Match (Register routerFallback GET "/u/{x}".toList (some 1)) GET "/u/7".toList
        = ⟨some 1, (Match (markRoute routerFallback GET "/u/{x}".toList) GET
            "/u/7".toList).params, true⟩
    ∧ Match (Register (Register routerFallback GET "/u/{x}".toList (some 1)) GET
          "/u/{x}".toList (some 2)) GET "/u/7".toList
        = ⟨some 2, (Match (markRoute routerFallback GET "/u/{x}".toList) GET
            "/u/7".toList).params, true⟩ :=
  ⟨show (Match (markRoute routerFallback GET "/u/{x}".toList) GET "/u/7".toList).handler
      = some none from by decide,
    by decide,
    ((reregister_overwrites routerFallback GET "/u/{x}".toList (some 1) (some 2)).2.2.2.1
      "/u/7".toList
      (show (Match (markRoute routerFallback GET "/u/{x}".toList) GET "/u/7".toList).handler
        = some none from by decide)).1 (Or.inl (by decide)),
    ((reregister_overwrites routerFallback GET "/u/{x}".toList (some 1) (some 2)).2.2.2.1
      "/u/7".toList
      (show (Match (markRoute routerFallback GET "/u/{x}".toList) GET "/u/7".toList).handler
        = some none from by decide)).2 (Or.inl (by decide))⟩

end router
